import Mathlib

/-!
# BadgerDB B+ tree index (`src/btree.cpp`): embedding and properties

The index of `btree.cpp` is embedded as a state-passing program over an explicit page
store.  Every function below follows the statements of the C++ function of the same
name.  A result `none` stands for an execution whose outcome the sources do not fix:
an array index outside the array, a page read through the wrong node layout, a page
number that names no page, or a loop that is still running when the fuel is used up.
C++ exceptions are ordinary results (`Exn`), returned together with the state the
throwing call leaves behind.
-/

namespace BadgerDB

/-! ## Data model -/

/-- The value `Page::INVALID_NUMBER`; the code compares against it and against the literal `0`.
Page numbers (`PageId` in the source) are natural numbers. -/
def INVALID_NUMBER : Nat := 0

/-- The value `INT_MAX` of `limits.h` for a 32-bit `int`. -/
def INT_MAX : Int := 2147483647

/-- The value `INT_MIN` of `limits.h` for a 32-bit `int`. -/
def INT_MIN : Int := -2147483648

structure RecordId where
  page_number : Nat
  slot_number : Nat
deriving DecidableEq, Repr

inductive Datatype where
  | INTEGER
  | DOUBLE
  | STRING
deriving DecidableEq, Repr

inductive Operator where
  | LT
  | LTE
  | GTE
  | GT
deriving DecidableEq, Repr

/-- The exceptions `btree.cpp` includes. -/
inductive Exn where
  | BadIndexInfo
  | BadOpcodes
  | BadScanRange
  | NoSuchKeyFound
  | ScanNotInitialized
  | IndexScanCompleted
deriving DecidableEq, Repr

structure RIDKeyPair where
  rid : RecordId
  key : Int
deriving DecidableEq, Repr

structure PageKeyPair where
  pageNo : Nat
  key : Int
deriving DecidableEq, Repr

structure IndexMetaInfo where
  relationName : String
  attrByteOffset : Int
  attrType : Datatype
  rootPageNo : Nat
  height : Int
deriving DecidableEq, Repr

/-- A leaf page: `keyArray` and `ridArray` have `INTARRAYLEAFSIZE` slots each. -/
structure LeafNodeInt where
  keyArray : Nat → Int
  ridArray : Nat → RecordId
  rightSibPageNo : Nat

/-- An internal page: `keyArray` has `INTARRAYNONLEAFSIZE` slots, `pageNoArray` one more. -/
structure NonLeafNodeInt where
  level : Int
  keyArray : Nat → Int
  pageNoArray : Nat → Nat

/-- What a page of the index file holds, by the layout it was last written through. -/
inductive PageData where
  | metaInfo (m : IndexMetaInfo)
  | leaf (n : LeafNodeInt)
  | nonLeaf (n : NonLeafNodeInt)

/-- The calls the index makes on the buffer manager, in the order it makes them. -/
inductive BufOp where
  | readPage (p : Nat)
  | allocPage (p : Nat)
  | unPinPage (p : Nat) (dirty : Bool)
  | flushFile
deriving DecidableEq, Repr

/-- The index object together with the file and buffer manager it works on.
`freshLeaf p` and `freshNonLeaf p` are the contents of the buffer that `allocPage` hands
out for page `p`, seen through the two node layouts: the sources never fix them, and the
code reads fields of them it has not written (the level of a new root, for one). -/
structure BTreeIndex where
  pages : Nat → Option PageData
  numPages : Nat
  freshLeaf : Nat → LeafNodeInt
  freshNonLeaf : Nat → NonLeafNodeInt
  bufLog : List BufOp
  headerPageNum : Nat
  rootPageNum : Nat
  attributeType : Datatype
  attrByteOffset : Int
  leafOccupancy : Nat
  nodeOccupancy : Nat
  scanExecuting : Bool
  nextEntry : Int
  currentPageNum : Nat
  lowValInt : Int
  highValInt : Int
  lowOp : Operator
  highOp : Operator

/-! ## Buffer manager and page access -/

/-- Pin count of page `p` after the calls of `log`: one per `readPage`/`allocPage`,
minus one per `unPinPage`. -/
def pinCount (p : Nat) : List BufOp → Int
  | [] => 0
  | BufOp.readPage q :: log => (if q = p then 1 else 0) + pinCount p log
  | BufOp.allocPage q :: log => (if q = p then 1 else 0) + pinCount p log
  | BufOp.unPinPage q _ :: log => pinCount p log - (if q = p then 1 else 0)
  | BufOp.flushFile :: log => pinCount p log

/-- The call `bufMgr->readPage(file, p, page)`: the page must exist. -/
def readPage (s : BTreeIndex) (p : Nat) : Option BTreeIndex :=
  match s.pages p with
  | some _ => some { s with bufLog := s.bufLog ++ [BufOp.readPage p] }
  | none => none

/-- Modelled from the spec: `BufMgr::allocPage` on a `BlobFile`, neither among the sources.
It returns a page number never handed out before and never `INVALID`; pages are numbered
from 1 (`btree.cpp` line 58: "First page is #1"). -/
def allocPage (s : BTreeIndex) : BTreeIndex × Nat :=
  ({ s with numPages := s.numPages + 1,
            bufLog := s.bufLog ++ [BufOp.allocPage (s.numPages + 1)] }, s.numPages + 1)

/-- The call `bufMgr->unPinPage(file, p, dirty)`. -/
def unPinPage (s : BTreeIndex) (p : Nat) (dirty : Bool) : BTreeIndex :=
  { s with bufLog := s.bufLog ++ [BufOp.unPinPage p dirty] }

/-- The call `bufMgr->flushFile(file)`. -/
def flushFile (s : BTreeIndex) : BTreeIndex :=
  { s with bufLog := s.bufLog ++ [BufOp.flushFile] }

/-- A write through a node pointer into the buffer of page `p`. -/
def writePage (s : BTreeIndex) (p : Nat) (d : PageData) : BTreeIndex :=
  { s with pages := fun q => if q = p then some d else s.pages q }

/-- The cast `reinterpret_cast<IndexMetaInfo*>` of the buffer of page `p`. -/
def asMeta (s : BTreeIndex) (p : Nat) : Option IndexMetaInfo :=
  match s.pages p with
  | some (PageData.metaInfo m) => some m
  | _ => none

/-- The cast `reinterpret_cast<LeafNodeInt*>` of the buffer of page `p`. -/
def asLeaf (s : BTreeIndex) (p : Nat) : Option LeafNodeInt :=
  match s.pages p with
  | some (PageData.leaf n) => some n
  | _ => none

/-- The cast `reinterpret_cast<NonLeafNodeInt*>` of the buffer of page `p`. -/
def asNonLeaf (s : BTreeIndex) (p : Nat) : Option NonLeafNodeInt :=
  match s.pages p with
  | some (PageData.nonLeaf n) => some n
  | _ => none

/-! ## Array helpers -/

/-- The loop `for (; i <= bound; i++) if (stop i) break;` started at `i` with `n` indices
left to try: the index at which it ends. -/
def findFrom (stop : Nat → Bool) : Nat → Nat → Nat
  | 0, i => i
  | n + 1, i => if stop i then i else findFrom stop n (i + 1)

/-- An assignment `a[i] = v`. -/
def setAt {α : Type} (a : Nat → α) (i : Nat) (v : α) : Nat → α :=
  fun j => if j = i then v else a j

/-- Modelled from the spec: `copyArray<T>(src, dst, n)` of `btree.h`, which is not among
the sources.  It copies `n` elements from `src + srcOff` to `dst + dstOff`; the spec has
it shift a range of one array right by one slot, so the source range is read before the
destination is written. -/
def copyArray {α : Type} (src : Nat → α) (srcOff : Nat) (dst : Nat → α) (dstOff n : Nat) :
    Nat → α :=
  fun j => if dstOff ≤ j ∧ j < dstOff + n then src (srcOff + (j - dstOff)) else dst j

/-- Whether a `copyArray` of `n` elements stays inside a source of `srcSize` and a
destination of `dstSize` slots. -/
def copyFits (srcOff srcSize dstOff dstSize n : Nat) : Bool :=
  n = 0 || (srcOff + n ≤ srcSize && dstOff + n ≤ dstSize)

/-! ## Insertion (`insertUnderNode`, `insertEntry`) -/

/-- Lines 146-151: the index of the first leaf slot whose rid has page number 0. -/
def leafEntryNum (occ : Nat) (n : LeafNodeInt) : Nat :=
  findFrom (fun i => (n.ridArray i).page_number == 0) (occ + 1) 0

/-- Lines 154-160: the first leaf slot whose key is above `key`, or whose rid is empty. -/
def leafPos (occ : Nat) (key : Int) (n : LeafNodeInt) : Nat :=
  findFrom (fun i => decide (key < n.keyArray i) || (n.ridArray i).page_number == 0) (occ + 1) 0

/-- Lines 164-170: shift the slots from `pos` on one to the right (when `pos` is below
`leafOccupancy`) and write the entry at `pos`.  The arrays have `occ + 1` slots.  The
count `entry_num - pos` is never negative: the loop for `pos` stops wherever the loop
for `entry_num` does. -/
def leafPut (occ : Nat) (n : LeafNodeInt) (entry : RIDKeyPair) : Option LeafNodeInt :=
  let entry_num := leafEntryNum occ n
  let pos := leafPos occ entry.key n
  let shifted : Option LeafNodeInt :=
    if pos < occ then
      if copyFits pos (occ + 1) (pos + 1) (occ + 1) (entry_num - pos) then
        some { n with
          keyArray := copyArray n.keyArray pos n.keyArray (pos + 1) (entry_num - pos),
          ridArray := copyArray n.ridArray pos n.ridArray (pos + 1) (entry_num - pos) }
      else none
    else some n
  match shifted with
  | none => none
  | some m =>
    if pos < occ + 1 then
      some { m with keyArray := setAt m.keyArray pos entry.key,
                    ridArray := setAt m.ridArray pos entry.rid }
    else none

/-- The assignment `ridArray[i].page_number = Page::INVALID_NUMBER`: the slot number stays. -/
def clearRid (a : Nat → RecordId) (i : Nat) : Nat → RecordId :=
  setAt a i { a i with page_number := INVALID_NUMBER }

/-- Lines 180-190: the split of a leaf that holds `occ + 1` entries after the insertion.
`fresh` is the buffer of the newly allocated page `new_page_id`.  Returns the old leaf
and the new right sibling.  Both copies stay inside the arrays
(`occ / 2 + 1 + (occ + 1) / 2 = occ + 1`); the bound written into the old leaf is inside
its arrays unless `occ = 0`. -/
def leafSplit (occ : Nat) (cur fresh : LeafNodeInt) (new_page_id : Nat) :
    Option (LeafNodeInt × LeafNodeInt) :=
  if occ / 2 + 1 < occ + 1 then
    some
      ({ keyArray := setAt cur.keyArray (occ / 2 + 1) INT_MAX,
         ridArray := clearRid cur.ridArray (occ / 2 + 1),
         rightSibPageNo := new_page_id },
       { keyArray :=
           setAt (copyArray cur.keyArray (occ / 2 + 1) fresh.keyArray 0 ((occ + 1) / 2))
             ((occ + 1) / 2) INT_MAX,
         ridArray :=
           clearRid (copyArray cur.ridArray (occ / 2 + 1) fresh.ridArray 0 ((occ + 1) / 2))
             ((occ + 1) / 2),
         rightSibPageNo := cur.rightSibPageNo })
  else none

/-- Lines 198-199: the bound written after an insertion that does not split. -/
def leafBound (occ : Nat) (n : LeafNodeInt) (entry_num : Nat) : Option LeafNodeInt :=
  if entry_num + 1 < occ + 1 then
    some { n with keyArray := setAt n.keyArray (entry_num + 1) INT_MAX,
                  ridArray := clearRid n.ridArray (entry_num + 1) }
  else none

/-- Lines 210-216: the child slot an internal node sends `key` to.  The reads
`keyArray[pos]` and `pageNoArray[pos+1]` stay inside the arrays for `pos <= occ`. -/
def nonLeafPos (occ : Nat) (key : Int) (n : NonLeafNodeInt) : Nat :=
  findFrom (fun i => decide (key < n.keyArray i) || n.pageNoArray (i + 1) == 0) (occ + 1) 0

/-- Lines 227-232: the index of the first child slot that holds `INVALID_NUMBER`. -/
def nonLeafEntryNum (occ : Nat) (n : NonLeafNodeInt) : Nat :=
  findFrom (fun i => n.pageNoArray i == INVALID_NUMBER) (occ + 2) 0

/-- Lines 234-240: shift separators and children right of `pos` and install the new
child.  `keyArray` has `occ + 1` slots and `pageNoArray` has `occ + 2`.  The count
`entry_num - 1 - pos` is an `int` in the source; nothing is fixed for a negative one. -/
def nonLeafPut (occ : Nat) (n : NonLeafNodeInt) (pos entry_num : Nat) (new_child : PageKeyPair) :
    Option NonLeafNodeInt :=
  let shifted : Option NonLeafNodeInt :=
    if pos < occ then
      if pos + 1 ≤ entry_num
          ∧ copyFits pos (occ + 1) (pos + 1) (occ + 1) (entry_num - 1 - pos) = true
          ∧ copyFits (pos + 1) (occ + 2) (pos + 2) (occ + 2) (entry_num - 1 - pos) = true then
        some { n with
          keyArray := copyArray n.keyArray pos n.keyArray (pos + 1) (entry_num - 1 - pos),
          pageNoArray :=
            copyArray n.pageNoArray (pos + 1) n.pageNoArray (pos + 2) (entry_num - 1 - pos) }
      else none
    else some n
  match shifted with
  | none => none
  | some m =>
    if pos < occ + 1 then
      some { m with keyArray := setAt m.keyArray pos new_child.key,
                    pageNoArray := setAt m.pageNoArray (pos + 1) new_child.pageNo }
    else none

/-- Lines 249-259: the split of an internal node whose arrays are full after the
insertion.  Returns the old node, the new right sibling and the key handed upward.
Every index used is inside the arrays:
`(occ + 1) / 2 + 1 + occ / 2 = occ + 1` and `(occ + 1) / 2 + 1 + (occ / 2 + 1) = occ + 2`. -/
def nonLeafSplit (occ : Nat) (cur fresh : NonLeafNodeInt) :
    NonLeafNodeInt × NonLeafNodeInt × Int :=
  ({ level := cur.level,
     keyArray := setAt cur.keyArray ((occ + 1) / 2) INT_MAX,
     pageNoArray := setAt cur.pageNoArray ((occ + 1) / 2 + 1) INVALID_NUMBER },
   { level := cur.level,
     keyArray :=
       setAt (copyArray cur.keyArray ((occ + 1) / 2 + 1) fresh.keyArray 0 (occ / 2))
         (occ / 2) INT_MAX,
     pageNoArray :=
       setAt (copyArray cur.pageNoArray ((occ + 1) / 2 + 1) fresh.pageNoArray 0 (occ / 2 + 1))
         (occ / 2 + 1) INVALID_NUMBER },
   cur.keyArray ((occ + 1) / 2))

/-- Lines 266-267: the bounds written after an internal insertion that does not split. -/
def nonLeafBound (occ : Nat) (n : NonLeafNodeInt) (entry_num : Nat) : Option NonLeafNodeInt :=
  if entry_num < occ + 2 ∧ entry_num + 1 < occ + 1 then
    some { n with pageNoArray := setAt n.pageNoArray entry_num INVALID_NUMBER,
                  keyArray := setAt n.keyArray (entry_num + 1) INT_MAX }
  else none

/-- Lines 144-201 and 272 of `insertUnderNode`: the branch taken when `is_leaf` holds,
after the page has been read. -/
def insertLeaf (s : BTreeIndex) (entry : RIDKeyPair) (cur_page_id : Nat) :
    Option (BTreeIndex × PageKeyPair) :=
  match asLeaf s cur_page_id with
  | none => none
  | some cur_node =>
    match leafPut s.leafOccupancy cur_node entry with
    | none => none
    | some put_node =>
      if leafEntryNum s.leafOccupancy cur_node = s.leafOccupancy then
        match leafSplit s.leafOccupancy put_node (s.freshLeaf (s.numPages + 1))
            (s.numPages + 1) with
        | none => none
        | some (left_node, new_right_sibling) =>
          some (unPinPage (unPinPage
              (writePage (writePage (allocPage s).1 cur_page_id (PageData.leaf left_node))
                (s.numPages + 1) (PageData.leaf new_right_sibling))
              (s.numPages + 1) true) cur_page_id true,
            { pageNo := s.numPages + 1, key := new_right_sibling.keyArray 0 })
      else
        match leafBound s.leafOccupancy put_node (leafEntryNum s.leafOccupancy cur_node) with
        | none => none
        | some bound_node =>
          some (unPinPage (writePage s cur_page_id (PageData.leaf bound_node)) cur_page_id true,
            { pageNo := INVALID_NUMBER, key := entry.key })

/-- Lines 226-272 of `insertUnderNode`: what an internal node does once the recursive
call has handed back a split child in `new_child`; `pos` is the slot of the descent. -/
def installChild (s : BTreeIndex) (entry : RIDKeyPair) (cur_page_id : Nat) (pos : Nat)
    (new_child : PageKeyPair) : Option (BTreeIndex × PageKeyPair) :=
  match asNonLeaf s cur_page_id with
  | none => none
  | some cur_node =>
    match nonLeafPut s.nodeOccupancy cur_node pos (nonLeafEntryNum s.nodeOccupancy cur_node)
        new_child with
    | none => none
    | some put_node =>
      if nonLeafEntryNum s.nodeOccupancy cur_node = s.nodeOccupancy + 1 then
        some (unPinPage (unPinPage
            (writePage (writePage (allocPage s).1 cur_page_id
                (PageData.nonLeaf
                  (nonLeafSplit s.nodeOccupancy put_node (s.freshNonLeaf (s.numPages + 1))).1))
              (s.numPages + 1)
              (PageData.nonLeaf
                (nonLeafSplit s.nodeOccupancy put_node (s.freshNonLeaf (s.numPages + 1))).2.1))
            (s.numPages + 1) true) cur_page_id true,
          { pageNo := s.numPages + 1,
            key := (nonLeafSplit s.nodeOccupancy put_node
              (s.freshNonLeaf (s.numPages + 1))).2.2 })
      else
        match nonLeafBound s.nodeOccupancy put_node
            (nonLeafEntryNum s.nodeOccupancy cur_node) with
        | none => none
        | some bound_node =>
          some (unPinPage (writePage s cur_page_id (PageData.nonLeaf bound_node))
              cur_page_id true,
            { pageNo := INVALID_NUMBER, key := entry.key })

/-- The function `BTreeIndex::insertUnderNode`; `fuel` bounds the depth of the recursion.
The result pairs the state with the value left in `*new_child`.  The node pointer of an
internal node is dereferenced again after the recursive call, so `installChild` reads
the page as the call left it. -/
def insertUnderNode : Nat → BTreeIndex → RIDKeyPair → Nat → Bool →
    Option (BTreeIndex × PageKeyPair)
  | 0, _, _, _, _ => none
  | fuel + 1, s, entry, cur_page_id, is_leaf =>
    match readPage s cur_page_id with
    | none => none
    | some s1 =>
      if is_leaf = true then insertLeaf s1 entry cur_page_id
      else
        match asNonLeaf s1 cur_page_id with
        | none => none
        | some cur_node =>
          match insertUnderNode fuel s1 entry
              (cur_node.pageNoArray (nonLeafPos s1.nodeOccupancy entry.key cur_node))
              (cur_node.level != 0) with
          | none => none
          | some (s2, new_child) =>
            if new_child.pageNo = INVALID_NUMBER then
              some (unPinPage s2 cur_page_id true, new_child)
            else
              installChild s2 entry cur_page_id
                (nonLeafPos s1.nodeOccupancy entry.key cur_node) new_child

/-- Lines 293-304: the new root `insertEntry` builds when the old root has split.  Only
`pageNoArray[0]`, `keyArray[0]` and `pageNoArray[1]` of the fresh buffer are written. -/
def newRoot (fresh : NonLeafNodeInt) (rootPageNum : Nat) (newChild : PageKeyPair) :
    NonLeafNodeInt :=
  { level := fresh.level,
    keyArray := setAt fresh.keyArray 0 newChild.key,
    pageNoArray := setAt (setAt fresh.pageNoArray 0 rootPageNum) 1 newChild.pageNo }

/-- Lines 293-304 of `insertEntry`: the root has split into itself and `newChild`. -/
def growRoot (s : BTreeIndex) (newChild : PageKeyPair) : Option BTreeIndex :=
  match asMeta
      (writePage (allocPage s).1 (s.numPages + 1)
        (PageData.nonLeaf (newRoot (s.freshNonLeaf (s.numPages + 1)) s.rootPageNum newChild)))
      s.headerPageNum with
  | none => none
  | some metaInfo =>
    some (unPinPage (unPinPage
        (writePage
          { (writePage (allocPage s).1 (s.numPages + 1)
              (PageData.nonLeaf
                (newRoot (s.freshNonLeaf (s.numPages + 1)) s.rootPageNum newChild)))
            with rootPageNum := s.numPages + 1 }
          s.headerPageNum
          (PageData.metaInfo
            { metaInfo with height := metaInfo.height + 1, rootPageNo := s.numPages + 1 }))
        s.headerPageNum true) (s.numPages + 1) true)

/-- The function `BTreeIndex::insertEntry`; `fuel` bounds the depth of the descent.  The
meta page is read through the pointer taken before the descent, so `growRoot` sees the
page as the descent left it. -/
def insertEntry (fuel : Nat) (s : BTreeIndex) (key : Int) (rid : RecordId) : Option BTreeIndex :=
  match readPage s s.headerPageNum with
  | none => none
  | some s1 =>
    match asMeta s1 s1.headerPageNum with
    | none => none
    | some metaInfo =>
      match insertUnderNode fuel s1 { rid := rid, key := key } s1.rootPageNum
          (metaInfo.height == 1) with
      | none => none
      | some (s2, newChild) =>
        if newChild.pageNo = INVALID_NUMBER then some (unPinPage s2 s2.headerPageNum false)
        else growRoot s2 newChild

/-! ## Range scan (`startScan`, `scanNext`, `endScan`) -/

/-- The function `BTreeIndex::endScan`. -/
def endScan (s : BTreeIndex) : BTreeIndex × Option Exn :=
  if s.scanExecuting = false then (s, some Exn.ScanNotInitialized)
  else (unPinPage { s with scanExecuting := false } s.currentPageNum false, none)

/-- Lines 357-361: the entry at which the `for` loop of the descent breaks, or
`occ` when it runs to its end (`occ` is `nodeOccupancy`). -/
def scanEntry (occ : Nat) (lowVal : Int) (n : NonLeafNodeInt) : Nat :=
  findFrom (fun i => decide (n.keyArray i ≥ lowVal) || i + 1 == occ) occ 0

/-- Lines 362-375: the child page the descent takes at entry `entryId`. -/
def scanChild (lowVal : Int) (n : NonLeafNodeInt) (entryId : Nat) : Nat :=
  let childEntryId := if n.keyArray entryId > lowVal then entryId else entryId + 1
  if n.pageNoArray childEntryId = INVALID_NUMBER then n.pageNoArray entryId
  else n.pageNoArray childEntryId

/-- Lines 356-398: the loop `while (!leaf)`, entered with an internal node pinned as the
current page; `fuel` bounds its iterations.  It ends with the located leaf pinned. -/
def scanDescend : Nat → BTreeIndex → Option BTreeIndex
  | 0, _ => none
  | fuel + 1, s =>
    match asNonLeaf s s.currentPageNum with
    | none => none
    | some currNonLeafNode =>
      let entryId := scanEntry s.nodeOccupancy s.lowValInt currNonLeafNode
      if entryId < s.nodeOccupancy then
        let childPageNum := scanChild s.lowValInt currNonLeafNode entryId
        let s := unPinPage s s.currentPageNum false
        let s := { s with currentPageNum := childPageNum }
        match readPage s s.currentPageNum with
        | none => none
        | some s => if currNonLeafNode.level = 1 then some s else scanDescend fuel s
      else scanDescend fuel s

/-- Line 413-414: the test `startScan` applies to a live leaf key. -/
def startMatch (lowVal highVal : Int) (lowOp : Operator) (currKey : Int) : Bool :=
  (decide (currKey > lowVal) && decide (currKey < highVal))
    || (decide (currKey = lowVal) && decide (lowOp = Operator.GTE))

/-- Lines 402-418: the value of `nextEntry` after the search of the located leaf. -/
def scanFirst (occ : Nat) (lowVal highVal : Int) (lowOp : Operator) (leaf : LeafNodeInt) : Int :=
  let i := findFrom
    (fun i => (leaf.ridArray i).page_number == INVALID_NUMBER
      || startMatch lowVal highVal lowOp (leaf.keyArray i)) occ 0
  if i < occ ∧ (leaf.ridArray i).page_number ≠ INVALID_NUMBER then (i : Int) else -1

/-- The function `BTreeIndex::startScan`; `fuel` bounds the iterations of its descent.
The second component is the exception thrown, if any. -/
def startScan (fuel : Nat) (s : BTreeIndex) (lowValParm : Int) (lowOpParm : Operator)
    (highValParm : Int) (highOpParm : Operator) : Option (BTreeIndex × Option Exn) :=
  if lowOpParm ≠ Operator.GT ∧ lowOpParm ≠ Operator.GTE then some (s, some Exn.BadOpcodes)
  else if highOpParm ≠ Operator.LT ∧ highOpParm ≠ Operator.LTE then
    some (s, some Exn.BadOpcodes)
  else
    let s := { s with lowOp := lowOpParm, highOp := highOpParm,
                      lowValInt := lowValParm, highValInt := highValParm }
    if s.lowValInt > s.highValInt then some (s, some Exn.BadScanRange)
    else
      let s := if s.scanExecuting = true then (endScan s).1 else s
      let s := { s with scanExecuting := true, currentPageNum := s.headerPageNum }
      match readPage s s.currentPageNum with
      | none => none
      | some s =>
        match asMeta s s.currentPageNum with
        | none => none
        | some metaInfo =>
          let isRootLeaf := metaInfo.height == 1
          let s := unPinPage s s.currentPageNum false
          let s := { s with currentPageNum := s.rootPageNum }
          match readPage s s.currentPageNum with
          | none => none
          | some s =>
            match (if isRootLeaf then some s else scanDescend fuel s) with
            | none => none
            | some s =>
              match asLeaf s s.currentPageNum with
              | none => none
              | some leaf =>
                let found := scanFirst s.leafOccupancy s.lowValInt s.highValInt s.lowOp leaf
                let s := { s with nextEntry := found }
                if s.nextEntry ≠ -1 then some (s, none)
                else if leaf.rightSibPageNo = INVALID_NUMBER then
                  some (s, some Exn.NoSuchKeyFound)
                else
                  let s := unPinPage s s.currentPageNum false
                  let s := { s with currentPageNum := leaf.rightSibPageNo }
                  match readPage s s.currentPageNum with
                  | none => none
                  | some s => some ({ s with nextEntry := 0 }, none)

/-- What a call of `scanNext` hands back: the rid written to `outRid`, or the exception. -/
inductive ScanResult where
  | rid (r : RecordId)
  | thrown (e : Exn)
deriving DecidableEq, Repr

/-- Lines 473 and 485: the test `scanNext` applies to the next key. -/
def withinHigh (highVal : Int) (highOp : Operator) (nextKey : Int) : Bool :=
  decide (nextKey < highVal) || (decide (nextKey = highVal) && decide (highOp = Operator.LTE))

/-- The function `BTreeIndex::scanNext`.  The reads `ridArray[nextEntry]` and
`ridArray[nextEntry + 1]` must fall inside the `leafOccupancy + 1` slots of the array. -/
def scanNext (s : BTreeIndex) : Option (BTreeIndex × ScanResult) :=
  if s.scanExecuting = false then some (s, ScanResult.thrown Exn.ScanNotInitialized)
  else if s.nextEntry = -1 then some (s, ScanResult.thrown Exn.IndexScanCompleted)
  else
    match asLeaf s s.currentPageNum with
    | none => none
    | some leaf =>
      if 0 ≤ s.nextEntry ∧ s.nextEntry + 1 < (s.leafOccupancy : Int) + 1 then
        let i := s.nextEntry.toNat
        let outRid := leaf.ridArray i
        if (leaf.ridArray (i + 1)).page_number = INVALID_NUMBER then
          if leaf.rightSibPageNo = INVALID_NUMBER then
            some ({ s with nextEntry := -1 }, ScanResult.rid outRid)
          else
            let s := unPinPage s s.currentPageNum false
            let s := { s with currentPageNum := leaf.rightSibPageNo }
            match readPage s s.currentPageNum with
            | none => none
            | some s =>
              match asLeaf s s.currentPageNum with
              | none => none
              | some leaf =>
                if withinHigh s.highValInt s.highOp (leaf.keyArray 0) = true then
                  some ({ s with nextEntry := 0 }, ScanResult.rid outRid)
                else some ({ s with nextEntry := -1 }, ScanResult.rid outRid)
        else
          if withinHigh s.highValInt s.highOp (leaf.keyArray (i + 1)) = true then
            some ({ s with nextEntry := s.nextEntry + 1 }, ScanResult.rid outRid)
          else some ({ s with nextEntry := -1 }, ScanResult.rid outRid)
      else none

/-- A client loop: call `scanNext` until it throws, at most `fuel` times.  Returns the
rids handed back, in order, and the exception that ended the loop. -/
def scanAll : Nat → BTreeIndex → Option (BTreeIndex × List RecordId × Exn)
  | 0, _ => none
  | fuel + 1, s =>
    match scanNext s with
    | none => none
    | some (s, ScanResult.thrown e) => some (s, [], e)
    | some (s, ScanResult.rid r) =>
      match scanAll fuel s with
      | none => none
      | some (s, rs, e) => some (s, r :: rs, e)

/-- A complete range scan: `startScan`, then `scanNext` until it throws.  The result is
the exception of `startScan` with no rids, or the rids handed back and the exception
that ended the scan. -/
def rangeScan (fuel : Nat) (s : BTreeIndex) (lowVal : Int) (lowOp : Operator) (highVal : Int)
    (highOp : Operator) : Option (List RecordId × Exn) :=
  match startScan fuel s lowVal lowOp highVal highOp with
  | none => none
  | some (_, some e) => some ([], e)
  | some (s, none) =>
    match scanAll fuel s with
    | none => none
    | some (_, rs, e) => some (rs, e)

/-! ## Construction (`BTreeIndex::BTreeIndex`) -/

/-- An index file on disk: its pages and how many have been allocated. -/
structure BlobFile where
  pages : Nat → Option PageData
  numPages : Nat

/-- Lines 49-51: the name of the index file. -/
def indexName (relationName : String) (attrByteOffset : Int) : String :=
  relationName ++ "." ++ toString attrByteOffset

/-- Lines 97-110: the bulk load, one `insertEntry` per record of the relation. -/
def insertAll (fuel : Nat) : BTreeIndex → List RIDKeyPair → Option BTreeIndex
  | s, [] => some s
  | s, e :: es =>
    match insertEntry fuel s e.key e.rid with
    | none => none
    | some s => insertAll fuel s es

/-- Lines 89-95: the root leaf of a new index, written into a fresh buffer. -/
def emptyRoot (fresh : LeafNodeInt) : LeafNodeInt :=
  { keyArray := setAt fresh.keyArray 0 INT_MAX,
    ridArray := clearRid fresh.ridArray 0,
    rightSibPageNo := INVALID_NUMBER }

/-- Lines 38-46: the members the constructor sets before it looks for the file.  The
scan members it leaves unset (`nextEntry`, `currentPageNum`, the bounds and operators)
get fixed values here; no function reads them before it has written them.
`INTARRAYLEAFSIZE` and `INTARRAYNONLEAFSIZE` are the constants of `btree.h`, which is
not among the sources. -/
def initMembers (freshLeaf : Nat → LeafNodeInt) (freshNonLeaf : Nat → NonLeafNodeInt)
    (INTARRAYLEAFSIZE INTARRAYNONLEAFSIZE : Nat) (attrByteOffset : Int)
    (attrType : Datatype) : BTreeIndex :=
  { pages := fun _ => none, numPages := 0, freshLeaf := freshLeaf,
    freshNonLeaf := freshNonLeaf, bufLog := [], headerPageNum := 0, rootPageNum := 0,
    attributeType := attrType, attrByteOffset := attrByteOffset,
    leafOccupancy := INTARRAYLEAFSIZE - 1, nodeOccupancy := INTARRAYNONLEAFSIZE - 1,
    scanExecuting := false, nextEntry := 0, currentPageNum := 0, lowValInt := 0,
    highValInt := 0, lowOp := Operator.GTE, highOp := Operator.LTE }

/-- Lines 55-66: the index file exists.  The page numbered 1 is read as the meta page and
its root page number is taken over; nothing else of the meta record is looked at. -/
def openIndex (s0 : BTreeIndex) (file : BlobFile) : Option BTreeIndex :=
  match readPage { s0 with pages := file.pages, numPages := file.numPages, headerPageNum := 1 }
      1 with
  | none => none
  | some s =>
    match asMeta s s.headerPageNum with
    | none => none
    | some metaInfo =>
      some (unPinPage { s with rootPageNum := metaInfo.rootPageNo } s.headerPageNum false)

/-- Lines 67-95: the index file does not exist.  A meta page and a root leaf are
allocated and written; this is the state in which the bulk load starts. -/
def createIndex (s0 : BTreeIndex) (relationName : String) (attrByteOffset : Int)
    (attrType : Datatype) : BTreeIndex :=
  writePage
    { (writePage { (allocPage { (allocPage s0).1 with headerPageNum := s0.numPages + 1 }).1
          with rootPageNum := s0.numPages + 2 }
        (s0.numPages + 1)
        (PageData.metaInfo
          { relationName := relationName.take 20, attrByteOffset := attrByteOffset,
            attrType := attrType, rootPageNo := s0.numPages + 2, height := 1 }))
      with rootPageNum := s0.numPages + 2 }
    (s0.numPages + 2) (PageData.leaf (emptyRoot (s0.freshLeaf (s0.numPages + 2))))

/-- The constructor `BTreeIndex::BTreeIndex`.  `fs` maps a file name to the index file
of that name, if there is one; `records` are the (rid, key) pairs the scan of the
relation yields; `fuel` bounds the depth of each descent of the bulk load. -/
def construct (fs : String → Option BlobFile) (freshLeaf : Nat → LeafNodeInt)
    (freshNonLeaf : Nat → NonLeafNodeInt) (INTARRAYLEAFSIZE INTARRAYNONLEAFSIZE : Nat)
    (relationName : String) (attrByteOffset : Int) (attrType : Datatype)
    (records : List RIDKeyPair) (fuel : Nat) : Option BTreeIndex :=
  match fs (indexName relationName attrByteOffset) with
  | some file =>
    openIndex
      (initMembers freshLeaf freshNonLeaf INTARRAYLEAFSIZE INTARRAYNONLEAFSIZE attrByteOffset
        attrType) file
  | none =>
    match insertAll fuel
        (createIndex
          (initMembers freshLeaf freshNonLeaf INTARRAYLEAFSIZE INTARRAYNONLEAFSIZE
            attrByteOffset attrType) relationName attrByteOffset attrType) records with
    | none => none
    | some s => some (flushFile (unPinPage (unPinPage s 1 true) 2 true))

/-! ## Relations between states, used to state the properties -/

/-- What a descent leaves alone: state `t` has the members and every meta page of `s`,
and at least the pages of `s`. -/
def Extends (s t : BTreeIndex) : Prop :=
  t.headerPageNum = s.headerPageNum ∧ t.rootPageNum = s.rootPageNum
    ∧ t.leafOccupancy = s.leafOccupancy ∧ t.nodeOccupancy = s.nodeOccupancy
    ∧ t.freshLeaf = s.freshLeaf ∧ t.freshNonLeaf = s.freshNonLeaf
    ∧ s.numPages ≤ t.numPages
    ∧ ∀ q m, q ≤ s.numPages → s.pages q = some (PageData.metaInfo m) →
        t.pages q = some (PageData.metaInfo m)

/-! ## Tree contents -/

/-- The (rid, key) pair in slot `i` of a leaf. -/
def entryAt (n : LeafNodeInt) (i : Nat) : RIDKeyPair :=
  { rid := n.ridArray i, key := n.keyArray i }

/-- The live entries of a leaf: the slots before the first one whose rid has page
number 0, in slot order. -/
def leafEntries (occ : Nat) (n : LeafNodeInt) : List RIDKeyPair :=
  (List.range (leafEntryNum occ n)).map (entryAt n)

/-- The leftmost leaf under page `p`: follow child slot 0, telling leaves from internal
nodes the way `insertUnderNode` does (`is_leaf` for the root, `level` below it). -/
def leftmostLeaf : Nat → BTreeIndex → Nat → Bool → Option Nat
  | 0, _, _, _ => none
  | fuel + 1, s, p, is_leaf =>
    if is_leaf = true then some p
    else
      match asNonLeaf s p with
      | none => none
      | some n => leftmostLeaf fuel s (n.pageNoArray 0) (n.level != 0)

/-- The live entries met along the sibling chain that starts at leaf `p`. -/
def chainEntries : Nat → BTreeIndex → Nat → Option (List RIDKeyPair)
  | 0, _, _ => none
  | fuel + 1, s, p =>
    match asLeaf s p with
    | none => none
    | some n =>
      if n.rightSibPageNo = INVALID_NUMBER then some (leafEntries s.leafOccupancy n)
      else
        match chainEntries fuel s n.rightSibPageNo with
        | none => none
        | some es => some (leafEntries s.leafOccupancy n ++ es)

/-- The contents of the tree: the live entries reachable along the leaf sibling chain
from the leftmost leaf.  A chain without a cycle has at most `numPages` leaves. -/
def contents (s : BTreeIndex) : Option (List RIDKeyPair) :=
  match asMeta s s.headerPageNum with
  | none => none
  | some metaInfo =>
    match leftmostLeaf (s.numPages + 1) s s.rootPageNum (metaInfo.height == 1) with
    | none => none
    | some p => chainEntries (s.numPages + 1) s p

/-! ## Shape of the leaf level, used to state what insertion keeps -/

/-- A leaf holds `c` live entries: slots `0 .. c-1` carry a rid with a page number, slot
`c` carries the bound, and `c` is at most `occ` (`leafOccupancy`). -/
def LeafHolds (occ : Nat) (n : LeafNodeInt) (c : Nat) : Prop :=
  c ≤ occ ∧ (∀ i, i < c → (n.ridArray i).page_number ≠ 0)
    ∧ (n.ridArray c).page_number = 0

/-- Following the sibling pointer `p` visits exactly the leaves `chain`, each holding
some number of live entries, and then reaches `INVALID_NUMBER`. -/
def Linked (s : BTreeIndex) : Nat → List Nat → Prop
  | p, [] => p = INVALID_NUMBER
  | p, q :: rest =>
    p = q ∧ q ≠ INVALID_NUMBER
      ∧ ∃ n c, s.pages q = some (PageData.leaf n) ∧ LeafHolds s.leafOccupancy n c
          ∧ Linked s n.rightSibPageNo rest

/-- The live entries of the leaves `chain`, in chain order. -/
def entriesOf (s : BTreeIndex) : List Nat → List RIDKeyPair
  | [] => []
  | q :: rest =>
    (match s.pages q with
      | some (PageData.leaf n) => leafEntries s.leafOccupancy n
      | _ => []) ++ entriesOf s rest

/-- The chain `chain` with page `r` put right after page `p`. -/
def insertAfter (p r : Nat) : List Nat → List Nat
  | [] => []
  | q :: rest => if q = p then q :: r :: rest else q :: insertAfter p r rest

/-- The shape of an index whose internal nodes never hold more than two children: the
meta page is in place; `chain` lists the leaves along the sibling chain, each page once,
and their live entries are those of `E` in some order; the root is the first leaf of the
chain, or an internal node with a nonzero level whose child 0 is the first leaf of the
chain, whose child 1 is a leaf of the chain and whose child slot 2 is empty.  The fresh
buffers of the buffer manager carry a nonzero level and an empty child slot 2. -/
def TreeInv (s : BTreeIndex) (chain : List Nat) (E : List RIDKeyPair) : Prop :=
  1 ≤ s.leafOccupancy ∧ 3 ≤ s.nodeOccupancy
    ∧ (∀ p, (s.freshNonLeaf p).level ≠ 0) ∧ (∀ p, (s.freshNonLeaf p).pageNoArray 2 = 0)
    ∧ s.headerPageNum ≤ s.numPages
    ∧ chain.Nodup ∧ (∀ q, q ∈ chain → q ≤ s.numPages)
    ∧ List.Perm (entriesOf s chain) E
    ∧ ∃ m p0, s.pages s.headerPageNum = some (PageData.metaInfo m)
        ∧ chain.head? = some p0 ∧ Linked s p0 chain
        ∧ ((m.height = 1 ∧ s.rootPageNum = p0)
          ∨ (m.height ≠ 1 ∧ s.rootPageNum ≤ s.numPages
              ∧ ∃ r, s.pages s.rootPageNum = some (PageData.nonLeaf r)
                  ∧ r.level ≠ 0 ∧ r.pageNoArray 0 = p0 ∧ r.pageNoArray 1 ∈ chain
                  ∧ r.pageNoArray 2 = 0))

/-- State `t` differs from `s` at most in the buffer manager log and the scan members. -/
def SameFile (s t : BTreeIndex) : Prop :=
  t.pages = s.pages ∧ t.numPages = s.numPages ∧ t.leafOccupancy = s.leafOccupancy
    ∧ t.nodeOccupancy = s.nodeOccupancy ∧ t.freshLeaf = s.freshLeaf
    ∧ t.freshNonLeaf = s.freshNonLeaf ∧ t.headerPageNum = s.headerPageNum
    ∧ t.rootPageNum = s.rootPageNum

/-! ## Layout of one node, used to state what one insertion does to it -/

/-- The leaf layout: `c` live entries with strictly ascending keys in slots `0 .. c-1`
and the bound (key `INT_MAX`, page number `INVALID_NUMBER`) in slot `c`. -/
def LeafSorted (occ : Nat) (n : LeafNodeInt) (c : Nat) : Prop :=
  LeafHolds occ n c ∧ n.keyArray c = INT_MAX
    ∧ ∀ i j, i < j → j < c → n.keyArray i < n.keyArray j

/-- An internal node holds `m` live children: the child slots `0 .. m-1` carry a page
number, slot `m` carries `INVALID_NUMBER`, and `m` is at most `occ + 1`
(`nodeOccupancy + 1`), so that slot `m` is one of the `occ + 2` child slots. -/
def NonLeafHolds (occ : Nat) (n : NonLeafNodeInt) (m : Nat) : Prop :=
  m ≤ occ + 1 ∧ (∀ i, i < m → n.pageNoArray i ≠ INVALID_NUMBER)
    ∧ n.pageNoArray m = INVALID_NUMBER

/-- The sequence `a` with `v` inserted at index `pos`: the elements from `pos` on move
one index up. -/
def insertAt {α : Type} (a : Nat → α) (pos : Nat) (v : α) : Nat → α :=
  fun i => if i < pos then a i else if i = pos then v else a (i - 1)

/-! ## Views of a node and of the scan state, used to show concrete runs -/

/-- What an internal node holds: its level, the number of live children (the index of
the first child slot with `INVALID_NUMBER`), and all its child and key slots. -/
structure NonLeafView where
  level : Int
  liveChildren : Nat
  pageNoArray : List Nat
  keyArray : List Int
deriving DecidableEq, Repr

/-- The internal node in page `p`, with its `nodeOccupancy + 2` child slots and
`nodeOccupancy + 1` key slots listed. -/
def nonLeafView (s : BTreeIndex) (p : Nat) : Option NonLeafView :=
  (asNonLeaf s p).map (fun r =>
    { level := r.level,
      liveChildren := nonLeafEntryNum s.nodeOccupancy r,
      pageNoArray := (List.range (s.nodeOccupancy + 2)).map r.pageNoArray,
      keyArray := (List.range (s.nodeOccupancy + 1)).map r.keyArray })

/-- The scan state of an index: the members `startScan`, `scanNext` and `endScan` share. -/
structure ScanView where
  scanExecuting : Bool
  currentPageNum : Nat
  nextEntry : Int
  lowValInt : Int
  highValInt : Int
  lowOp : Operator
  highOp : Operator
deriving DecidableEq, Repr

/-- The scan state of `s`. -/
def scanView (s : BTreeIndex) : ScanView :=
  { scanExecuting := s.scanExecuting, currentPageNum := s.currentPageNum,
    nextEntry := s.nextEntry, lowValInt := s.lowValInt, highValInt := s.highValInt,
    lowOp := s.lowOp, highOp := s.highOp }

/-- The rids the remaining `scanNext` calls of a client hand back, at most `fuel` of
them, until one throws. -/
def remainingRids (fuel : Nat) (s : BTreeIndex) : Option (List RecordId) :=
  (scanAll fuel s).map (fun x => x.2.1)

/-! ## Concrete runs

The runs below use a leaf array of 4 slots and an internal key array of 5 slots (the
`L = 4`, `K = 4` of the scenarios in the specification), and a buffer manager whose
fresh buffers are zero-filled apart from a level field of 1.  `insertEntry` never writes
the level of a new root: with level 0 the next insertion, and with any level other than 1
the next scan, would read a leaf page through the layout of an internal node.  The runs
named `buildZero`, `buildBound`, `buildStale` and `buildSmall` vary the buffers or the
array sizes, as their descriptions say. -/

/-- A zero-filled buffer, seen as a leaf. -/
def zeroLeaf : Nat → LeafNodeInt :=
  fun _ => { keyArray := fun _ => 0, ridArray := fun _ => ⟨0, 0⟩, rightSibPageNo := 0 }

/-- A buffer that is zero-filled apart from its first word, seen as an internal node. -/
def zeroNonLeaf (level : Int) : Nat → NonLeafNodeInt :=
  fun _ => { level := level, keyArray := fun _ => 0, pageNoArray := fun _ => 0 }

/-- The record with key `key` stored in slot `slot` of page 1 of the relation. -/
def rec1 (slot : Nat) (key : Int) : RIDKeyPair :=
  { rid := ⟨1, slot⟩, key := key }

/-- A new index over a relation `relA` that holds `records`. -/
def build (records : List RIDKeyPair) : Option BTreeIndex :=
  construct (fun _ => none) zeroLeaf (zeroNonLeaf 1) 4 5 "relA" 0 Datatype.INTEGER records 3

/-- A new index over an empty relation, before the constructor unpins its two pages. -/
def emptyIndex : BTreeIndex :=
  createIndex (initMembers zeroLeaf (zeroNonLeaf 1) 4 5 0 Datatype.INTEGER) "relA" 0
    Datatype.INTEGER

/-- A leaf that holds the one entry `(10, (1, 0))`. -/
def oneEntryLeaf : LeafNodeInt :=
  { keyArray := fun i => if i = 0 then 10 else INT_MAX,
    ridArray := fun i => if i = 0 then ⟨1, 0⟩ else ⟨0, 0⟩,
    rightSibPageNo := INVALID_NUMBER }

/-- A scan of the one-entry leaf, positioned on its entry, with upper bound 100. -/
def activeScan : BTreeIndex :=
  { writePage emptyIndex 2 (PageData.leaf oneEntryLeaf) with
    scanExecuting := true, nextEntry := 0, currentPageNum := 2, lowValInt := 0,
    highValInt := 100 }

/-- A full leaf of 4 slots: keys 10, 20, 30 and the bound. -/
def fullLeaf : LeafNodeInt :=
  { keyArray := fun i => if i < 3 then 10 * (i + 1) else INT_MAX,
    ridArray := fun i => if i < 3 then ⟨1, i⟩ else ⟨0, 0⟩,
    rightSibPageNo := INVALID_NUMBER }

/-- An index whose root is the full leaf. -/
def fullIndex : BTreeIndex :=
  writePage emptyIndex 2 (PageData.leaf fullLeaf)

/-- A buffer whose key words hold `INT_MAX` and whose page-number words hold
`INVALID_NUMBER`, seen as an internal node of level 1: the root `insertEntry` builds in
it has its bounds in place. -/
def boundNonLeaf : Nat → NonLeafNodeInt :=
  fun _ => { level := 1, keyArray := fun _ => INT_MAX, pageNoArray := fun _ => INVALID_NUMBER }

/-- A new index over a relation `relA` that holds `records`, built in such buffers. -/
def buildBound (records : List RIDKeyPair) : Option BTreeIndex :=
  construct (fun _ => none) zeroLeaf boundNonLeaf 4 5 "relA" 0 Datatype.INTEGER records 3

/-- A new index over a relation `relA` that holds `records`, with leaf arrays of 4 slots
and internal key arrays of 3 slots (`nodeOccupancy = 2`), built in buffers that hold
the bounds. -/
def buildSmall (records : List RIDKeyPair) : Option BTreeIndex :=
  construct (fun _ => none) zeroLeaf boundNonLeaf 4 3 "relA" 0 Datatype.INTEGER records 3

/-- A new index over a relation `relA` that holds `records`, built by a buffer manager
whose fresh buffers are zero-filled, level word included. -/
def buildZero (records : List RIDKeyPair) : Option BTreeIndex :=
  construct (fun _ => none) zeroLeaf (zeroNonLeaf 0) 4 5 "relA" 0 Datatype.INTEGER records 3

/-- An internal node of level 1 with three key slots and four child slots that is full:
separators 30 and 50, children 2, 3 and 4. -/
def fullNode : NonLeafNodeInt :=
  { level := 1,
    keyArray := fun i => if i = 0 then 30 else if i = 1 then 50 else INT_MAX,
    pageNoArray := fun i => if i < 3 then i + 2 else INVALID_NUMBER }

/-- An index with `nodeOccupancy = 2` whose root, page 5, is the full internal node. -/
def fullNodeIndex : BTreeIndex :=
  { writePage emptyIndex 5 (PageData.nonLeaf fullNode) with
    numPages := 6, rootPageNum := 5, nodeOccupancy := 2 }

/-- A buffer left over from an earlier use, seen as an internal node: level 1, zero key
words, and the page number 99 in child slot 2. -/
def staleNonLeaf : Nat → NonLeafNodeInt :=
  fun _ => { level := 1, keyArray := fun _ => 0,
             pageNoArray := fun i => if i = 2 then 99 else INVALID_NUMBER }

/-- A new index over a relation `relA` that holds `records`, built in such buffers. -/
def buildStale (records : List RIDKeyPair) : Option BTreeIndex :=
  construct (fun _ => none) zeroLeaf staleNonLeaf 4 5 "relA" 0 Datatype.INTEGER records 3

/-! # Properties -/

/-! ## Page access -/

theorem asLeaf_eq_some (s : BTreeIndex) (p : Nat) (n : LeafNodeInt) :
    asLeaf s p = some n ↔ s.pages p = some (PageData.leaf n) := by
  unfold asLeaf
  split
  · rename_i m hm
    rw [hm]
    simp
  · rename_i hx
    constructor
    · intro h
      simp at h
    · intro h
      exact absurd h (hx n)

theorem asNonLeaf_eq_some (s : BTreeIndex) (p : Nat) (n : NonLeafNodeInt) :
    asNonLeaf s p = some n ↔ s.pages p = some (PageData.nonLeaf n) := by
  unfold asNonLeaf
  split
  · rename_i m hm
    rw [hm]
    simp
  · rename_i hx
    constructor
    · intro h
      simp at h
    · intro h
      exact absurd h (hx n)

theorem asMeta_eq_some (s : BTreeIndex) (p : Nat) (m : IndexMetaInfo) :
    asMeta s p = some m ↔ s.pages p = some (PageData.metaInfo m) := by
  unfold asMeta
  split
  · rename_i m' hm
    rw [hm]
    simp
  · rename_i hx
    constructor
    · intro h
      simp at h
    · intro h
      exact absurd h (hx m)

theorem readPage_eq_some (s s1 : BTreeIndex) (p : Nat) (h : readPage s p = some s1) :
    s1 = { s with bufLog := s.bufLog ++ [BufOp.readPage p] } := by
  unfold readPage at h
  split at h
  · simpa using h.symm
  · simp at h

/-! ## Runs on which the code departs from the specification (C1 to C4) -/

/-- C1 (the code departs from it): seven records with keys 10, 20, ..., 70 are inserted
in ascending order into a new index and the whole key range is scanned.  The scan hands
back the rid of key 70 before those of keys 50 and 60, so the rids do not come in
ascending key order.  And a lone record whose key is `INT_MAX` is not found at all. -/
theorem full_scan_not_ascending :
    ((build [rec1 0 10, rec1 1 20, rec1 2 30, rec1 3 40, rec1 4 50, rec1 5 60, rec1 6 70]).bind
        (fun s => rangeScan 8 s INT_MIN Operator.GTE INT_MAX Operator.LTE)
      = some ([⟨1, 0⟩, ⟨1, 1⟩, ⟨1, 2⟩, ⟨1, 3⟩, ⟨1, 6⟩, ⟨1, 4⟩, ⟨1, 5⟩],
          Exn.IndexScanCompleted))
    ∧ ((build [rec1 0 INT_MAX]).bind
        (fun s => rangeScan 8 s INT_MIN Operator.GTE INT_MAX Operator.LTE)
      = some ([], Exn.NoSuchKeyFound)) := by
  decide

/-- C2 (the code departs from it): the index holds the single key 10 and the range
`[5, 10]` is scanned with `GTE` and `LTE`.  Key 10 satisfies both bounds, yet `startScan`
throws `NoSuchKeyFound` and no rid is handed back. -/
theorem scan_misses_key_at_upper_bound :
    (build [rec1 0 10]).bind (fun s => rangeScan 8 s 5 Operator.GTE 10 Operator.LTE)
      = some ([], Exn.NoSuchKeyFound) := by
  decide

/-- C3 (the code departs from it): the index holds the leaves `[10, 20]` and `[30, 40]`
and the range `[21, 25]` is scanned with `GTE` and `LTE`.  No stored key lies in the
range, yet `startScan` throws nothing: it moves to the right sibling without looking at
its first key, and the scan hands back the rid of key 30. -/
theorem startScan_enters_sibling_unchecked :
    ((build [rec1 0 10, rec1 1 20, rec1 2 30, rec1 3 40]).bind
        (fun s => (startScan 8 s 21 Operator.GTE 25 Operator.LTE).map
          (fun r => (r.2, r.1.currentPageNum, r.1.nextEntry)))
      = some (none, 3, 0))
    ∧ ((build [rec1 0 10, rec1 1 20, rec1 2 30, rec1 3 40]).bind
        (fun s => rangeScan 8 s 21 Operator.GTE 25 Operator.LTE)
      = some ([⟨1, 2⟩], Exn.IndexScanCompleted)) := by
  decide

/-- C4 (the code departs from it): the index holds the single key 10 and
`startScan(10, GTE, 10, LT)` is called.  The upper operator is strict, so no key can
satisfy both bounds, yet `startScan` throws nothing and the scan hands back the rid of
key 10. -/
theorem startScan_equal_bounds_strict :
    ((build [rec1 0 10]).bind
        (fun s => (startScan 8 s 10 Operator.GTE 10 Operator.LT).map (fun r => r.2))
      = some none)
    ∧ ((build [rec1 0 10]).bind (fun s => rangeScan 8 s 10 Operator.GTE 10 Operator.LT)
      = some ([⟨1, 0⟩], Exn.IndexScanCompleted)) := by
  decide

/-! ## Validation in `startScan` (C5) -/

theorem startScan_badOpcodes (fuel : Nat) (s : BTreeIndex) (lowVal : Int) (lowOp : Operator)
    (highVal : Int) (highOp : Operator)
    (h : ¬ (lowOp = Operator.GT ∨ lowOp = Operator.GTE)
      ∨ ¬ (highOp = Operator.LT ∨ highOp = Operator.LTE)) :
    startScan fuel s lowVal lowOp highVal highOp = some (s, some Exn.BadOpcodes) := by
  unfold startScan
  by_cases h1 : lowOp ≠ Operator.GT ∧ lowOp ≠ Operator.GTE
  · rw [if_pos h1]
  · rw [if_neg h1]
    have h2 : highOp ≠ Operator.LT ∧ highOp ≠ Operator.LTE := by
      rcases h with h | h
      · exact absurd (by tauto) h1
      · tauto
    rw [if_pos h2]

theorem startScan_thrown (fuel : Nat) (s s' : BTreeIndex) (lowVal : Int) (lowOp : Operator)
    (highVal : Int) (highOp : Operator) (e : Exn)
    (hl : lowOp = Operator.GT ∨ lowOp = Operator.GTE)
    (hh : highOp = Operator.LT ∨ highOp = Operator.LTE)
    (h : startScan fuel s lowVal lowOp highVal highOp = some (s', some e)) :
    (e = Exn.BadScanRange ∧ lowVal > highVal ∧ s'.bufLog = s.bufLog ∧ s'.pages = s.pages
        ∧ s'.numPages = s.numPages)
      ∨ (e = Exn.NoSuchKeyFound ∧ lowVal ≤ highVal) := by
  unfold startScan at h
  have h1 : ¬ (lowOp ≠ Operator.GT ∧ lowOp ≠ Operator.GTE) := by tauto
  have h2 : ¬ (highOp ≠ Operator.LT ∧ highOp ≠ Operator.LTE) := by tauto
  rw [if_neg h1, if_neg h2] at h
  by_cases hr : lowVal > highVal
  · left
    simp only [hr, if_true] at h
    simp at h
    obtain ⟨hs, he⟩ := h
    subst hs
    exact ⟨he.symm, hr, rfl, rfl, rfl⟩
  · right
    simp only [hr, if_false] at h
    refine ⟨?_, le_of_not_lt hr⟩
    repeat' split at h
    all_goals simp at h
    all_goals exact h.2.symm

/-- C5: `startScan` throws `BadOpcodes` exactly when `lowOp` is neither `GT` nor `GTE` or
`highOp` is neither `LT` nor `LTE`, whatever the two bounds are (so the operator check
comes first); with valid operators it throws `BadScanRange` exactly when
`lowVal > highVal`; and a call that throws either of them has made no call on the
buffer manager and has left every page and the page count as they were. -/
theorem startScan_validation (fuel : Nat) (s : BTreeIndex) (lowVal : Int) (lowOp : Operator)
    (highVal : Int) (highOp : Operator) :
    ((∃ s', startScan fuel s lowVal lowOp highVal highOp = some (s', some Exn.BadOpcodes))
        ↔ (¬ (lowOp = Operator.GT ∨ lowOp = Operator.GTE)
            ∨ ¬ (highOp = Operator.LT ∨ highOp = Operator.LTE)))
    ∧ ((lowOp = Operator.GT ∨ lowOp = Operator.GTE)
        → (highOp = Operator.LT ∨ highOp = Operator.LTE)
        → ((∃ s', startScan fuel s lowVal lowOp highVal highOp
              = some (s', some Exn.BadScanRange)) ↔ lowVal > highVal))
    ∧ (∀ s' e, startScan fuel s lowVal lowOp highVal highOp = some (s', some e)
        → e = Exn.BadOpcodes ∨ e = Exn.BadScanRange
        → s'.bufLog = s.bufLog ∧ s'.pages = s.pages ∧ s'.numPages = s.numPages) := by
  refine ⟨⟨?_, ?_⟩, ?_, ?_⟩
  · rintro ⟨s', h⟩
    by_contra hv
    have hl : lowOp = Operator.GT ∨ lowOp = Operator.GTE := by tauto
    have hh : highOp = Operator.LT ∨ highOp = Operator.LTE := by tauto
    rcases startScan_thrown fuel s s' lowVal lowOp highVal highOp _ hl hh h with h1 | h1
    · exact absurd h1.1 (by decide)
    · exact absurd h1.1 (by decide)
  · intro hv
    exact ⟨s, startScan_badOpcodes fuel s lowVal lowOp highVal highOp hv⟩
  · intro hl hh
    constructor
    · rintro ⟨s', h⟩
      rcases startScan_thrown fuel s s' lowVal lowOp highVal highOp _ hl hh h with h1 | h1
      · exact h1.2.1
      · exact absurd h1.1 (by decide)
    · intro hr
      have h1 : ¬ (lowOp ≠ Operator.GT ∧ lowOp ≠ Operator.GTE) := by tauto
      have h2 : ¬ (highOp ≠ Operator.LT ∧ highOp ≠ Operator.LTE) := by tauto
      refine ⟨{ s with lowOp := lowOp, highOp := highOp, lowValInt := lowVal,
                       highValInt := highVal }, ?_⟩
      unfold startScan
      rw [if_neg h1, if_neg h2]
      simp [hr]
  · intro s' e h he
    by_cases hv : ¬ (lowOp = Operator.GT ∨ lowOp = Operator.GTE)
        ∨ ¬ (highOp = Operator.LT ∨ highOp = Operator.LTE)
    · rw [startScan_badOpcodes fuel s lowVal lowOp highVal highOp hv] at h
      simp only [Option.some.injEq, Prod.mk.injEq] at h
      rw [← h.1]
      exact ⟨rfl, rfl, rfl⟩
    · have hl : lowOp = Operator.GT ∨ lowOp = Operator.GTE := by tauto
      have hh : highOp = Operator.LT ∨ highOp = Operator.LTE := by tauto
      rcases startScan_thrown fuel s s' lowVal lowOp highVal highOp _ hl hh h with h1 | h1
      · exact h1.2.2
      · rcases he with he | he
        · rw [he] at h1
          exact absurd h1.1 (by decide)
        · rw [he] at h1
          exact absurd h1.1 (by decide)

/-- A run of C5: on the index over an empty relation, the range `[10, 5]` with valid
operators is rejected with `BadScanRange`. -/
theorem startScan_validation_witness :
    ∃ s', startScan 0 emptyIndex 10 Operator.GTE 5 Operator.LTE
      = some (s', some Exn.BadScanRange) :=
  ((startScan_validation 0 emptyIndex 10 Operator.GTE 5 Operator.LTE).2.1
    (Or.inr rfl) (Or.inr rfl)).2 (by decide)

/-! ## The end of a scan (C6) -/

/-- C6: in an Active scan (`scanExecuting`, `nextEntry` a slot of the pinned leaf) that
stands on the last qualifying entry (the next slot is the bound and the leaf has no right
sibling; or the next slot is live and its key is not within the upper bound; or the next
slot is the bound and the first key of the right sibling is not within the upper bound),
`scanNext` hands back the rid of the current entry without an exception and leaves the
scan Exhausted (`scanExecuting` with `nextEntry = -1`); the next `scanNext` throws
`IndexScanCompleted`, hands back no rid and changes nothing. -/
theorem scanNext_last_entry (s : BTreeIndex) (leaf : LeafNodeInt)
    (hexec : s.scanExecuting = true) (hpos : 0 ≤ s.nextEntry)
    (hin : s.nextEntry < s.leafOccupancy)
    (hleaf : asLeaf s s.currentPageNum = some leaf)
    (hlast :
      ((leaf.ridArray (s.nextEntry.toNat + 1)).page_number = INVALID_NUMBER
          ∧ leaf.rightSibPageNo = INVALID_NUMBER)
      ∨ ((leaf.ridArray (s.nextEntry.toNat + 1)).page_number ≠ INVALID_NUMBER
          ∧ ¬ (leaf.keyArray (s.nextEntry.toNat + 1) < s.highValInt
              ∨ (leaf.keyArray (s.nextEntry.toNat + 1) = s.highValInt
                  ∧ s.highOp = Operator.LTE)))
      ∨ ((leaf.ridArray (s.nextEntry.toNat + 1)).page_number = INVALID_NUMBER
          ∧ leaf.rightSibPageNo ≠ INVALID_NUMBER
          ∧ ∃ sib, asLeaf s leaf.rightSibPageNo = some sib
              ∧ ¬ (sib.keyArray 0 < s.highValInt
                  ∨ (sib.keyArray 0 = s.highValInt ∧ s.highOp = Operator.LTE)))) :
    ∃ s', scanNext s = some (s', ScanResult.rid (leaf.ridArray s.nextEntry.toNat))
      ∧ s'.scanExecuting = true ∧ s'.nextEntry = -1
      ∧ scanNext s' = some (s', ScanResult.thrown Exn.IndexScanCompleted) := by
  have hne : s.nextEntry ≠ -1 := by omega
  have hb : 0 ≤ s.nextEntry ∧ s.nextEntry + 1 < (s.leafOccupancy : Int) + 1 := by omega
  have hdone : ∀ t : BTreeIndex, t.scanExecuting = true → t.nextEntry = -1 →
      scanNext t = some (t, ScanResult.thrown Exn.IndexScanCompleted) := by
    intro t h1 h2
    simp [scanNext, h1, h2]
  rw [asLeaf_eq_some] at hleaf
  rcases hlast with ⟨h1, h2⟩ | ⟨h1, h2⟩ | ⟨h1, h2, sib, h3, h4⟩
  · refine ⟨{ s with nextEntry := -1 }, ?_, hexec, rfl, hdone _ hexec rfl⟩
    simp [scanNext, hexec, hne, asLeaf, hleaf, hb, h1, h2]
  · refine ⟨{ s with nextEntry := -1 }, ?_, hexec, rfl, hdone _ hexec rfl⟩
    have hw : withinHigh s.highValInt s.highOp (leaf.keyArray (s.nextEntry.toNat + 1)) = false := by
      simpa [withinHigh] using h2
    simp [scanNext, hexec, hne, asLeaf, hleaf, hb, h1, hw]
  · have hw : withinHigh s.highValInt s.highOp (sib.keyArray 0) = false := by
      simpa [withinHigh] using h4
    rw [asLeaf_eq_some] at h3
    refine ⟨{ (unPinPage s s.currentPageNum false) with
        currentPageNum := leaf.rightSibPageNo,
        bufLog := (unPinPage s s.currentPageNum false).bufLog
          ++ [BufOp.readPage leaf.rightSibPageNo],
        nextEntry := -1 }, ?_, hexec, rfl, hdone _ hexec rfl⟩
    simp [scanNext, hexec, hne, hleaf, hb, h1, h2, readPage, unPinPage, h3, asLeaf, hw]

/-- A run of C6: the scan of the one-entry leaf hands back its rid and is then exhausted. -/
theorem scanNext_last_entry_witness :
    ∃ s', scanNext activeScan = some (s', ScanResult.rid ⟨1, 0⟩)
      ∧ s'.scanExecuting = true ∧ s'.nextEntry = -1
      ∧ scanNext s' = some (s', ScanResult.thrown Exn.IndexScanCompleted) :=
  scanNext_last_entry activeScan oneEntryLeaf rfl (by decide) (by decide) rfl
    (Or.inl ⟨rfl, rfl⟩)

/-! ## The scan of an empty index (C7) -/

theorem scanFirst_no_entries (occ : Nat) (lowVal highVal : Int) (lowOp : Operator)
    (leaf : LeafNodeInt) (h0 : (leaf.ridArray 0).page_number = INVALID_NUMBER) :
    scanFirst occ lowVal highVal lowOp leaf = -1 := by
  unfold scanFirst
  cases occ with
  | zero => simp [findFrom]
  | succ n => simp [findFrom, h0]

theorem startScan_no_entries (fuel : Nat) (s : BTreeIndex) (m : IndexMetaInfo)
    (leaf : LeafNodeInt) (lowVal highVal : Int) (lowOp highOp : Operator)
    (hl : lowOp = Operator.GT ∨ lowOp = Operator.GTE)
    (hh : highOp = Operator.LT ∨ highOp = Operator.LTE) (hle : lowVal ≤ highVal)
    (hm : s.pages s.headerPageNum = some (PageData.metaInfo m)) (hh1 : m.height = 1)
    (hr : s.pages s.rootPageNum = some (PageData.leaf leaf))
    (h0 : (leaf.ridArray 0).page_number = INVALID_NUMBER)
    (hsib : leaf.rightSibPageNo = INVALID_NUMBER) :
    ∃ s', startScan fuel s lowVal lowOp highVal highOp = some (s', some Exn.NoSuchKeyFound) := by
  have h1 : ¬ (lowOp ≠ Operator.GT ∧ lowOp ≠ Operator.GTE) := by tauto
  have h2 : ¬ (highOp ≠ Operator.LT ∧ highOp ≠ Operator.LTE) := by tauto
  have h3 : ¬ (lowVal > highVal) := by omega
  have h4 := scanFirst_no_entries s.leafOccupancy lowVal highVal lowOp leaf h0
  unfold startScan
  rw [if_neg h1, if_neg h2]
  by_cases hx : s.scanExecuting = true
  · simp [h3, hx, endScan, unPinPage, readPage, asMeta, asLeaf, hm, hr, hh1, h4, hsib]
  · simp [h3, hx, endScan, unPinPage, readPage, asMeta, asLeaf, hm, hr, hh1, h4, hsib]

/-- C7: on an index just created over an empty relation, whatever the array sizes, the
contents of fresh buffers and the relation name, `startScan` with valid operators and
`lowVal <= highVal` throws `NoSuchKeyFound`. -/
theorem startScan_empty_index (freshLeaf : Nat → LeafNodeInt)
    (freshNonLeaf : Nat → NonLeafNodeInt) (L K : Nat) (relationName : String)
    (attrByteOffset : Int) (attrType : Datatype) (fuel fuel' : Nat) (lowVal highVal : Int)
    (lowOp highOp : Operator) (hl : lowOp = Operator.GT ∨ lowOp = Operator.GTE)
    (hh : highOp = Operator.LT ∨ highOp = Operator.LTE) (hle : lowVal ≤ highVal) :
    ∃ s s', construct (fun _ => none) freshLeaf freshNonLeaf L K relationName attrByteOffset
        attrType [] fuel = some s
      ∧ startScan fuel' s lowVal lowOp highVal highOp = some (s', some Exn.NoSuchKeyFound) := by
  obtain ⟨s', hs'⟩ := startScan_no_entries fuel'
    (flushFile (unPinPage (unPinPage
      (createIndex (initMembers freshLeaf freshNonLeaf L K attrByteOffset attrType)
        relationName attrByteOffset attrType) 1 true) 2 true))
    { relationName := relationName.take 20, attrByteOffset := attrByteOffset,
      attrType := attrType, rootPageNo := 2, height := 1 }
    (emptyRoot (freshLeaf 2)) lowVal highVal lowOp highOp hl hh hle
    (by simp [flushFile, unPinPage, writePage, allocPage, createIndex, initMembers]) rfl
    (by simp [flushFile, unPinPage, writePage, allocPage, createIndex, initMembers])
    (by simp [emptyRoot, clearRid, setAt]) rfl
  exact ⟨_, s', rfl, hs'⟩

/-- A run of C7: arrays of 4 and 5 slots, zero-filled buffers, the range `[0, 100]`. -/
theorem startScan_empty_index_witness :
    ∃ s s', build [] = some s
      ∧ startScan 0 s 0 Operator.GTE 100 Operator.LTE = some (s', some Exn.NoSuchKeyFound) :=
  startScan_empty_index zeroLeaf (zeroNonLeaf 1) 4 5 "relA" 0 Datatype.INTEGER 3 0 0 100
    Operator.GTE Operator.LTE (Or.inr rfl) (Or.inr rfl) (by decide)

/-! ## What a descent leaves alone, and the growth of the root (C8) -/

theorem Extends_refl (s : BTreeIndex) : Extends s s :=
  ⟨rfl, rfl, rfl, rfl, rfl, rfl, le_refl _, fun _ _ _ h => h⟩

theorem Extends_trans {s t u : BTreeIndex} (h1 : Extends s t) (h2 : Extends t u) :
    Extends s u := by
  obtain ⟨a1, a2, a3, a4, a5, a6, a7, a8⟩ := h1
  obtain ⟨b1, b2, b3, b4, b5, b6, b7, b8⟩ := h2
  refine ⟨b1.trans a1, b2.trans a2, b3.trans a3, b4.trans a4, b5.trans a5, b6.trans a6,
    le_trans a7 b7, ?_⟩
  intro q m hq hqm
  exact b8 q m (le_trans hq a7) (a8 q m hq hqm)

theorem insertLeaf_extends (s s' : BTreeIndex) (entry : RIDKeyPair) (p : Nat)
    (nc : PageKeyPair) (h : insertLeaf s entry p = some (s', nc)) :
    Extends s s'
      ∧ (nc.pageNo = INVALID_NUMBER
        ∨ nc.pageNo = s.numPages + 1 ∧ s'.numPages = s.numPages + 1) := by
  unfold insertLeaf at h
  split at h
  · simp at h
  rename_i cur hcur
  rw [asLeaf_eq_some] at hcur
  split at h
  · simp at h
  rename_i put hput
  split at h
  · split at h
    · simp at h
    rename_i l r hsplit
    simp only [Option.some.injEq, Prod.mk.injEq] at h
    obtain ⟨h1, h2⟩ := h
    subst h1 h2
    refine ⟨⟨rfl, rfl, rfl, rfl, rfl, rfl, ?_, ?_⟩, Or.inr ⟨rfl, rfl⟩⟩
    · simp [unPinPage, writePage, allocPage]
    · intro q m hq hqm
      have hne : q ≠ p := by
        intro hqp
        rw [hqp, hcur] at hqm
        simp at hqm
      have hne2 : q ≠ s.numPages + 1 := by omega
      simp [unPinPage, writePage, allocPage, hne, hne2, hqm]
  · split at h
    · simp at h
    rename_i bnd hb
    simp only [Option.some.injEq, Prod.mk.injEq] at h
    obtain ⟨h1, h2⟩ := h
    subst h1 h2
    refine ⟨⟨rfl, rfl, rfl, rfl, rfl, rfl, le_refl _, ?_⟩, Or.inl rfl⟩
    intro q m hq hqm
    have hne : q ≠ p := by
      intro hqp
      rw [hqp, hcur] at hqm
      simp at hqm
    simp [unPinPage, writePage, hne, hqm]

theorem installChild_extends (s s' : BTreeIndex) (entry : RIDKeyPair) (p : Nat) (pos : Nat)
    (c nc : PageKeyPair) (h : installChild s entry p pos c = some (s', nc)) :
    Extends s s'
      ∧ (nc.pageNo = INVALID_NUMBER
        ∨ nc.pageNo = s.numPages + 1 ∧ s'.numPages = s.numPages + 1) := by
  unfold installChild at h
  split at h
  · simp at h
  rename_i cur hcur
  rw [asNonLeaf_eq_some] at hcur
  split at h
  · simp at h
  rename_i put hput
  split at h
  · simp only [Option.some.injEq, Prod.mk.injEq] at h
    obtain ⟨h1, h2⟩ := h
    subst h1 h2
    refine ⟨⟨rfl, rfl, rfl, rfl, rfl, rfl, ?_, ?_⟩, Or.inr ⟨rfl, rfl⟩⟩
    · simp [unPinPage, writePage, allocPage]
    · intro q m hq hqm
      have hne : q ≠ p := by
        intro hqp
        rw [hqp, hcur] at hqm
        simp at hqm
      have hne2 : q ≠ s.numPages + 1 := by omega
      simp [unPinPage, writePage, allocPage, hne, hne2, hqm]
  · split at h
    · simp at h
    rename_i bnd hb
    simp only [Option.some.injEq, Prod.mk.injEq] at h
    obtain ⟨h1, h2⟩ := h
    subst h1 h2
    refine ⟨⟨rfl, rfl, rfl, rfl, rfl, rfl, le_refl _, ?_⟩, Or.inl rfl⟩
    intro q m hq hqm
    have hne : q ≠ p := by
      intro hqp
      rw [hqp, hcur] at hqm
      simp at hqm
    simp [unPinPage, writePage, hne, hqm]

theorem insertUnderNode_extends (fuel : Nat) :
    ∀ (s s' : BTreeIndex) (entry : RIDKeyPair) (p : Nat) (is_leaf : Bool) (nc : PageKeyPair),
      insertUnderNode fuel s entry p is_leaf = some (s', nc) →
      Extends s s' ∧ (nc.pageNo = INVALID_NUMBER ∨ nc.pageNo = s'.numPages) := by
  induction fuel with
  | zero =>
    intro s s' entry p is_leaf nc h
    simp [insertUnderNode] at h
  | succ fuel ih =>
    intro s s' entry p is_leaf nc h
    unfold insertUnderNode at h
    split at h
    · simp at h
    rename_i s1 hs1
    have hs1' := readPage_eq_some s s1 p hs1
    have e1 : Extends s s1 := by
      subst hs1'
      exact ⟨rfl, rfl, rfl, rfl, rfl, rfl, le_refl _, fun _ _ _ h => h⟩
    split at h
    · obtain ⟨h1, h2⟩ := insertLeaf_extends s1 s' entry p nc h
      refine ⟨Extends_trans e1 h1, ?_⟩
      rcases h2 with h2 | ⟨h2, h3⟩
      · exact Or.inl h2
      · exact Or.inr (h2.trans h3.symm)
    · split at h
      · simp at h
      rename_i cur hcur
      split at h
      · simp at h
      rename_i s2 c hrec
      obtain ⟨h1, h2⟩ := ih _ _ _ _ _ _ hrec
      split at h
      · simp only [Option.some.injEq, Prod.mk.injEq] at h
        obtain ⟨h3, h4⟩ := h
        subst h3 h4
        rename_i hc
        refine ⟨Extends_trans e1 (Extends_trans h1 ?_), Or.inl hc⟩
        exact ⟨rfl, rfl, rfl, rfl, rfl, rfl, le_refl _, fun _ _ _ h => h⟩
      · obtain ⟨h3, h4⟩ := installChild_extends _ _ _ _ _ _ _ h
        refine ⟨Extends_trans e1 (Extends_trans h1 h3), ?_⟩
        rcases h4 with h4 | ⟨h4, h5⟩
        · exact Or.inl h4
        · exact Or.inr (h4.trans h5.symm)

theorem growRoot_eq (s : BTreeIndex) (m : IndexMetaInfo) (newChild : PageKeyPair)
    (hhdr : s.headerPageNum ≤ s.numPages)
    (hm : s.pages s.headerPageNum = some (PageData.metaInfo m)) :
    growRoot s newChild = some (unPinPage (unPinPage
        (writePage
          { (writePage (allocPage s).1 (s.numPages + 1)
              (PageData.nonLeaf
                (newRoot (s.freshNonLeaf (s.numPages + 1)) s.rootPageNum newChild)))
            with rootPageNum := s.numPages + 1 }
          s.headerPageNum
          (PageData.metaInfo
            { m with height := m.height + 1, rootPageNo := s.numPages + 1 }))
        s.headerPageNum true) (s.numPages + 1) true) := by
  have hne : s.headerPageNum ≠ s.numPages + 1 := by omega
  have hmeta : asMeta
      (writePage (allocPage s).1 (s.numPages + 1)
        (PageData.nonLeaf (newRoot (s.freshNonLeaf (s.numPages + 1)) s.rootPageNum newChild)))
      s.headerPageNum = some m := by
    simp [asMeta, writePage, allocPage, hne, hm]
  unfold growRoot
  rw [hmeta]

theorem growRoot_spec (s : BTreeIndex) (m : IndexMetaInfo) (newChild : PageKeyPair)
    (hhdr : s.headerPageNum ≤ s.numPages)
    (hm : s.pages s.headerPageNum = some (PageData.metaInfo m)) :
    ∃ s', growRoot s newChild = some s'
      ∧ s'.headerPageNum = s.headerPageNum
      ∧ s'.rootPageNum = s.numPages + 1
      ∧ s'.numPages = s.numPages + 1
      ∧ s'.pages s.headerPageNum = some (PageData.metaInfo
          { m with height := m.height + 1, rootPageNo := s.numPages + 1 })
      ∧ s'.pages (s.numPages + 1) = some (PageData.nonLeaf
          (newRoot (s.freshNonLeaf (s.numPages + 1)) s.rootPageNum newChild)) := by
  have hne' : s.numPages + 1 ≠ s.headerPageNum := by omega
  rw [growRoot_eq s m newChild hhdr hm]
  refine ⟨_, rfl, ?_⟩
  simp [unPinPage, writePage, allocPage, hne']

/-- C8: for every `insertEntry` call whose descent from the root returns: if the descent
reports a split of the root (`newChild.pageNo` is not `INVALID_NUMBER`), the call
succeeds, the meta height grows by exactly one, and both the meta `rootPageNo` and the
member `rootPageNum` become the newly allocated page, which holds the new root over the
old root and the new child; otherwise the meta record and `rootPageNum` are unchanged.
Either way the height changes by at most one. -/
theorem insertEntry_root_and_height (fuel : Nat) (s s1 s2 : BTreeIndex) (key : Int)
    (rid : RecordId) (m : IndexMetaInfo) (newChild : PageKeyPair)
    (hhdr : s.headerPageNum ≤ s.numPages)
    (hm : asMeta s s.headerPageNum = some m)
    (hread : readPage s s.headerPageNum = some s1)
    (hdesc : insertUnderNode fuel s1 { rid := rid, key := key } s1.rootPageNum
      (m.height == 1) = some (s2, newChild)) :
    ∃ s' m', insertEntry fuel s key rid = some s'
      ∧ s'.headerPageNum = s.headerPageNum
      ∧ asMeta s' s'.headerPageNum = some m'
      ∧ (newChild.pageNo ≠ INVALID_NUMBER →
          m'.height = m.height + 1 ∧ m'.rootPageNo = s2.numPages + 1
            ∧ s'.rootPageNum = s2.numPages + 1 ∧ s.numPages < s2.numPages + 1
            ∧ s'.numPages = s2.numPages + 1
            ∧ asNonLeaf s' s'.rootPageNum = some
                (newRoot (s.freshNonLeaf (s2.numPages + 1)) s.rootPageNum newChild))
      ∧ (newChild.pageNo = INVALID_NUMBER → m' = m ∧ s'.rootPageNum = s.rootPageNum)
      ∧ (m'.height = m.height ∨ m'.height = m.height + 1) := by
  have hs1 := readPage_eq_some s s1 _ hread
  have hm1 : asMeta s1 s1.headerPageNum = some m := by
    subst hs1
    exact hm
  obtain ⟨⟨e1, e2, e3, e4, e5, e6, e7, e8⟩, _⟩ :=
    insertUnderNode_extends fuel _ _ _ _ _ _ hdesc
  have hs1h : s1.headerPageNum = s.headerPageNum := by subst hs1; rfl
  have hs1r : s1.rootPageNum = s.rootPageNum := by subst hs1; rfl
  have hs1n : s1.numPages = s.numPages := by subst hs1; rfl
  have hs1f : s1.freshNonLeaf = s.freshNonLeaf := by subst hs1; rfl
  have hm2 : s2.pages s2.headerPageNum = some (PageData.metaInfo m) := by
    rw [e1]
    apply e8
    · omega
    · exact (asMeta_eq_some _ _ _).mp hm1
  unfold insertEntry
  rw [hread]
  simp only [hm1, hdesc]
  by_cases hc : newChild.pageNo = INVALID_NUMBER
  · rw [if_pos hc]
    refine ⟨_, m, rfl, ?_, ?_, fun h => absurd hc h, fun _ => ⟨rfl, ?_⟩, Or.inl rfl⟩
    · simp [unPinPage, e1, hs1h]
    · rw [asMeta_eq_some]
      simpa [unPinPage] using hm2
    · simp [unPinPage, e2, hs1r]
  · rw [if_neg hc]
    obtain ⟨s', h1, h2, h3, h4, h5, h6⟩ := growRoot_spec s2 m newChild (by omega) hm2
    refine ⟨s', { m with height := m.height + 1, rootPageNo := s2.numPages + 1 }, h1,
      by omega, ?_, fun _ => ⟨rfl, rfl, h3, by omega, h4, ?_⟩, fun h => absurd h hc,
      Or.inr rfl⟩
    · rw [asMeta_eq_some, h2]
      exact h5
    · rw [asNonLeaf_eq_some, h3, h6, e6, hs1f, e2, hs1r]

/-- A run of C8: key 40 is inserted into the index whose root is the full leaf
`[10, 20, 30]`; the root splits, the height goes from 1 to 2 and page 4 is the new root. -/
theorem insertEntry_root_and_height_witness :
    ∃ s' m', insertEntry 1 fullIndex 40 ⟨1, 3⟩ = some s'
      ∧ asMeta s' s'.headerPageNum = some m' ∧ m'.height = 2 ∧ m'.rootPageNo = 4
      ∧ s'.rootPageNum = 4 := by
  have hrun : (insertUnderNode 1
      { fullIndex with bufLog := fullIndex.bufLog ++ [BufOp.readPage 1] }
      { rid := ⟨1, 3⟩, key := 40 } 2 true).map (fun r => (r.1.numPages, r.2.pageNo))
        = some (3, 3) := by decide
  obtain ⟨⟨s2, nc⟩, h2, h3⟩ := Option.map_eq_some'.mp hrun
  simp only [Prod.mk.injEq] at h3
  obtain ⟨s', m', h4, _, h5, h6, _, _⟩ :=
    insertEntry_root_and_height 1 fullIndex _ s2 40 ⟨1, 3⟩
      { relationName := "relA", attrByteOffset := 0, attrType := Datatype.INTEGER,
        rootPageNo := 2, height := 1 } nc (by decide) rfl rfl h2
  have hnc : nc.pageNo ≠ INVALID_NUMBER := by
    rw [h3.2]
    decide
  obtain ⟨h7, h8, h9, _⟩ := h6 hnc
  refine ⟨s', m', h4, h5, ?_, ?_, ?_⟩
  · rw [h7]
    rfl
  · rw [h8, h3.1]
  · rw [h9, h3.1]

/-! ## The search loop -/

theorem findFrom_ge (stop : Nat → Bool) (n i : Nat) : i ≤ findFrom stop n i := by
  induction n generalizing i with
  | zero => simp [findFrom]
  | succ n ih =>
    unfold findFrom
    split
    · exact le_refl _
    · exact le_trans (Nat.le_succ i) (ih (i + 1))

theorem findFrom_le (stop : Nat → Bool) (n i : Nat) : findFrom stop n i ≤ i + n := by
  induction n generalizing i with
  | zero => simp [findFrom]
  | succ n ih =>
    unfold findFrom
    split
    · omega
    · have := ih (i + 1)
      omega

theorem findFrom_eq (stop : Nat → Bool) (n i c : Nat) (hic : i ≤ c) (hcn : c < i + n)
    (hbefore : ∀ j, i ≤ j → j < c → stop j = false) (hc : stop c = true) :
    findFrom stop n i = c := by
  induction n generalizing i with
  | zero => omega
  | succ n ih =>
    unfold findFrom
    by_cases hi : i = c
    · subst hi
      simp [hc]
    · have h1 : stop i = false := hbefore i (le_refl _) (by omega)
      simp only [h1, Bool.false_eq_true, if_false]
      exact ih (i + 1) (by omega) (by omega) (fun j h2 h3 => hbefore j (by omega) h3)

theorem findFrom_le_of_stop (stop : Nat → Bool) (n i c : Nat) (hic : i ≤ c) (hcn : c < i + n)
    (hc : stop c = true) : findFrom stop n i ≤ c := by
  induction n generalizing i with
  | zero => omega
  | succ n ih =>
    unfold findFrom
    by_cases hi : i = c
    · subst hi
      simp [hc]
    · split
      · exact hic
      · exact ih (i + 1) (by omega) (by omega)

/-! ## One leaf -/

theorem leafEntryNum_eq (occ : Nat) (n : LeafNodeInt) (c : Nat) (h : LeafHolds occ n c) :
    leafEntryNum occ n = c := by
  obtain ⟨h1, h2, h3⟩ := h
  unfold leafEntryNum
  apply findFrom_eq
  · exact Nat.zero_le _
  · omega
  · intro j _ hj
    simpa using h2 j hj
  · simpa using h3

theorem leafPos_le (occ : Nat) (key : Int) (n : LeafNodeInt) (c : Nat)
    (h : LeafHolds occ n c) : leafPos occ key n ≤ c := by
  obtain ⟨h1, h2, h3⟩ := h
  unfold leafPos
  apply findFrom_le_of_stop
  · exact Nat.zero_le _
  · omega
  · simp [h3]

/-- The entry in slot `i` of a leaf. -/
theorem leafEntries_eq (occ : Nat) (n : LeafNodeInt) (c : Nat) (h : LeafHolds occ n c) :
    leafEntries occ n = (List.range c).map (entryAt n) := by
  unfold leafEntries
  rw [leafEntryNum_eq occ n c h]

theorem leafPut_spec (occ : Nat) (n : LeafNodeInt) (c : Nat) (entry : RIDKeyPair)
    (h : LeafHolds occ n c) :
    ∃ m, leafPut occ n entry = some m
      ∧ m.rightSibPageNo = n.rightSibPageNo
      ∧ (∀ i, m.ridArray i
          = if i < leafPos occ entry.key n then n.ridArray i
            else if i = leafPos occ entry.key n then entry.rid
            else if i ≤ c then n.ridArray (i - 1) else n.ridArray i)
      ∧ (∀ i, m.keyArray i
          = if i < leafPos occ entry.key n then n.keyArray i
            else if i = leafPos occ entry.key n then entry.key
            else if i ≤ c then n.keyArray (i - 1) else n.keyArray i) := by
  have hc := leafEntryNum_eq occ n c h
  have hp := leafPos_le occ entry.key n c h
  have hco := h.1
  unfold leafPut
  rw [hc]
  by_cases hlt : leafPos occ entry.key n < occ
  · have hfit : copyFits (leafPos occ entry.key n) (occ + 1) (leafPos occ entry.key n + 1)
        (occ + 1) (c - leafPos occ entry.key n) = true := by
      simp [copyFits]
      omega
    simp only [hlt, if_true, hfit]
    have hlt' : leafPos occ entry.key n < occ + 1 := by omega
    simp only [hlt', if_true]
    refine ⟨_, rfl, rfl, ?_, ?_⟩
    · intro i
      simp only [setAt, copyArray]
      by_cases h1 : i < leafPos occ entry.key n
      · have h2 : i ≠ leafPos occ entry.key n := by omega
        have h3 : ¬ (leafPos occ entry.key n + 1 ≤ i ∧
            i < leafPos occ entry.key n + 1 + (c - leafPos occ entry.key n)) := by omega
        simp [h1, h2, h3]
      · by_cases h2 : i = leafPos occ entry.key n
        · simp [h2]
        · by_cases h3 : i ≤ c
          · have h4 : leafPos occ entry.key n + 1 ≤ i ∧
                i < leafPos occ entry.key n + 1 + (c - leafPos occ entry.key n) := by omega
            have h5 : leafPos occ entry.key n + (i - (leafPos occ entry.key n + 1)) = i - 1 := by
              omega
            simp [h1, h2, h3, h4, h5]
          · have h4 : ¬ (leafPos occ entry.key n + 1 ≤ i ∧
                i < leafPos occ entry.key n + 1 + (c - leafPos occ entry.key n)) := by omega
            simp [h1, h2, h3, h4]
    · intro i
      simp only [setAt, copyArray]
      by_cases h1 : i < leafPos occ entry.key n
      · have h2 : i ≠ leafPos occ entry.key n := by omega
        have h3 : ¬ (leafPos occ entry.key n + 1 ≤ i ∧
            i < leafPos occ entry.key n + 1 + (c - leafPos occ entry.key n)) := by omega
        simp [h1, h2, h3]
      · by_cases h2 : i = leafPos occ entry.key n
        · simp [h2]
        · by_cases h3 : i ≤ c
          · have h4 : leafPos occ entry.key n + 1 ≤ i ∧
                i < leafPos occ entry.key n + 1 + (c - leafPos occ entry.key n) := by omega
            have h5 : leafPos occ entry.key n + (i - (leafPos occ entry.key n + 1)) = i - 1 := by
              omega
            simp [h1, h2, h3, h4, h5]
          · have h4 : ¬ (leafPos occ entry.key n + 1 ≤ i ∧
                i < leafPos occ entry.key n + 1 + (c - leafPos occ entry.key n)) := by omega
            simp [h1, h2, h3, h4]
  · have hpc : leafPos occ entry.key n = c := by omega
    have hlt' : leafPos occ entry.key n < occ + 1 := by omega
    simp only [hlt, if_false, hlt', if_true]
    refine ⟨_, rfl, rfl, ?_, ?_⟩
    · intro i
      simp only [setAt]
      by_cases h1 : i < leafPos occ entry.key n
      · have h2 : i ≠ leafPos occ entry.key n := by omega
        simp [h1, h2]
      · by_cases h2 : i = leafPos occ entry.key n
        · simp [h2]
        · have h3 : ¬ i ≤ c := by omega
          simp [h1, h2, h3]
    · intro i
      simp only [setAt]
      by_cases h1 : i < leafPos occ entry.key n
      · have h2 : i ≠ leafPos occ entry.key n := by omega
        simp [h1, h2]
      · by_cases h2 : i = leafPos occ entry.key n
        · simp [h2]
        · have h3 : ¬ i ≤ c := by omega
          simp [h1, h2, h3]

theorem map_range_succ {α : Type} (f : Nat → α) (c : Nat) :
    (List.range (c + 1)).map f = (List.range c).map f ++ [f c] := by
  rw [List.range_succ, List.map_append]
  rfl

theorem map_range_insert {α : Type} (f g : Nat → α) (e : α) (pos : Nat) :
    ∀ c, pos ≤ c → (∀ i, i < pos → g i = f i) → g pos = e
      → (∀ i, pos < i → i ≤ c → g i = f (i - 1))
      → List.Perm ((List.range (c + 1)).map g) (e :: (List.range c).map f) := by
  intro c
  induction c with
  | zero =>
    intro hpos _ he _
    have : pos = 0 := by omega
    subst this
    rw [map_range_succ]
    simp [he]
  | succ c ih =>
    intro hpos hlt he hgt
    rw [map_range_succ g (c + 1), map_range_succ f c]
    by_cases hp : pos = c + 1
    · have h1 : (List.range (c + 1)).map g = (List.range (c + 1)).map f := by
        apply List.map_congr_left
        intro i hi
        rw [List.mem_range] at hi
        exact hlt i (by omega)
      rw [h1, map_range_succ f c, ← hp, he]
      exact List.perm_append_singleton _ _
    · have h2 := ih (by omega) hlt he (fun i h3 h4 => hgt i h3 (by omega))
      have h3 : g (c + 1) = f c := by
        have := hgt (c + 1) (by omega) (le_refl _)
        simpa using this
      rw [h3]
      exact (List.Perm.append_right [f c] h2)

theorem leafPut_entries (occ : Nat) (n m : LeafNodeInt) (c : Nat) (entry : RIDKeyPair)
    (h : LeafHolds occ n c) (hm : leafPut occ n entry = some m)
    (hrid : entry.rid.page_number ≠ 0) :
    m.rightSibPageNo = n.rightSibPageNo
      ∧ (∀ i, i ≤ c → (m.ridArray i).page_number ≠ 0)
      ∧ List.Perm ((List.range (c + 1)).map (entryAt m)) (entry :: leafEntries occ n) := by
  obtain ⟨m', hm', h1, h2, h3⟩ := leafPut_spec occ n c entry h
  rw [hm] at hm'
  simp only [Option.some.injEq] at hm'
  subst hm'
  have hp := leafPos_le occ entry.key n c h
  refine ⟨h1, ?_, ?_⟩
  · intro i hi
    rw [h2 i]
    split_ifs with a b
    · exact h.2.1 i (by omega)
    · exact hrid
    · exact h.2.1 (i - 1) (by omega)
  · rw [leafEntries_eq occ n c h]
    apply map_range_insert (entryAt n) (entryAt m) entry (leafPos occ entry.key n) c hp
    · intro i hi
      simp [entryAt, h2 i, h3 i, hi]
    · simp [entryAt, h2, h3]
    · intro i hi hic
      have a : ¬ i < leafPos occ entry.key n := by omega
      have b : i ≠ leafPos occ entry.key n := by omega
      simp [entryAt, h2 i, h3 i, a, b, hic]

theorem leaf_insert_nosplit (occ : Nat) (n m : LeafNodeInt) (c : Nat) (entry : RIDKeyPair)
    (h : LeafHolds occ n c) (hm : leafPut occ n entry = some m)
    (hrid : entry.rid.page_number ≠ 0) (hc : c ≠ occ) :
    ∃ b, leafBound occ m c = some b ∧ LeafHolds occ b (c + 1)
      ∧ b.rightSibPageNo = n.rightSibPageNo
      ∧ List.Perm (leafEntries occ b) (entry :: leafEntries occ n) := by
  obtain ⟨h1, h2, h3⟩ := leafPut_entries occ n m c entry h hm hrid
  have hco := h.1
  have hlt : c + 1 < occ + 1 := by omega
  unfold leafBound
  simp only [hlt, if_true]
  refine ⟨_, rfl, ?_, h1, ?_⟩
  · refine ⟨by omega, ?_, ?_⟩
    · intro i hi
      have : i ≠ c + 1 := by omega
      simp only [clearRid, setAt, this, if_false]
      exact h2 i (by omega)
    · simp [clearRid, setAt, INVALID_NUMBER]
  · have hb : LeafHolds occ
        { m with keyArray := setAt m.keyArray (c + 1) INT_MAX,
                 ridArray := clearRid m.ridArray (c + 1) } (c + 1) := by
      refine ⟨by omega, ?_, ?_⟩
      · intro i hi
        have : i ≠ c + 1 := by omega
        simp only [clearRid, setAt, this, if_false]
        exact h2 i (by omega)
      · simp [clearRid, setAt, INVALID_NUMBER]
    rw [leafEntries_eq occ _ (c + 1) hb]
    have he : (List.range (c + 1)).map (entryAt
        { m with keyArray := setAt m.keyArray (c + 1) INT_MAX,
                 ridArray := clearRid m.ridArray (c + 1) })
        = (List.range (c + 1)).map (entryAt m) := by
      apply List.map_congr_left
      intro i hi
      rw [List.mem_range] at hi
      have : i ≠ c + 1 := by omega
      simp [entryAt, clearRid, setAt, this]
    rw [he]
    exact h3

theorem leaf_insert_split (occ : Nat) (n m fresh : LeafNodeInt) (newId : Nat)
    (entry : RIDKeyPair) (h : LeafHolds occ n occ) (hm : leafPut occ n entry = some m)
    (hrid : entry.rid.page_number ≠ 0) (hocc : 1 ≤ occ) :
    ∃ l r, leafSplit occ m fresh newId = some (l, r)
      ∧ LeafHolds occ l (occ / 2 + 1) ∧ LeafHolds occ r ((occ + 1) / 2)
      ∧ l.rightSibPageNo = newId ∧ r.rightSibPageNo = n.rightSibPageNo
      ∧ List.Perm (leafEntries occ l ++ leafEntries occ r) (entry :: leafEntries occ n) := by
  obtain ⟨h1, h2, h3⟩ := leafPut_entries occ n m occ entry h hm hrid
  have hlt : occ / 2 + 1 < occ + 1 := by omega
  unfold leafSplit
  simp only [hlt, if_true]
  have hl : LeafHolds occ
      { keyArray := setAt m.keyArray (occ / 2 + 1) INT_MAX,
        ridArray := clearRid m.ridArray (occ / 2 + 1),
        rightSibPageNo := newId } (occ / 2 + 1) := by
    refine ⟨by omega, ?_, ?_⟩
    · intro i hi
      have : i ≠ occ / 2 + 1 := by omega
      simp only [clearRid, setAt, this, if_false]
      exact h2 i (by omega)
    · simp [clearRid, setAt, INVALID_NUMBER]
  have hr : LeafHolds occ
      { keyArray :=
          setAt (copyArray m.keyArray (occ / 2 + 1) fresh.keyArray 0 ((occ + 1) / 2))
            ((occ + 1) / 2) INT_MAX,
        ridArray :=
          clearRid (copyArray m.ridArray (occ / 2 + 1) fresh.ridArray 0 ((occ + 1) / 2))
            ((occ + 1) / 2),
        rightSibPageNo := m.rightSibPageNo } ((occ + 1) / 2) := by
    refine ⟨by omega, ?_, ?_⟩
    · intro i hi
      have a : i ≠ (occ + 1) / 2 := by omega
      simp only [clearRid, setAt, a, if_false, copyArray, Nat.zero_le, true_and, zero_add, hi,
        if_true, Nat.sub_zero]
      exact h2 _ (by omega)
    · simp [clearRid, setAt, INVALID_NUMBER]
  refine ⟨_, _, rfl, hl, hr, rfl, h1, ?_⟩
  rw [leafEntries_eq occ _ _ hl, leafEntries_eq occ _ _ hr]
  have hsum : occ + 1 = (occ / 2 + 1) + (occ + 1) / 2 := by omega
  have e1 : (List.range (occ / 2 + 1)).map (entryAt
      { keyArray := setAt m.keyArray (occ / 2 + 1) INT_MAX,
        ridArray := clearRid m.ridArray (occ / 2 + 1),
        rightSibPageNo := newId })
      = (List.range (occ / 2 + 1)).map (entryAt m) := by
    apply List.map_congr_left
    intro i hi
    rw [List.mem_range] at hi
    have : i ≠ occ / 2 + 1 := by omega
    simp [entryAt, clearRid, setAt, this]
  have e2 : (List.range ((occ + 1) / 2)).map (entryAt
      { keyArray :=
          setAt (copyArray m.keyArray (occ / 2 + 1) fresh.keyArray 0 ((occ + 1) / 2))
            ((occ + 1) / 2) INT_MAX,
        ridArray :=
          clearRid (copyArray m.ridArray (occ / 2 + 1) fresh.ridArray 0 ((occ + 1) / 2))
            ((occ + 1) / 2),
        rightSibPageNo := m.rightSibPageNo })
      = ((List.range ((occ + 1) / 2)).map (fun j => occ / 2 + 1 + j)).map (entryAt m) := by
    rw [List.map_map]
    apply List.map_congr_left
    intro i hi
    rw [List.mem_range] at hi
    have : i ≠ (occ + 1) / 2 := by omega
    simp [entryAt, clearRid, setAt, this, copyArray, hi]
  rw [e1, e2, ← List.map_append, ← List.range_add, ← hsum]
  exact h3

/-! ## The sibling chain -/

theorem Linked_congr (s t : BTreeIndex) (hocc : t.leafOccupancy = s.leafOccupancy) :
    ∀ (chain : List Nat) (p : Nat), (∀ q, q ∈ chain → t.pages q = s.pages q)
      → Linked s p chain → Linked t p chain := by
  intro chain
  induction chain with
  | nil =>
    intro p _ h
    exact h
  | cons q rest ih =>
    intro p hsame h
    obtain ⟨h1, h2, n, c, h3, h4, h5⟩ := h
    refine ⟨h1, h2, n, c, ?_, ?_, ?_⟩
    · rw [hsame q (List.mem_cons_self _ _)]
      exact h3
    · rw [hocc]
      exact h4
    · exact ih _ (fun x hx => hsame x (List.mem_cons_of_mem _ hx)) h5

theorem entriesOf_congr (s t : BTreeIndex) (hocc : t.leafOccupancy = s.leafOccupancy) :
    ∀ (chain : List Nat), (∀ q, q ∈ chain → t.pages q = s.pages q)
      → entriesOf t chain = entriesOf s chain := by
  intro chain
  induction chain with
  | nil =>
    intro _
    rfl
  | cons q rest ih =>
    intro hsame
    unfold entriesOf
    rw [hsame q (List.mem_cons_self _ _), hocc,
      ih (fun x hx => hsame x (List.mem_cons_of_mem _ hx))]

theorem Linked_congr' {s t : BTreeIndex} {chain : List Nat} {p : Nat}
    (hsame : ∀ q, q ∈ chain → t.pages q = s.pages q)
    (hocc : t.leafOccupancy = s.leafOccupancy) (hl : Linked s p chain) : Linked t p chain :=
  Linked_congr s t hocc chain p hsame hl

theorem entriesOf_congr' {s t : BTreeIndex} {chain : List Nat}
    (hsame : ∀ q, q ∈ chain → t.pages q = s.pages q)
    (hocc : t.leafOccupancy = s.leafOccupancy) : entriesOf t chain = entriesOf s chain :=
  entriesOf_congr s t hocc chain hsame

theorem Linked_mem (s : BTreeIndex) :
    ∀ (chain : List Nat) (p : Nat), Linked s p chain → ∀ q, q ∈ chain →
      q ≠ 0
        ∧ ∃ n c, s.pages q = some (PageData.leaf n) ∧ LeafHolds s.leafOccupancy n c := by
  intro chain
  induction chain with
  | nil =>
    intro p _ q hq
    simp at hq
  | cons x rest ih =>
    intro p h q hq
    obtain ⟨h1, h2, n, c, h3, h4, h5⟩ := h
    rcases List.mem_cons.mp hq with hq | hq
    · subst hq
      exact ⟨h2, n, c, h3, h4⟩
    · exact ih _ h5 q hq

theorem entriesOf_cons_leaf (s : BTreeIndex) (q : Nat) (rest : List Nat) (n : LeafNodeInt)
    (h : s.pages q = some (PageData.leaf n)) :
    entriesOf s (q :: rest) = leafEntries s.leafOccupancy n ++ entriesOf s rest := by
  simp [entriesOf, h]

theorem Linked_update (s t : BTreeIndex) (x : Nat) (b : LeafNodeInt) (c : Nat)
    (hocc : t.leafOccupancy = s.leafOccupancy)
    (htx : t.pages x = some (PageData.leaf b)) (hb : LeafHolds s.leafOccupancy b c)
    (hsib : ∀ n, s.pages x = some (PageData.leaf n) → b.rightSibPageNo = n.rightSibPageNo)
    (hother : ∀ q, q ≠ x → t.pages q = s.pages q) :
    ∀ (chain : List Nat) (p : Nat), Linked s p chain → Linked t p chain := by
  intro chain
  induction chain with
  | nil =>
    intro p h
    exact h
  | cons q rest ih =>
    intro p h
    obtain ⟨h1, h2, n, c', h3, h4, h5⟩ := h
    by_cases hq : q = x
    · subst hq
      refine ⟨h1, h2, b, c, htx, ?_, ?_⟩
      · rw [hocc]
        exact hb
      · rw [hsib n h3]
        exact ih _ h5
    · refine ⟨h1, h2, n, c', ?_, ?_, ih _ h5⟩
      · rw [hother q hq]
        exact h3
      · rw [hocc]
        exact h4

theorem entriesOf_update (s t : BTreeIndex) (x : Nat) (n b : LeafNodeInt) (e : RIDKeyPair)
    (hocc : t.leafOccupancy = s.leafOccupancy)
    (hsx : s.pages x = some (PageData.leaf n))
    (htx : t.pages x = some (PageData.leaf b))
    (hperm : List.Perm (leafEntries s.leafOccupancy b) (e :: leafEntries s.leafOccupancy n))
    (hother : ∀ q, q ≠ x → t.pages q = s.pages q) :
    ∀ (chain : List Nat), x ∈ chain → chain.Nodup
      → List.Perm (entriesOf t chain) (e :: entriesOf s chain) := by
  intro chain
  induction chain with
  | nil =>
    intro hx
    simp at hx
  | cons q rest ih =>
    intro hx hnd
    rw [List.nodup_cons] at hnd
    by_cases hq : q = x
    · subst hq
      have hrest : entriesOf t rest = entriesOf s rest := by
        apply entriesOf_congr s t hocc
        intro y hy
        apply hother
        intro hyq
        subst hyq
        exact hnd.1 hy
      rw [entriesOf_cons_leaf t q rest b htx, entriesOf_cons_leaf s q rest n hsx, hrest, hocc]
      exact List.Perm.append_right _ hperm
    · have hx' : x ∈ rest := by
        rcases List.mem_cons.mp hx with h | h
        · exact absurd h.symm hq
        · exact h
      have h1 := ih hx' hnd.2
      unfold entriesOf
      rw [hother q hq, hocc]
      exact (List.Perm.append_left _ h1).trans List.perm_middle

theorem mem_insertAfter (p r : Nat) :
    ∀ (chain : List Nat) (q : Nat),
      q ∈ insertAfter p r chain ↔ (q ∈ chain ∨ (q = r ∧ p ∈ chain)) := by
  intro chain
  induction chain with
  | nil =>
    intro q
    simp [insertAfter]
  | cons x rest ih =>
    intro q
    unfold insertAfter
    by_cases hx : x = p
    · subst hx
      simp only [if_true, List.mem_cons]
      tauto
    · simp only [hx, if_false, List.mem_cons, ih q]
      constructor
      · rintro (h | h | ⟨h1, h2⟩)
        · exact Or.inl (Or.inl h)
        · exact Or.inl (Or.inr h)
        · exact Or.inr ⟨h1, Or.inr h2⟩
      · rintro ((h | h) | ⟨h1, h2 | h2⟩)
        · exact Or.inl h
        · exact Or.inr (Or.inl h)
        · exact absurd h2.symm hx
        · exact Or.inr (Or.inr ⟨h1, h2⟩)

theorem nodup_insertAfter (p r : Nat) :
    ∀ (chain : List Nat), r ∉ chain → chain.Nodup → (insertAfter p r chain).Nodup := by
  intro chain
  induction chain with
  | nil =>
    intro _ _
    simp [insertAfter]
  | cons x rest ih =>
    intro hr hnd
    rw [List.nodup_cons] at hnd
    have hrx : r ≠ x := fun h => hr (h ▸ List.mem_cons_self _ _)
    have hrr : r ∉ rest := fun h => hr (List.mem_cons_of_mem _ h)
    unfold insertAfter
    by_cases hx : x = p
    · simp only [hx, if_true, List.nodup_cons, List.mem_cons, not_or]
      subst hx
      exact ⟨⟨fun h => hrx h.symm, hnd.1⟩, hrr, hnd.2⟩
    · simp only [hx, if_false, List.nodup_cons]
      refine ⟨?_, ih hrr hnd.2⟩
      rw [mem_insertAfter]
      rintro (h | ⟨h, _⟩)
      · exact hnd.1 h
      · exact hrx h.symm

theorem head_insertAfter (p r : Nat) (chain : List Nat) :
    (insertAfter p r chain).head? = chain.head? := by
  cases chain with
  | nil => rfl
  | cons x rest =>
    unfold insertAfter
    split <;> rfl

theorem Linked_split (s t : BTreeIndex) (x r : Nat) (n l rt : LeafNodeInt) (cl cr : Nat)
    (hocc : t.leafOccupancy = s.leafOccupancy)
    (hsx : s.pages x = some (PageData.leaf n))
    (htx : t.pages x = some (PageData.leaf l)) (htr : t.pages r = some (PageData.leaf rt))
    (hl : LeafHolds s.leafOccupancy l cl) (hr : LeafHolds s.leafOccupancy rt cr)
    (hlsib : l.rightSibPageNo = r) (hrsib : rt.rightSibPageNo = n.rightSibPageNo)
    (hr0 : r ≠ 0)
    (hother : ∀ q, q ≠ x → q ≠ r → t.pages q = s.pages q) :
    ∀ (chain : List Nat) (p : Nat), r ∉ chain → chain.Nodup → Linked s p chain
      → Linked t p (insertAfter x r chain) := by
  intro chain
  induction chain with
  | nil =>
    intro p _ _ h
    exact h
  | cons q rest ih =>
    intro p hrc hnd h
    rw [List.nodup_cons] at hnd
    have hrq : r ≠ q := fun h => hrc (h ▸ List.mem_cons_self _ _)
    have hrr : r ∉ rest := fun h => hrc (List.mem_cons_of_mem _ h)
    obtain ⟨h1, h2, nq, c', h3, h4, h5⟩ := h
    unfold insertAfter
    by_cases hq : q = x
    · subst hq
      simp only [if_true]
      rw [hsx] at h3
      simp only [Option.some.injEq, PageData.leaf.injEq] at h3
      subst h3
      have hrest : Linked t n.rightSibPageNo rest := by
        apply Linked_congr s t hocc rest _ _ h5
        intro y hy
        apply hother
        · intro hyq
          subst hyq
          exact hnd.1 hy
        · intro hyr
          subst hyr
          exact hrr hy
      refine ⟨h1, h2, l, cl, htx, by rw [hocc]; exact hl, ?_⟩
      rw [hlsib]
      refine ⟨rfl, hr0, rt, cr, htr, by rw [hocc]; exact hr, ?_⟩
      rw [hrsib]
      exact hrest
    · simp only [hq, if_false]
      refine ⟨h1, h2, nq, c', ?_, by rw [hocc]; exact h4, ih _ hrr hnd.2 h5⟩
      rw [hother q hq (fun h => hrq h.symm)]
      exact h3

theorem entriesOf_split (s t : BTreeIndex) (x r : Nat) (n l rt : LeafNodeInt) (e : RIDKeyPair)
    (hocc : t.leafOccupancy = s.leafOccupancy)
    (hsx : s.pages x = some (PageData.leaf n))
    (htx : t.pages x = some (PageData.leaf l)) (htr : t.pages r = some (PageData.leaf rt))
    (hperm : List.Perm (leafEntries s.leafOccupancy l ++ leafEntries s.leafOccupancy rt)
      (e :: leafEntries s.leafOccupancy n))
    (hother : ∀ q, q ≠ x → q ≠ r → t.pages q = s.pages q) :
    ∀ (chain : List Nat), x ∈ chain → r ∉ chain → chain.Nodup
      → List.Perm (entriesOf t (insertAfter x r chain)) (e :: entriesOf s chain) := by
  intro chain
  induction chain with
  | nil =>
    intro hx
    simp at hx
  | cons q rest ih =>
    intro hx hrc hnd
    rw [List.nodup_cons] at hnd
    have hrq : r ≠ q := fun h => hrc (h ▸ List.mem_cons_self _ _)
    have hrr : r ∉ rest := fun h => hrc (List.mem_cons_of_mem _ h)
    unfold insertAfter
    by_cases hq : q = x
    · subst hq
      simp only [if_true]
      have hrest : entriesOf t rest = entriesOf s rest := by
        apply entriesOf_congr s t hocc
        intro y hy
        apply hother
        · intro hyq
          subst hyq
          exact hnd.1 hy
        · intro hyr
          subst hyr
          exact hrr hy
      rw [entriesOf_cons_leaf t q _ l htx, entriesOf_cons_leaf t r _ rt htr,
        entriesOf_cons_leaf s q rest n hsx, hrest, hocc, ← List.append_assoc]
      exact List.Perm.append_right _ hperm
    · simp only [hq, if_false]
      have hx' : x ∈ rest := by
        rcases List.mem_cons.mp hx with h | h
        · exact absurd h.symm hq
        · exact h
      have h1 := ih hx' hrr hnd.2
      unfold entriesOf
      rw [hother q hq (fun h => hrq h.symm), hocc]
      exact (List.Perm.append_left _ h1).trans List.perm_middle

theorem chainEntries_of_linked (s : BTreeIndex) :
    ∀ (chain : List Nat) (p fuel : Nat), chain ≠ [] → chain.length ≤ fuel
      → Linked s p chain
      → chainEntries fuel s p = some (entriesOf s chain) := by
  intro chain
  induction chain with
  | nil =>
    intro p fuel h
    exact absurd rfl h
  | cons q rest ih =>
    intro p fuel _ hlen h
    obtain ⟨h1, h2, n, c, h3, h4, h5⟩ := h
    subst h1
    cases fuel with
    | zero => simp at hlen
    | succ fuel =>
      have hleaf : asLeaf s p = some n := (asLeaf_eq_some s p n).mpr h3
      unfold chainEntries
      rw [hleaf]
      simp only
      rw [entriesOf_cons_leaf s p rest n h3]
      cases rest with
      | nil =>
        have h6 : n.rightSibPageNo = INVALID_NUMBER := h5
        simp [h6, entriesOf]
      | cons y rest' =>
        have h6 : n.rightSibPageNo ≠ INVALID_NUMBER := by
          obtain ⟨h7, h8, _⟩ := h5
          rw [h7]
          exact h8
        rw [if_neg h6]
        have h7 := ih n.rightSibPageNo fuel (by simp) (by simpa using hlen) h5
        rw [h7]

theorem mem_of_head (chain : List Nat) (p0 : Nat) (h : chain.head? = some p0) : p0 ∈ chain := by
  cases chain with
  | nil => simp at h
  | cons x rest =>
    simp only [List.head?_cons, Option.some.injEq] at h
    subst h
    exact List.mem_cons_self _ _

theorem length_le_of_nodup (chain : List Nat) (n : Nat) (hnd : chain.Nodup)
    (hle : ∀ q, q ∈ chain → q ≤ n) : chain.length ≤ n + 1 := by
  have hsub : chain.toFinset ⊆ Finset.range (n + 1) := by
    intro q hq
    rw [List.mem_toFinset] at hq
    rw [Finset.mem_range]
    have := hle q hq
    omega
  have hcard := Finset.card_le_card hsub
  rw [List.toFinset_card_of_nodup hnd, Finset.card_range] at hcard
  exact hcard

/-! ## An internal node with two children -/

theorem nonLeafPos_two (occ : Nat) (key : Int) (r : NonLeafNodeInt) (hocc : 1 ≤ occ)
    (h2 : r.pageNoArray 2 = 0) :
    nonLeafPos occ key r = 0 ∨ nonLeafPos occ key r = 1 := by
  have h : nonLeafPos occ key r ≤ 1 :=
    findFrom_le_of_stop _ (occ + 1) 0 1 (Nat.zero_le _) (by omega) (by simp [h2])
  omega

theorem nonLeafEntryNum_two (occ : Nat) (r : NonLeafNodeInt) (hocc : 1 ≤ occ)
    (h0 : r.pageNoArray 0 ≠ 0) (h1 : r.pageNoArray 1 ≠ 0) (h2 : r.pageNoArray 2 = 0) :
    nonLeafEntryNum occ r = 2 := by
  refine findFrom_eq _ (occ + 2) 0 2 (Nat.zero_le _) (by omega) ?_
    (by simpa [INVALID_NUMBER] using h2)
  intro j _ hj
  have hj' : j = 0 ∨ j = 1 := by omega
  rcases hj' with h | h
  · subst h
    simpa [INVALID_NUMBER] using h0
  · subst h
    simpa [INVALID_NUMBER] using h1

theorem nonLeafPut_two (occ : Nat) (r : NonLeafNodeInt) (pos : Nat) (c : PageKeyPair)
    (hocc : 3 ≤ occ) (hpos : pos = 0 ∨ pos = 1) :
    ∃ put, nonLeafPut occ r pos 2 c = some put
      ∧ put.level = r.level ∧ put.pageNoArray 0 = r.pageNoArray 0
      ∧ (put.pageNoArray 1 = r.pageNoArray 1 ∨ put.pageNoArray 1 = c.pageNo) := by
  rcases hpos with hp | hp
  · subst hp
    have h1 : (0 : Nat) < occ := by omega
    have h2 : 0 + 1 ≤ 2
        ∧ copyFits 0 (occ + 1) (0 + 1) (occ + 1) (2 - 1 - 0) = true
        ∧ copyFits (0 + 1) (occ + 2) (0 + 2) (occ + 2) (2 - 1 - 0) = true := by
      refine ⟨by omega, ?_, ?_⟩
      · simp [copyFits]
        omega
      · simp [copyFits]
        omega
    have h3 : (0 : Nat) < occ + 1 := by omega
    unfold nonLeafPut
    simp only [h1, if_true, h2, and_self, h3]
    refine ⟨_, rfl, rfl, ?_, Or.inr ?_⟩
    · simp [setAt, copyArray]
    · simp [setAt, copyArray]
  · subst hp
    have h1 : (1 : Nat) < occ := by omega
    have h2 : 1 + 1 ≤ 2
        ∧ copyFits 1 (occ + 1) (1 + 1) (occ + 1) (2 - 1 - 1) = true
        ∧ copyFits (1 + 1) (occ + 2) (1 + 2) (occ + 2) (2 - 1 - 1) = true := by
      refine ⟨by omega, ?_, ?_⟩
      · simp [copyFits]
      · simp [copyFits]
    have h3 : (1 : Nat) < occ + 1 := by omega
    unfold nonLeafPut
    simp only [h1, if_true, h2, and_self, h3]
    refine ⟨_, rfl, rfl, ?_, Or.inl ?_⟩
    · simp [setAt, copyArray]
    · simp [setAt, copyArray]

theorem nonLeafBound_two (occ : Nat) (put : NonLeafNodeInt) (hocc : 3 ≤ occ) :
    ∃ bnd, nonLeafBound occ put 2 = some bnd
      ∧ bnd.level = put.level ∧ bnd.pageNoArray 0 = put.pageNoArray 0
      ∧ bnd.pageNoArray 1 = put.pageNoArray 1 ∧ bnd.pageNoArray 2 = 0 := by
  have hb : 2 < occ + 2 ∧ 2 + 1 < occ + 1 := by omega
  unfold nonLeafBound
  simp only [hb, and_self, if_true]
  refine ⟨_, rfl, rfl, ?_, ?_, ?_⟩
  · simp [setAt]
  · simp [setAt]
  · simp [setAt, INVALID_NUMBER]

/-! ## Insertion keeps the shape of the tree -/

theorem insertLeaf_chain (t : BTreeIndex) (chain : List Nat) (p0 x : Nat) (entry : RIDKeyPair)
    (hocc : 1 ≤ t.leafOccupancy) (hnd : chain.Nodup)
    (hle : ∀ q, q ∈ chain → q ≤ t.numPages)
    (hlink : Linked t p0 chain) (hx : x ∈ chain) (hrid : entry.rid.page_number ≠ 0) :
    ∃ t' nc chain', insertLeaf t entry x = some (t', nc)
      ∧ chain'.Nodup ∧ (∀ q, q ∈ chain' → q ≤ t'.numPages) ∧ Linked t' p0 chain'
      ∧ chain'.head? = chain.head?
      ∧ List.Perm (entriesOf t' chain') (entry :: entriesOf t chain)
      ∧ (∀ q, q ∈ chain → q ∈ chain')
      ∧ (∀ q, q ∉ chain → q ≤ t.numPages → t'.pages q = t.pages q)
      ∧ ((nc.pageNo = 0 ∧ t'.numPages = t.numPages)
        ∨ (nc.pageNo ≠ 0 ∧ nc.pageNo ∈ chain' ∧ t'.numPages = t.numPages + 1)) := by
  obtain ⟨_, n, c, hn, hc⟩ := Linked_mem t chain p0 hlink x hx
  obtain ⟨m, hm, _⟩ := leafPut_spec t.leafOccupancy n c entry hc
  have hleaf : asLeaf t x = some n := (asLeaf_eq_some t x n).mpr hn
  have hxle := hle x hx
  unfold insertLeaf
  rw [hleaf]
  simp only [hm, leafEntryNum_eq t.leafOccupancy n c hc]
  by_cases hfull : c = t.leafOccupancy
  · subst hfull
    obtain ⟨l, r, hs, hl, hr, hlsib, hrsib, hperm⟩ :=
      leaf_insert_split t.leafOccupancy n m (t.freshLeaf (t.numPages + 1)) (t.numPages + 1)
        entry hc hm hrid hocc
    simp only [if_true, hs]
    have hxne : x ≠ t.numPages + 1 := by omega
    have hnew : t.numPages + 1 ∉ chain := by
      intro h
      have := hle _ h
      omega
    refine ⟨_, _, insertAfter x (t.numPages + 1) chain, rfl, ?_, ?_, ?_, ?_, ?_, ?_, ?_, ?_⟩
    · exact nodup_insertAfter x _ chain hnew hnd
    · intro q hq
      rw [mem_insertAfter] at hq
      simp only [unPinPage, writePage, allocPage]
      rcases hq with hq | ⟨hq, _⟩
      · have := hle q hq
        omega
      · omega
    · refine Linked_split t _ x (t.numPages + 1) n l r _ _ ?_ hn ?_ ?_ hl hr hlsib hrsib
        (by omega) ?_ chain p0 hnew hnd hlink
      · rfl
      · simp [unPinPage, writePage, allocPage, hxne]
      · simp [unPinPage, writePage, allocPage]
      · intro q h1 h2
        simp [unPinPage, writePage, allocPage, h1, h2]
    · exact head_insertAfter _ _ _
    · refine entriesOf_split t _ x (t.numPages + 1) n l r entry ?_ hn ?_ ?_ hperm ?_ chain hx
        hnew hnd
      · rfl
      · simp [unPinPage, writePage, allocPage, hxne]
      · simp [unPinPage, writePage, allocPage]
      · intro q h1 h2
        simp [unPinPage, writePage, allocPage, h1, h2]
    · intro q hq
      rw [mem_insertAfter]
      exact Or.inl hq
    · intro q hq hqle
      have h1 : q ≠ x := fun h => hq (h ▸ hx)
      have h2 : q ≠ t.numPages + 1 := by omega
      simp [unPinPage, writePage, allocPage, h1, h2]
    · right
      refine ⟨by simp, ?_, by simp [unPinPage, writePage, allocPage]⟩
      rw [mem_insertAfter]
      exact Or.inr ⟨rfl, hx⟩
  · obtain ⟨b, hb, hbh, hbsib, hperm⟩ :=
      leaf_insert_nosplit t.leafOccupancy n m c entry hc hm hrid hfull
    simp only [hfull, if_false, hb]
    have htx : (unPinPage (writePage t x (PageData.leaf b)) x true).pages x
        = some (PageData.leaf b) := by
      simp [unPinPage, writePage]
    have hother : ∀ q, q ≠ x →
        (unPinPage (writePage t x (PageData.leaf b)) x true).pages q = t.pages q := by
      intro q hq
      simp [unPinPage, writePage, hq]
    refine ⟨_, _, chain, rfl, hnd, hle, ?_, rfl, ?_, fun q hq => hq, ?_, Or.inl ⟨rfl, rfl⟩⟩
    · refine Linked_update t _ x b (c + 1) ?_ htx hbh ?_ hother chain p0 hlink
      · rfl
      intro n' hn'
      rw [hn] at hn'
      simp only [Option.some.injEq, PageData.leaf.injEq] at hn'
      rw [← hn']
      exact hbsib
    · exact entriesOf_update t (unPinPage (writePage t x (PageData.leaf b)) x true) x n b
        entry rfl hn htx hperm hother chain hx hnd
    · intro q hq _
      exact hother q (fun h => hq (h ▸ hx))

theorem readPage_sameFile (s : BTreeIndex) (p : Nat) (d : PageData) (h : s.pages p = some d) :
    ∃ s1, readPage s p = some s1 ∧ SameFile s s1 := by
  refine ⟨{ s with bufLog := s.bufLog ++ [BufOp.readPage p] }, ?_,
    rfl, rfl, rfl, rfl, rfl, rfl, rfl, rfl⟩
  simp [readPage, h]

theorem unPinPage_sameFile (s : BTreeIndex) (p : Nat) (d : Bool) :
    SameFile s (unPinPage s p d) :=
  ⟨rfl, rfl, rfl, rfl, rfl, rfl, rfl, rfl⟩

theorem SameFile_trans {s t u : BTreeIndex} (h1 : SameFile s t) (h2 : SameFile t u) :
    SameFile s u := by
  obtain ⟨a1, a2, a3, a4, a5, a6, a7, a8⟩ := h1
  obtain ⟨b1, b2, b3, b4, b5, b6, b7, b8⟩ := h2
  exact ⟨b1.trans a1, b2.trans a2, b3.trans a3, b4.trans a4, b5.trans a5, b6.trans a6,
    b7.trans a7, b8.trans a8⟩

theorem Linked_sameFile {s t : BTreeIndex} (h : SameFile s t) (chain : List Nat) (p : Nat)
    (hl : Linked s p chain) : Linked t p chain :=
  Linked_congr s t h.2.2.1 chain p (fun q _ => by rw [h.1]) hl

theorem entriesOf_sameFile {s t : BTreeIndex} (h : SameFile s t) (chain : List Nat) :
    entriesOf t chain = entriesOf s chain :=
  entriesOf_congr s t h.2.2.1 chain (fun q _ => by rw [h.1])

theorem TreeInv_sameFile {s t : BTreeIndex} (h : SameFile s t) (chain : List Nat)
    (E : List RIDKeyPair) (hs : TreeInv s chain E) : TreeInv t chain E := by
  obtain ⟨hlo, hno, hf1, hf2, hhdr, hnd, hle, hperm, m, p0, hm, hhead, hlink, hroot⟩ := hs
  have hl := Linked_sameFile h chain p0 hlink
  have he := entriesOf_sameFile h chain
  obtain ⟨a1, a2, a3, a4, a5, a6, a7, a8⟩ := h
  refine ⟨by omega, by omega, ?_, ?_, by omega, hnd, ?_, ?_, m, p0, ?_, hhead, hl, ?_⟩
  · rw [a6]
    exact hf1
  · rw [a6]
    exact hf2
  · intro q hq
    have := hle q hq
    omega
  · rw [he]
    exact hperm
  · rw [a1, a7]
    exact hm
  · rw [a1, a2, a8]
    exact hroot

theorem insertUnderNode_leaf (f : Nat) (s s1 : BTreeIndex) (e : RIDKeyPair) (p : Nat)
    (h : readPage s p = some s1) :
    insertUnderNode (f + 1) s e p true = insertLeaf s1 e p := by
  rw [insertUnderNode, h]
  simp

theorem insertUnderNode_nonLeaf (f : Nat) (s s1 : BTreeIndex) (e : RIDKeyPair) (p : Nat)
    (r : NonLeafNodeInt) (h : readPage s p = some s1) (hr : asNonLeaf s1 p = some r) :
    insertUnderNode (f + 1) s e p false
      = match insertUnderNode f s1 e
            (r.pageNoArray (nonLeafPos s1.nodeOccupancy e.key r)) (r.level != 0) with
        | none => none
        | some (s2, new_child) =>
          if new_child.pageNo = INVALID_NUMBER then some (unPinPage s2 p true, new_child)
          else installChild s2 e p (nonLeafPos s1.nodeOccupancy e.key r) new_child := by
  rw [insertUnderNode, h]
  simp [hr]

theorem descend_leaf_root (f : Nat) (t : BTreeIndex) (chain : List Nat) (E : List RIDKeyPair)
    (e : RIDKeyPair) (m : IndexMetaInfo) (p0 : Nat) (hrid : e.rid.page_number ≠ 0)
    (hlo : 1 ≤ t.leafOccupancy) (hno : 3 ≤ t.nodeOccupancy)
    (hf1 : ∀ p, (t.freshNonLeaf p).level ≠ 0)
    (hf2 : ∀ p, (t.freshNonLeaf p).pageNoArray 2 = 0)
    (hhdr : t.headerPageNum ≤ t.numPages) (hnd : chain.Nodup)
    (hle : ∀ q, q ∈ chain → q ≤ t.numPages) (hperm : List.Perm (entriesOf t chain) E)
    (hm : t.pages t.headerPageNum = some (PageData.metaInfo m))
    (hhead : chain.head? = some p0) (hlink : Linked t p0 chain)
    (hh1 : m.height = 1) (hr0 : t.rootPageNum = p0) :
    ∃ t2 nc chain', insertUnderNode (f + 1) t e t.rootPageNum true = some (t2, nc)
      ∧ TreeInv t2 chain' (e :: E)
      ∧ t2.pages t2.headerPageNum = some (PageData.metaInfo m)
      ∧ (nc.pageNo = 0 ∨ nc.pageNo ∈ chain') := by
  have hp0 : p0 ∈ chain := mem_of_head chain p0 hhead
  obtain ⟨_, n0, _, hn0, _⟩ := Linked_mem t chain p0 hlink p0 hp0
  obtain ⟨t1, hread, hsf⟩ := readPage_sameFile t p0 _ hn0
  rw [hr0, insertUnderNode_leaf f t t1 e p0 hread]
  obtain ⟨a1, a2, a3, a4, a5, a6, a7, a8⟩ := hsf
  obtain ⟨t', nc, chain', hins, hnd', hle', hlink', hhead', hperm', hsub, hout, hnc⟩ :=
    insertLeaf_chain t1 chain p0 p0 e (by omega) hnd
      (fun q hq => by have := hle q hq; omega)
      (Linked_sameFile ⟨a1, a2, a3, a4, a5, a6, a7, a8⟩ chain p0 hlink) hp0 hrid
  obtain ⟨⟨e1, e2, e3, e4, e5, e6, e7, e8⟩, _⟩ := insertLeaf_extends _ _ _ _ _ hins
  rw [entriesOf_sameFile ⟨a1, a2, a3, a4, a5, a6, a7, a8⟩ chain] at hperm'
  have hmt' : t'.pages t'.headerPageNum = some (PageData.metaInfo m) := by
    rw [e1]
    apply e8
    · omega
    · rw [a1, a7]
      exact hm
  refine ⟨t', nc, chain', hins, ?_, hmt', ?_⟩
  · refine ⟨by omega, by omega, ?_, ?_, by omega, hnd', hle',
      hperm'.trans (List.Perm.cons _ hperm), m, p0, hmt', by rw [hhead', hhead], hlink',
      Or.inl ⟨hh1, by rw [e2, a8, hr0]⟩⟩
    · rw [e6, a6]
      exact hf1
    · rw [e6, a6]
      exact hf2
  · rcases hnc with ⟨h1, _⟩ | ⟨_, h1, _⟩
    · exact Or.inl h1
    · exact Or.inr h1

theorem descend_internal_root (f : Nat) (t : BTreeIndex) (chain : List Nat)
    (E : List RIDKeyPair) (e : RIDKeyPair) (m : IndexMetaInfo) (p0 : Nat) (r : NonLeafNodeInt)
    (hrid : e.rid.page_number ≠ 0)
    (hlo : 1 ≤ t.leafOccupancy) (hno : 3 ≤ t.nodeOccupancy)
    (hf1 : ∀ p, (t.freshNonLeaf p).level ≠ 0)
    (hf2 : ∀ p, (t.freshNonLeaf p).pageNoArray 2 = 0)
    (hhdr : t.headerPageNum ≤ t.numPages) (hnd : chain.Nodup)
    (hle : ∀ q, q ∈ chain → q ≤ t.numPages) (hperm : List.Perm (entriesOf t chain) E)
    (hm : t.pages t.headerPageNum = some (PageData.metaInfo m))
    (hhead : chain.head? = some p0) (hlink : Linked t p0 chain)
    (hh1 : m.height ≠ 1) (hrle : t.rootPageNum ≤ t.numPages)
    (hr : t.pages t.rootPageNum = some (PageData.nonLeaf r)) (hrl : r.level ≠ 0)
    (hr0 : r.pageNoArray 0 = p0) (hr1 : r.pageNoArray 1 ∈ chain)
    (hr2 : r.pageNoArray 2 = 0) :
    ∃ t2 nc chain', insertUnderNode (f + 1 + 1) t e t.rootPageNum false = some (t2, nc)
      ∧ TreeInv t2 chain' (e :: E)
      ∧ t2.pages t2.headerPageNum = some (PageData.metaInfo m)
      ∧ nc.pageNo = 0 := by
  have hp0 : p0 ∈ chain := mem_of_head chain p0 hhead
  have hrc : t.rootPageNum ∉ chain := by
    intro hc
    obtain ⟨_, n, _, hn, _⟩ := Linked_mem t chain p0 hlink _ hc
    rw [hr] at hn
    simp at hn
  have hp0ne : r.pageNoArray 0 ≠ 0 := by
    rw [hr0]
    exact (Linked_mem t chain p0 hlink p0 hp0).1
  have hp1ne : r.pageNoArray 1 ≠ 0 := (Linked_mem t chain p0 hlink _ hr1).1
  obtain ⟨t1, hread, hsf⟩ := readPage_sameFile t t.rootPageNum _ hr
  have hsf' := hsf
  obtain ⟨a1, a2, a3, a4, a5, a6, a7, a8⟩ := hsf
  have hr' : asNonLeaf t1 t.rootPageNum = some r := by
    rw [asNonLeaf_eq_some, a1]
    exact hr
  rw [insertUnderNode_nonLeaf (f + 1) t t1 e t.rootPageNum r hread hr']
  have hlvl : (r.level != 0) = true := by simpa using hrl
  rw [hlvl]
  have hpos := nonLeafPos_two t1.nodeOccupancy e.key r (by omega) hr2
  have hchild : r.pageNoArray (nonLeafPos t1.nodeOccupancy e.key r) ∈ chain := by
    rcases hpos with h | h
    · rw [h, hr0]
      exact hp0
    · rw [h]
      exact hr1
  obtain ⟨_, nc0, _, hnc0, _⟩ := Linked_mem t chain p0 hlink _ hchild
  obtain ⟨t1', hread', hsf1⟩ :=
    readPage_sameFile t1 (r.pageNoArray (nonLeafPos t1.nodeOccupancy e.key r)) (PageData.leaf nc0)
      (by rw [a1]; exact hnc0)
  rw [insertUnderNode_leaf f t1 t1' e _ hread']
  have hsf2 := SameFile_trans hsf' hsf1
  obtain ⟨b1, b2, b3, b4, b5, b6, b7, b8⟩ := hsf2
  obtain ⟨t', nc, chain', hins, hnd', hle', hlink', hhead', hperm', hsub, hout, hnc⟩ :=
    insertLeaf_chain t1' chain p0 _ e (by omega) hnd
      (fun q hq => by have := hle q hq; omega)
      (Linked_sameFile ⟨b1, b2, b3, b4, b5, b6, b7, b8⟩ chain p0 hlink) hchild hrid
  obtain ⟨⟨e1, e2, e3, e4, e5, e6, e7, e8⟩, _⟩ := insertLeaf_extends _ _ _ _ _ hins
  rw [hins]
  simp only
  rw [entriesOf_sameFile ⟨b1, b2, b3, b4, b5, b6, b7, b8⟩ chain] at hperm'
  have hmt' : t'.pages t'.headerPageNum = some (PageData.metaInfo m) := by
    rw [e1]
    apply e8
    · omega
    · rw [b1, b7]
      exact hm
  have hrt' : t'.pages t.rootPageNum = some (PageData.nonLeaf r) := by
    rw [hout _ hrc (by omega), b1]
    exact hr
  have hroot' : t'.rootPageNum = t.rootPageNum := by rw [e2, b8]
  have hhdr' : t'.headerPageNum = t.headerPageNum := by rw [e1, b7]
  have hfresh : t'.freshNonLeaf = t.freshNonLeaf := by rw [e6, b6]
  have hpre : TreeInv t' chain' (e :: E) := by
    refine ⟨by omega, by omega, ?_, ?_, by omega, hnd', hle',
      hperm'.trans (List.Perm.cons _ hperm), m, p0, hmt', by rw [hhead', hhead], hlink',
      Or.inr ⟨hh1, by omega, r, by rw [hroot']; exact hrt', hrl, hr0, hsub _ hr1, hr2⟩⟩
    · rw [hfresh]
      exact hf1
    · rw [hfresh]
      exact hf2
  by_cases hz : nc.pageNo = INVALID_NUMBER
  · rw [if_pos hz]
    refine ⟨_, nc, chain', rfl, TreeInv_sameFile (unPinPage_sameFile _ _ _) _ _ hpre, ?_, hz⟩
    simpa [unPinPage] using hmt'
  · rw [if_neg hz]
    have hnonleaf : asNonLeaf t' t.rootPageNum = some r := (asNonLeaf_eq_some _ _ _).mpr hrt'
    have hnum := nonLeafEntryNum_two t'.nodeOccupancy r (by omega) hp0ne hp1ne hr2
    have hposeq : t1.nodeOccupancy = t'.nodeOccupancy := by omega
    rw [hposeq] at hpos
    obtain ⟨put, hput, hp1, hp2, hp3⟩ :=
      nonLeafPut_two t'.nodeOccupancy r _ nc (by omega) hpos
    obtain ⟨bnd, hbnd, hb1, hb2, hb3, hb4⟩ := nonLeafBound_two t'.nodeOccupancy put (by omega)
    have hnosplit : ¬ (2 = t'.nodeOccupancy + 1) := by omega
    unfold installChild
    rw [hnonleaf]
    simp only [hnum, hposeq, hput, hnosplit, if_false, hbnd]
    have hrne : ∀ q, q ∈ chain' → q ≠ t.rootPageNum := by
      intro q hq hqe
      obtain ⟨_, n, _, hn, _⟩ := Linked_mem t' chain' p0 hlink' q hq
      rw [hqe, hrt'] at hn
      simp at hn
    have hhne : t'.headerPageNum ≠ t.rootPageNum := by
      intro hqe
      rw [hqe, hrt'] at hmt'
      simp at hmt'
    have hsame : ∀ q, q ∈ chain' →
        (unPinPage (writePage t' t.rootPageNum (PageData.nonLeaf bnd)) t.rootPageNum true).pages q
          = t'.pages q := by
      intro q hq
      simp [unPinPage, writePage, hrne q hq]
    have hnc' : nc.pageNo ∈ chain' := by
      rcases hnc with ⟨h1, _⟩ | ⟨_, h1, _⟩
      · exact absurd h1 hz
      · exact h1
    refine ⟨_, _, chain', rfl, ?_, ?_, rfl⟩
    · refine ⟨by simp only [unPinPage, writePage]; omega,
        by simp only [unPinPage, writePage]; omega, ?_, ?_,
        by simp only [unPinPage, writePage]; omega, hnd', ?_, ?_, m, p0, ?_,
        by rw [hhead', hhead], ?_, Or.inr ⟨hh1, ?_, bnd, ?_, ?_, ?_, ?_, hb4⟩⟩
      · simp only [unPinPage, writePage]
        rw [hfresh]
        exact hf1
      · simp only [unPinPage, writePage]
        rw [hfresh]
        exact hf2
      · intro q hq
        simp only [unPinPage, writePage]
        exact hle' q hq
      · rw [entriesOf_congr t'
          (unPinPage (writePage t' t.rootPageNum (PageData.nonLeaf bnd)) t.rootPageNum true)
          rfl chain' hsame]
        exact hperm'.trans (List.Perm.cons _ hperm)
      · simp only [unPinPage, writePage, hhne, if_false]
        exact hmt'
      · exact Linked_congr t'
          (unPinPage (writePage t' t.rootPageNum (PageData.nonLeaf bnd)) t.rootPageNum true)
          rfl chain' p0 hsame hlink'
      · simp only [unPinPage, writePage]
        omega
      · simp [unPinPage, writePage, hroot']
      · rw [hb1, hp1]
        exact hrl
      · rw [hb2, hp2]
        exact hr0
      · rw [hb3]
        rcases hp3 with h | h
        · rw [h]
          exact hsub _ hr1
        · rw [h]
          exact hnc'
    · simp only [unPinPage, writePage, hhne, if_false]
      exact hmt'

theorem growRoot_treeInv (t : BTreeIndex) (chain : List Nat) (E : List RIDKeyPair)
    (m : IndexMetaInfo) (nc : PageKeyPair) (h : TreeInv t chain E)
    (hm : t.pages t.headerPageNum = some (PageData.metaInfo m)) (hh1 : m.height = 1)
    (hnc : nc.pageNo ∈ chain) :
    ∃ u, growRoot t nc = some u ∧ TreeInv u chain E := by
  obtain ⟨hlo, hno, hf1, hf2, hhdr, hnd, hle, hperm, m', p0, hm', hhead, hlink, hroot⟩ := h
  rw [hm] at hm'
  simp only [Option.some.injEq, PageData.metaInfo.injEq] at hm'
  subst hm'
  have hr0 : t.rootPageNum = p0 := by
    rcases hroot with ⟨_, h⟩ | ⟨h, _⟩
    · exact h
    · exact absurd hh1 h
  rw [growRoot_eq t m nc hhdr hm]
  have hne1 : ∀ q, q ∈ chain → q ≠ t.numPages + 1 := by
    intro q hq
    have := hle q hq
    omega
  have hne2 : ∀ q, q ∈ chain → q ≠ t.headerPageNum := by
    intro q hq hqe
    obtain ⟨_, n, c, hn, _⟩ := Linked_mem t chain p0 hlink q hq
    rw [hqe, hm] at hn
    simp at hn
  have hsame : ∀ q, q ∈ chain →
      (unPinPage (unPinPage
        (writePage
          { (writePage (allocPage t).1 (t.numPages + 1)
              (PageData.nonLeaf
                (newRoot (t.freshNonLeaf (t.numPages + 1)) t.rootPageNum nc)))
            with rootPageNum := t.numPages + 1 }
          t.headerPageNum
          (PageData.metaInfo
            { m with height := m.height + 1, rootPageNo := t.numPages + 1 }))
        t.headerPageNum true) (t.numPages + 1) true).pages q = t.pages q := by
    intro q hq
    simp [unPinPage, writePage, allocPage, hne1 q hq, hne2 q hq]
  have hne3 : t.numPages + 1 ≠ t.headerPageNum := by omega
  refine ⟨_, rfl, ?_⟩
  refine ⟨by simpa [unPinPage, writePage, allocPage] using hlo,
    by simpa [unPinPage, writePage, allocPage] using hno,
    by simpa [unPinPage, writePage, allocPage] using hf1,
    by simpa [unPinPage, writePage, allocPage] using hf2,
    by simp only [unPinPage, writePage, allocPage]; omega, hnd, ?_, ?_,
    { m with height := m.height + 1, rootPageNo := t.numPages + 1 }, p0, ?_, hhead, ?_,
    Or.inr ⟨?_, ?_, newRoot (t.freshNonLeaf (t.numPages + 1)) t.rootPageNum nc, ?_, ?_,
      ?_, ?_, ?_⟩⟩
  · intro q hq
    have := hle q hq
    simp only [unPinPage, writePage, allocPage]
    omega
  · rw [entriesOf_congr' hsame rfl]
    exact hperm
  · simp [unPinPage, writePage, allocPage]
  · exact Linked_congr' hsame rfl hlink
  · simp only
    omega
  · simp [unPinPage, writePage, allocPage]
  · simp [unPinPage, writePage, allocPage, hne3]
  · simp only [newRoot]
    exact hf1 _
  · simp [newRoot, setAt, hr0]
  · simpa [newRoot, setAt] using hnc
  · simpa [newRoot, setAt] using hf2 _

theorem insertEntry_treeInv (fuel : Nat) (s : BTreeIndex) (chain : List Nat)
    (E : List RIDKeyPair) (key : Int) (rid : RecordId) (hfuel : 2 ≤ fuel)
    (hrid : rid.page_number ≠ 0) (h : TreeInv s chain E) :
    ∃ s' chain', insertEntry fuel s key rid = some s'
      ∧ TreeInv s' chain' ({ rid := rid, key := key } :: E) := by
  obtain ⟨f, rfl⟩ : ∃ f, fuel = f + 1 + 1 := ⟨fuel - 2, by omega⟩
  have hs := h
  obtain ⟨_, _, _, _, _, _, _, _, m, p0, hm, _, _, _⟩ := hs
  obtain ⟨s1, hread, hsf⟩ := readPage_sameFile s s.headerPageNum _ hm
  have h1 := TreeInv_sameFile hsf chain E h
  have hm1 : s1.pages s1.headerPageNum = some (PageData.metaInfo m) := by
    rw [hsf.1, hsf.2.2.2.2.2.2.1]
    exact hm
  obtain ⟨hlo, hno, hf1, hf2, hhdr, hnd, hle, hperm, m', p0', hm', hhead, hlink, hroot⟩ := h1
  rw [hm1] at hm'
  simp only [Option.some.injEq, PageData.metaInfo.injEq] at hm'
  subst hm'
  unfold insertEntry
  rw [hread]
  simp only [(asMeta_eq_some _ _ _).mpr hm1]
  rcases hroot with ⟨hh1, hr0⟩ | ⟨hh1, hrle, r, hr, hrl, hr0, hr1, hr2⟩
  · have hb : (m.height == 1) = true := by simp [hh1]
    rw [hb]
    obtain ⟨t2, nc, chain', hdesc, hinv, hmt, hnc⟩ :=
      descend_leaf_root (f + 1) s1 chain E { rid := rid, key := key } m p0' hrid hlo hno hf1
        hf2 hhdr hnd hle hperm hm1 hhead hlink hh1 hr0
    rw [hdesc]
    simp only
    by_cases hz : nc.pageNo = INVALID_NUMBER
    · rw [if_pos hz]
      exact ⟨_, chain', rfl, TreeInv_sameFile (unPinPage_sameFile _ _ _) _ _ hinv⟩
    · rw [if_neg hz]
      have hmem : nc.pageNo ∈ chain' := by
        rcases hnc with h | h
        · exact absurd h hz
        · exact h
      obtain ⟨u, hu, hinv'⟩ := growRoot_treeInv t2 chain' _ m nc hinv hmt hh1 hmem
      exact ⟨u, chain', hu, hinv'⟩
  · have hb : (m.height == 1) = false := by simp [hh1]
    rw [hb]
    obtain ⟨t2, nc, chain', hdesc, hinv, hmt, hnc⟩ :=
      descend_internal_root f s1 chain E { rid := rid, key := key } m p0' r hrid hlo hno hf1
        hf2 hhdr hnd hle hperm hm1 hhead hlink hh1 hrle hr hrl hr0 hr1 hr2
    rw [hdesc]
    simp only
    have hnc' : nc.pageNo = INVALID_NUMBER := hnc
    rw [if_pos hnc']
    exact ⟨_, chain', rfl, TreeInv_sameFile (unPinPage_sameFile _ _ _) _ _ hinv⟩

theorem insertAll_treeInv (fuel : Nat) (hfuel : 2 ≤ fuel) :
    ∀ (es : List RIDKeyPair) (s : BTreeIndex) (chain : List Nat) (E : List RIDKeyPair),
      (∀ e, e ∈ es → e.rid.page_number ≠ 0) → TreeInv s chain E →
      ∃ s' chain', insertAll fuel s es = some s' ∧ TreeInv s' chain' (es.reverse ++ E) := by
  intro es
  induction es with
  | nil =>
    intro s chain E _ h
    exact ⟨s, chain, rfl, by simpa using h⟩
  | cons e rest ih =>
    intro s chain E hrid h
    obtain ⟨s1, chain1, h1, h2⟩ :=
      insertEntry_treeInv fuel s chain E e.key e.rid hfuel
        (hrid e (List.mem_cons_self _ _)) h
    obtain ⟨s2, chain2, h3, h4⟩ :=
      ih s1 chain1 _ (fun x hx => hrid x (List.mem_cons_of_mem _ hx)) h2
    refine ⟨s2, chain2, ?_, ?_⟩
    · unfold insertAll
      rw [h1]
      exact h3
    · simpa using h4

/-! ## The contents of a built index (C9) -/

theorem contents_of_treeInv (s : BTreeIndex) (chain : List Nat) (E : List RIDKeyPair)
    (h : TreeInv s chain E) : ∃ c, contents s = some c ∧ List.Perm c E := by
  obtain ⟨hlo, hno, hf1, hf2, hhdr, hnd, hle, hperm, m, p0, hm, hhead, hlink, hroot⟩ := h
  have hp0 : p0 ∈ chain := mem_of_head chain p0 hhead
  have hne : chain ≠ [] := by
    intro hc
    rw [hc] at hp0
    simp at hp0
  have hlen := length_le_of_nodup chain s.numPages hnd hle
  have hchain := chainEntries_of_linked s chain p0 (s.numPages + 1) hne hlen hlink
  have hnum : 1 ≤ s.numPages := by
    have h1 := (Linked_mem s chain p0 hlink p0 hp0).1
    have h2 := hle p0 hp0
    omega
  obtain ⟨k, hk⟩ : ∃ k, s.numPages = k + 1 := ⟨s.numPages - 1, by omega⟩
  refine ⟨entriesOf s chain, ?_, hperm⟩
  unfold contents
  simp only [(asMeta_eq_some _ _ _).mpr hm]
  rcases hroot with ⟨hh1, hr0⟩ | ⟨hh1, _, r, hr, hrl, hr0, _, _⟩
  · have hb : (m.height == 1) = true := by simp [hh1]
    have hleft : leftmostLeaf (s.numPages + 1) s s.rootPageNum (m.height == 1) = some p0 := by
      rw [hb, leftmostLeaf]
      simp [hr0]
    rw [hleft]
    exact hchain
  · have hb : (m.height == 1) = false := by simp [hh1]
    have hlvl : (r.level != 0) = true := by simpa using hrl
    have hleft : leftmostLeaf (s.numPages + 1) s s.rootPageNum (m.height == 1) = some p0 := by
      rw [hb, hk, leftmostLeaf]
      simp only [Bool.false_eq_true, if_false, (asNonLeaf_eq_some _ _ _).mpr hr, hlvl, hr0]
      rw [leftmostLeaf]
      simp
    rw [hleft]
    exact hchain

theorem createIndex_treeInv (freshLeaf : Nat → LeafNodeInt) (freshNonLeaf : Nat → NonLeafNodeInt)
    (L K : Nat) (relationName : String) (attrByteOffset : Int) (attrType : Datatype)
    (hL : 2 ≤ L) (hK : 4 ≤ K) (hlevel : ∀ p, (freshNonLeaf p).level ≠ 0)
    (hslot : ∀ p, (freshNonLeaf p).pageNoArray 2 = 0) :
    TreeInv
      (createIndex (initMembers freshLeaf freshNonLeaf L K attrByteOffset attrType)
        relationName attrByteOffset attrType) [2] [] := by
  have hholds : LeafHolds (L - 1) (emptyRoot (freshLeaf 2)) 0 :=
    ⟨Nat.zero_le _, fun i hi => absurd hi (Nat.not_lt_zero i),
      by simp [emptyRoot, clearRid, setAt, INVALID_NUMBER]⟩
  have hpage : (createIndex (initMembers freshLeaf freshNonLeaf L K attrByteOffset attrType)
      relationName attrByteOffset attrType).pages 2
        = some (PageData.leaf (emptyRoot (freshLeaf 2))) := by
    simp [createIndex, initMembers, writePage, allocPage]
  refine ⟨?_, ?_, hlevel, hslot, ?_, by simp, ?_, ?_,
    { relationName := relationName.take 20, attrByteOffset := attrByteOffset,
      attrType := attrType, rootPageNo := 2, height := 1 }, 2, ?_, rfl, ?_, Or.inl ⟨rfl, rfl⟩⟩
  · simp only [createIndex, initMembers, writePage, allocPage]
    omega
  · simp only [createIndex, initMembers, writePage, allocPage]
    omega
  · simp [createIndex, initMembers, writePage, allocPage]
  · intro q hq
    simp only [List.mem_singleton] at hq
    subst hq
    simp [createIndex, initMembers, writePage, allocPage]
  · rw [entriesOf_cons_leaf _ 2 [] _ hpage]
    have hocc : (createIndex (initMembers freshLeaf freshNonLeaf L K attrByteOffset attrType)
        relationName attrByteOffset attrType).leafOccupancy = L - 1 := rfl
    rw [hocc, leafEntries_eq _ _ 0 hholds]
    simp [entriesOf]
  · simp [createIndex, initMembers, writePage, allocPage]
  · exact ⟨rfl, by decide, emptyRoot (freshLeaf 2), 0, hpage, hholds, rfl⟩

theorem construct_contents (freshLeaf : Nat → LeafNodeInt) (freshNonLeaf : Nat → NonLeafNodeInt)
    (L K : Nat) (relationName : String) (attrByteOffset : Int) (attrType : Datatype)
    (fuel : Nat) (records : List RIDKeyPair)
    (hL : 2 ≤ L) (hK : 4 ≤ K) (hlevel : ∀ p, (freshNonLeaf p).level ≠ 0)
    (hslot : ∀ p, (freshNonLeaf p).pageNoArray 2 = 0) (hfuel : 2 ≤ fuel)
    (hrid : ∀ e, e ∈ records → e.rid.page_number ≠ 0) :
    ∃ s c, construct (fun _ => none) freshLeaf freshNonLeaf L K relationName attrByteOffset
        attrType records fuel = some s
      ∧ contents s = some c ∧ List.Perm c records := by
  obtain ⟨s, chain, h1, h2⟩ :=
    insertAll_treeInv fuel hfuel records _ [2] [] hrid
      (createIndex_treeInv freshLeaf freshNonLeaf L K relationName attrByteOffset attrType
        hL hK hlevel hslot)
  have hsf : SameFile s (flushFile (unPinPage (unPinPage s 1 true) 2 true)) :=
    ⟨rfl, rfl, rfl, rfl, rfl, rfl, rfl, rfl⟩
  obtain ⟨c, h3, h4⟩ := contents_of_treeInv _ chain _ (TreeInv_sameFile hsf chain _ h2)
  refine ⟨_, c, ?_, h3, ?_⟩
  · unfold construct
    simp only [h1]
  · rw [List.append_nil] at h4
    exact h4.trans (List.reverse_perm records)

/-- Insertion order when the buffers hold what a new root needs: for every two lists
`A` and `B` of (key, rid) pairs with valid rids (so in particular for disjoint sets of
distinct-key pairs), building an index by inserting all
of `A` and then all of `B` succeeds, as does inserting all of `B` and then all of `A`,
and the two trees have the same contents: the live entries met along the leaf sibling
chain from the leftmost leaf are the same entries, each as often, and they are exactly
the inserted pairs.  This holds for leaf arrays of at least 2 slots, internal key arrays
of at least 4 slots and a buffer manager whose fresh buffers carry a nonzero level and
an empty child slot 2: the three things the code reads from a new root without having
written them or written them rightly. -/
theorem insert_order_same_contents (freshLeaf : Nat → LeafNodeInt)
    (freshNonLeaf : Nat → NonLeafNodeInt) (L K : Nat) (relationName : String)
    (attrByteOffset : Int) (attrType : Datatype) (fuel : Nat) (A B : List RIDKeyPair)
    (hL : 2 ≤ L) (hK : 4 ≤ K) (hlevel : ∀ p, (freshNonLeaf p).level ≠ 0)
    (hslot : ∀ p, (freshNonLeaf p).pageNoArray 2 = 0) (hfuel : 2 ≤ fuel)
    (hA : ∀ e, e ∈ A → e.rid.page_number ≠ 0) (hB : ∀ e, e ∈ B → e.rid.page_number ≠ 0) :
    ∃ s1 s2 c1 c2,
      construct (fun _ => none) freshLeaf freshNonLeaf L K relationName attrByteOffset
          attrType (A ++ B) fuel = some s1
        ∧ construct (fun _ => none) freshLeaf freshNonLeaf L K relationName attrByteOffset
          attrType (B ++ A) fuel = some s2
        ∧ contents s1 = some c1 ∧ contents s2 = some c2
        ∧ List.Perm c1 c2 ∧ (∀ e, e ∈ c1 ↔ e ∈ c2) ∧ List.Perm c1 (A ++ B) := by
  have hAB : ∀ e, e ∈ A ++ B → e.rid.page_number ≠ 0 := by
    intro e he
    rcases List.mem_append.mp he with h | h
    · exact hA e h
    · exact hB e h
  have hBA : ∀ e, e ∈ B ++ A → e.rid.page_number ≠ 0 := by
    intro e he
    rcases List.mem_append.mp he with h | h
    · exact hB e h
    · exact hA e h
  obtain ⟨s1, c1, h1, h2, h3⟩ :=
    construct_contents freshLeaf freshNonLeaf L K relationName attrByteOffset attrType fuel
      (A ++ B) hL hK hlevel hslot hfuel hAB
  obtain ⟨s2, c2, h4, h5, h6⟩ :=
    construct_contents freshLeaf freshNonLeaf L K relationName attrByteOffset attrType fuel
      (B ++ A) hL hK hlevel hslot hfuel hBA
  have hp : List.Perm c1 c2 := h3.trans (List.perm_append_comm.trans h6.symm)
  exact ⟨s1, s2, c1, c2, h1, h4, h2, h5, hp, fun e => hp.mem_iff, h3⟩

/-- A run of it: `A` holds keys 10, 20, 30 and `B` holds keys 40, 50, on leaf arrays of 4
slots (the first order splits the root leaf). -/
theorem insert_order_same_contents_witness :
    ∃ s1 s2 c1 c2,
      build ([rec1 0 10, rec1 1 20, rec1 2 30] ++ [rec1 3 40, rec1 4 50]) = some s1
        ∧ build ([rec1 3 40, rec1 4 50] ++ [rec1 0 10, rec1 1 20, rec1 2 30]) = some s2
        ∧ contents s1 = some c1 ∧ contents s2 = some c2
        ∧ List.Perm c1 c2 ∧ (∀ e, e ∈ c1 ↔ e ∈ c2)
        ∧ List.Perm c1 ([rec1 0 10, rec1 1 20, rec1 2 30] ++ [rec1 3 40, rec1 4 50]) :=
  insert_order_same_contents zeroLeaf (zeroNonLeaf 1) 4 5 "relA" 0 Datatype.INTEGER 3
    [rec1 0 10, rec1 1 20, rec1 2 30] [rec1 3 40, rec1 4 50] (by decide) (by decide)
    (fun _ => by simp [zeroNonLeaf]) (fun _ => rfl) (by decide) (by decide) (by decide)

/-- C9 (the code departs from it): `insertEntry` builds a new root in the buffer it is
handed and writes neither its `level` nor its child slots from 2 on (lines 296-299), so
what the next descent does depends on what the buffer held.  With zero-filled buffers
and `A` = keys 10, 20, 30, 40, the root built for `A` has level 0; the descent for key
50 of `B` takes slot 1, page 3, and passes `level` as `is_leaf` (line 218), so the leaf
of page 3 is read through the layout of an internal node: nothing fixes the contents,
in either order.  With a buffer that holds a stale page number 99 in child slot 2 and
`B` = key 5, inserting `A` and then `B` gives the five entries, while inserting `B` and
then `A` sends key 40 to page 99, which the file does not have. -/
theorem insert_order_uninitialised_root :
    (buildZero [rec1 0 10, rec1 1 20, rec1 2 30, rec1 3 40]).map (fun s =>
        (nonLeafView s s.rootPageNum, (asLeaf s 3).isSome))
      = some (some { level := 0, liveChildren := 2, pageNoArray := [2, 3, 0, 0, 0, 0],
                     keyArray := [30, 0, 0, 0, 0] }, true)
    ∧ (buildZero [rec1 0 10, rec1 1 20, rec1 2 30, rec1 3 40]).bind (fun s =>
        (asNonLeaf s s.rootPageNum).map (fun r =>
          (nonLeafPos s.nodeOccupancy 50 r, r.pageNoArray (nonLeafPos s.nodeOccupancy 50 r),
            r.level != 0)))
      = some (1, 3, false)
    ∧ (buildZero ([rec1 0 10, rec1 1 20, rec1 2 30, rec1 3 40] ++ [rec1 4 50])).isSome = false
    ∧ (buildZero ([rec1 4 50] ++ [rec1 0 10, rec1 1 20, rec1 2 30, rec1 3 40])).isSome = false
    ∧ (buildStale ([rec1 0 10, rec1 1 20, rec1 2 30, rec1 3 40] ++ [rec1 4 5])).bind contents
      = some [rec1 4 5, rec1 0 10, rec1 1 20, rec1 2 30, rec1 3 40]
    ∧ (buildStale ([rec1 4 5] ++ [rec1 0 10, rec1 1 20, rec1 2 30])).bind (fun s =>
        (asNonLeaf s s.rootPageNum).map (fun r =>
          (s.numPages, nonLeafPos s.nodeOccupancy 40 r,
            r.pageNoArray (nonLeafPos s.nodeOccupancy 40 r))))
      = some (4, 2, 99)
    ∧ (buildStale ([rec1 4 5] ++ [rec1 0 10, rec1 1 20, rec1 2 30, rec1 3 40])).isSome
      = false := by
  decide

/-! ## Opening an existing index (C10) -/

/-- C10 (the code departs from it): an index over `relA` at offset 0 is built with
attribute type `INTEGER`, and the same file is then opened with attribute type `DOUBLE`.
The constructor throws nothing: it returns an index whose root is the stored root page 2,
although the meta page records `INTEGER`. -/
theorem open_ignores_attribute_type :
    (build [rec1 0 10, rec1 1 20, rec1 2 30]).bind
        (fun s =>
          (construct (fun _ => some { pages := s.pages, numPages := s.numPages })
            zeroLeaf (zeroNonLeaf 1) 4 5 "relA" 0 Datatype.DOUBLE [] 3).map
            (fun t => (t.rootPageNum, t.attributeType,
              (asMeta t t.headerPageNum).map (fun m => m.attrType))))
      = some (2, Datatype.DOUBLE, some Datatype.INTEGER) := by
  decide

/-! ## Pin counts over an insertion (C11) -/

theorem pinCount_append (p : Nat) (a b : List BufOp) :
    pinCount p (a ++ b) = pinCount p a + pinCount p b := by
  induction a with
  | nil => simp [pinCount]
  | cons op a ih =>
    cases op <;> (rw [List.cons_append, pinCount, pinCount, ih]; try omega)

theorem insertLeaf_log (s s' : BTreeIndex) (entry : RIDKeyPair) (p : Nat)
    (nc : PageKeyPair) (h : insertLeaf s entry p = some (s', nc)) :
    ∃ ops, s'.bufLog = s.bufLog ++ ops
      ∧ ∀ q, pinCount q ops = -(if p = q then 1 else 0) := by
  unfold insertLeaf at h
  split at h
  · simp at h
  split at h
  · simp at h
  split at h
  · split at h
    · simp at h
    simp only [Option.some.injEq, Prod.mk.injEq] at h
    obtain ⟨h1, _⟩ := h
    subst h1
    refine ⟨[BufOp.allocPage (s.numPages + 1), BufOp.unPinPage (s.numPages + 1) true,
      BufOp.unPinPage p true], by simp [unPinPage, writePage, allocPage], ?_⟩
    intro q
    simp only [pinCount]
    split_ifs <;> omega
  · split at h
    · simp at h
    simp only [Option.some.injEq, Prod.mk.injEq] at h
    obtain ⟨h1, _⟩ := h
    subst h1
    refine ⟨[BufOp.unPinPage p true], by simp [unPinPage, writePage], ?_⟩
    intro q
    simp only [pinCount]
    split_ifs <;> omega

theorem installChild_log (s s' : BTreeIndex) (entry : RIDKeyPair) (p : Nat) (pos : Nat)
    (c nc : PageKeyPair) (h : installChild s entry p pos c = some (s', nc)) :
    ∃ ops, s'.bufLog = s.bufLog ++ ops
      ∧ ∀ q, pinCount q ops = -(if p = q then 1 else 0) := by
  unfold installChild at h
  split at h
  · simp at h
  split at h
  · simp at h
  split at h
  · simp only [Option.some.injEq, Prod.mk.injEq] at h
    obtain ⟨h1, _⟩ := h
    subst h1
    refine ⟨[BufOp.allocPage (s.numPages + 1), BufOp.unPinPage (s.numPages + 1) true,
      BufOp.unPinPage p true], by simp [unPinPage, writePage, allocPage], ?_⟩
    intro q
    simp only [pinCount]
    split_ifs <;> omega
  · split at h
    · simp at h
    simp only [Option.some.injEq, Prod.mk.injEq] at h
    obtain ⟨h1, _⟩ := h
    subst h1
    refine ⟨[BufOp.unPinPage p true], by simp [unPinPage, writePage], ?_⟩
    intro q
    simp only [pinCount]
    split_ifs <;> omega

theorem insertUnderNode_log (fuel : Nat) :
    ∀ (s s' : BTreeIndex) (entry : RIDKeyPair) (p : Nat) (is_leaf : Bool) (nc : PageKeyPair),
      insertUnderNode fuel s entry p is_leaf = some (s', nc) →
      ∃ ops, s'.bufLog = s.bufLog ++ ops ∧ ∀ q, pinCount q ops = 0 := by
  induction fuel with
  | zero =>
    intro s s' entry p is_leaf nc h
    simp [insertUnderNode] at h
  | succ fuel ih =>
    intro s s' entry p is_leaf nc h
    unfold insertUnderNode at h
    split at h
    · simp at h
    rename_i s1 hs1
    have hs1' := readPage_eq_some s s1 p hs1
    have hlog1 : s1.bufLog = s.bufLog ++ [BufOp.readPage p] := by rw [hs1']
    have hread : ∀ q, pinCount q [BufOp.readPage p] = (if p = q then 1 else 0) := by
      intro q
      simp [pinCount]
    split at h
    · obtain ⟨ops, h1, h2⟩ := insertLeaf_log s1 s' entry p nc h
      refine ⟨BufOp.readPage p :: ops, by rw [h1, hlog1]; simp, ?_⟩
      intro q
      have := pinCount_append q [BufOp.readPage p] ops
      rw [List.singleton_append] at this
      rw [this, hread, h2]
      omega
    · split at h
      · simp at h
      split at h
      · simp at h
      rename_i s2 c hrec
      obtain ⟨ops1, h1, h2⟩ := ih _ _ _ _ _ _ hrec
      split at h
      · simp only [Option.some.injEq, Prod.mk.injEq] at h
        obtain ⟨h3, _⟩ := h
        subst h3
        refine ⟨BufOp.readPage p :: (ops1 ++ [BufOp.unPinPage p true]),
          by simp [unPinPage, h1, hlog1], ?_⟩
        intro q
        have := pinCount_append q [BufOp.readPage p] (ops1 ++ [BufOp.unPinPage p true])
        rw [List.singleton_append] at this
        rw [this, pinCount_append, hread, h2]
        simp only [pinCount]
        split_ifs <;> omega
      · obtain ⟨ops2, h3, h4⟩ := installChild_log _ _ _ _ _ _ _ h
        refine ⟨BufOp.readPage p :: (ops1 ++ ops2), by rw [h3, h1, hlog1]; simp, ?_⟩
        intro q
        have := pinCount_append q [BufOp.readPage p] (ops1 ++ ops2)
        rw [List.singleton_append] at this
        rw [this, pinCount_append, hread, h2, h4]
        omega

theorem growRoot_log (s s' : BTreeIndex) (newChild : PageKeyPair)
    (h : growRoot s newChild = some s') :
    ∃ ops, s'.bufLog = s.bufLog ++ ops
      ∧ ∀ q, pinCount q ops = -(if s.headerPageNum = q then 1 else 0) := by
  unfold growRoot at h
  split at h
  · simp at h
  simp only [Option.some.injEq] at h
  subst h
  refine ⟨[BufOp.allocPage (s.numPages + 1), BufOp.unPinPage s.headerPageNum true,
    BufOp.unPinPage (s.numPages + 1) true], by simp [unPinPage, writePage, allocPage], ?_⟩
  intro q
  simp only [pinCount]
  split_ifs <;> omega

theorem insertEntry_log (fuel : Nat) (s s' : BTreeIndex) (key : Int) (rid : RecordId)
    (h : insertEntry fuel s key rid = some s') :
    ∃ ops, s'.bufLog = s.bufLog ++ ops ∧ ∀ q, pinCount q ops = 0 := by
  unfold insertEntry at h
  split at h
  · simp at h
  rename_i s1 hs1
  have hs1' := readPage_eq_some s s1 _ hs1
  have hlog1 : s1.bufLog = s.bufLog ++ [BufOp.readPage s.headerPageNum] := by rw [hs1']
  have hhdr1 : s1.headerPageNum = s.headerPageNum := by rw [hs1']
  have hread : ∀ q, pinCount q [BufOp.readPage s.headerPageNum]
      = (if s.headerPageNum = q then 1 else 0) := by
    intro q
    simp [pinCount]
  split at h
  · simp at h
  split at h
  · simp at h
  rename_i s2 c hrec
  obtain ⟨ops1, h1, h2⟩ := insertUnderNode_log _ _ _ _ _ _ _ hrec
  have hhdr2 : s2.headerPageNum = s.headerPageNum :=
    (insertUnderNode_extends _ _ _ _ _ _ _ hrec).1.1.trans hhdr1
  split at h
  · simp only [Option.some.injEq] at h
    subst h
    refine ⟨BufOp.readPage s.headerPageNum :: (ops1 ++ [BufOp.unPinPage s.headerPageNum false]),
      by simp [unPinPage, h1, hlog1, hhdr2], ?_⟩
    intro q
    have := pinCount_append q [BufOp.readPage s.headerPageNum]
      (ops1 ++ [BufOp.unPinPage s.headerPageNum false])
    rw [List.singleton_append] at this
    rw [this, pinCount_append, hread, h2]
    simp only [pinCount]
    split_ifs <;> omega
  · obtain ⟨ops2, h3, h4⟩ := growRoot_log _ _ _ h
    rw [hhdr2] at h4
    refine ⟨BufOp.readPage s.headerPageNum :: (ops1 ++ ops2), by rw [h3, h1, hlog1]; simp, ?_⟩
    intro q
    have := pinCount_append q [BufOp.readPage s.headerPageNum] (ops1 ++ ops2)
    rw [List.singleton_append] at this
    rw [this, pinCount_append, hread, h2, h4]
    omega

/-- C11: an `insertEntry` on a well-formed tree returns, and whenever `insertEntry`
returns, the buffer-manager calls it made net to zero pins on every page: the log grows
by calls in which each `readPage`/`allocPage` of a page is matched by one `unPinPage`
of it, so every pin count after the call equals the pin count before it. -/
theorem insertEntry_pins_balanced (fuel : Nat) (s : BTreeIndex) (key : Int)
    (rid : RecordId) :
    (∀ chain E, 2 ≤ fuel → rid.page_number ≠ 0 → TreeInv s chain E →
        ∃ s', insertEntry fuel s key rid = some s')
      ∧ ∀ s', insertEntry fuel s key rid = some s' →
          (∃ ops, s'.bufLog = s.bufLog ++ ops ∧ ∀ p, pinCount p ops = 0)
            ∧ ∀ p, pinCount p s'.bufLog = pinCount p s.bufLog := by
  refine ⟨?_, ?_⟩
  · intro chain E hfuel hrid hinv
    obtain ⟨s', _, h, _⟩ := insertEntry_treeInv fuel s chain E key rid hfuel hrid hinv
    exact ⟨s', h⟩
  · intro s' h
    obtain ⟨ops, h1, h2⟩ := insertEntry_log fuel s s' key rid h
    refine ⟨⟨ops, h1, h2⟩, ?_⟩
    intro p
    rw [h1, pinCount_append, h2]
    omega

theorem insertEntry_pins_balanced_witness :
    (∃ s', insertEntry 3 fullIndex 40 { page_number := 1, slot_number := 4 } = some s'
        ∧ ∀ p, pinCount p s'.bufLog = pinCount p fullIndex.bufLog)
      ∧ ∃ s', insertEntry 3 emptyIndex 40 { page_number := 1, slot_number := 4 } = some s'
        ∧ ∀ p, pinCount p s'.bufLog = pinCount p emptyIndex.bufLog := by
  have h1 : (insertEntry 3 fullIndex 40 { page_number := 1, slot_number := 4 }).isSome
      = true := by decide
  obtain ⟨s1, hs1⟩ := Option.isSome_iff_exists.mp h1
  obtain ⟨s2, hs2⟩ :=
    (insertEntry_pins_balanced 3 emptyIndex 40 { page_number := 1, slot_number := 4 }).1
      [2] [] (by decide) (by decide)
      (createIndex_treeInv zeroLeaf (zeroNonLeaf 1) 4 5 "relA" 0 Datatype.INTEGER
        (by decide) (by decide) (fun _ => by simp [zeroNonLeaf]) (fun _ => rfl))
  exact ⟨⟨s1, hs1, ((insertEntry_pins_balanced 3 fullIndex 40 _).2 s1 hs1).2⟩,
    ⟨s2, hs2, ((insertEntry_pins_balanced 3 emptyIndex 40 _).2 s2 hs2).2⟩⟩

/-! ## A scan that finds no key (C12) -/

theorem scanDescend_scanExecuting (fuel : Nat) :
    ∀ (s s' : BTreeIndex), scanDescend fuel s = some s' → s'.scanExecuting = s.scanExecuting := by
  induction fuel with
  | zero =>
    intro s s' h
    simp [scanDescend] at h
  | succ fuel ih =>
    intro s s' h
    unfold scanDescend at h
    split at h
    · simp at h
    try simp only at h
    split at h
    · split at h
      · simp at h
      rename_i s1 hs1
      have e1 := readPage_eq_some _ _ _ hs1
      split at h
      · simp only [Option.some.injEq] at h
        subst h
        rw [e1]
        rfl
      · rw [ih _ _ h, e1]
        rfl
    · exact ih _ _ h

/-- Every return of `startScan` with `NoSuchKeyFound` leaves `scanExecuting` set. -/
theorem startScan_noSuchKey_scanExecuting (fuel : Nat) (s s' : BTreeIndex) (lowVal : Int)
    (lowOp : Operator) (highVal : Int) (highOp : Operator)
    (h : startScan fuel s lowVal lowOp highVal highOp = some (s', some Exn.NoSuchKeyFound)) :
    s'.scanExecuting = true := by
  unfold startScan at h
  split at h
  · simp at h
  split at h
  · simp at h
  try simp only at h
  split at h
  · simp at h
  split at h
  · simp at h
  rename_i s1 hs1
  have e1 := readPage_eq_some _ _ _ hs1
  split at h
  · simp at h
  try simp only at h
  split at h
  · simp at h
  rename_i s2 hs2
  have e2 := readPage_eq_some _ _ _ hs2
  split at h
  · simp at h
  rename_i s3 hs3
  have e3 : s3.scanExecuting = true := by
    split at hs3
    · simp only [Option.some.injEq] at hs3
      subst hs3
      rw [e2]
      simp only [unPinPage]
      rw [e1]
    · rw [scanDescend_scanExecuting _ _ _ hs3, e2]
      simp only [unPinPage]
      rw [e1]
  split at h
  · simp at h
  try simp only at h
  split at h
  · simp at h
  split at h
  · simp only [Option.some.injEq, Prod.mk.injEq] at h
    rw [← h.1]
    exact e3
  · split at h
    · simp at h
    · simp at h

/-- C12 (the code departs from it): the index holds the keys 10, 20, 30 in its root
leaf (page 2), no scan is in progress, and the range `[40, 50]` is scanned.  `startScan`
throws `NoSuchKeyFound` at line 428 with `scanExecuting` left `true` and the leaf still
pinned: the pin count of page 2 is one above its value before the call. -/
theorem startScan_noSuchKey_leaves_leaf_pinned :
    (build [rec1 0 10, rec1 1 20, rec1 2 30]).bind (fun s =>
        (startScan 3 s 40 Operator.GTE 50 Operator.LTE).map (fun r =>
          (s.scanExecuting, r.2, r.1.scanExecuting, r.1.currentPageNum,
            pinCount 2 r.1.bufLog - pinCount 2 s.bufLog)))
      = some (false, some Exn.NoSuchKeyFound, true, 2, 1) := by
  decide

/-! ## A leaf with ascending keys (C13 to C15) -/

theorem findFrom_before (stop : Nat → Bool) (n i : Nat) :
    ∀ j, i ≤ j → j < findFrom stop n i → stop j = false := by
  induction n generalizing i with
  | zero =>
    intro j h1 h2
    simp only [findFrom] at h2
    omega
  | succ n ih =>
    intro j h1 h2
    unfold findFrom at h2
    split at h2
    · omega
    · rename_i hs
      by_cases hj : j = i
      · subst hj
        simpa using hs
      · exact ih (i + 1) j (by omega) h2

theorem findFrom_stop (stop : Nat → Bool) (n i : Nat) (h : findFrom stop n i < i + n) :
    stop (findFrom stop n i) = true := by
  induction n generalizing i with
  | zero =>
    simp only [findFrom] at h
    omega
  | succ n ih =>
    unfold findFrom at h ⊢
    split
    · assumption
    · rename_i hs
      rw [if_neg hs] at h
      exact ih (i + 1) (by omega)

/-- Where the search of lines 154-160 stops in a leaf with ascending keys: the keys
before the slot are below `key`, the live keys from the slot on are above it. -/
theorem leafPos_sorted (occ : Nat) (n : LeafNodeInt) (c : Nat) (key : Int)
    (h : LeafSorted occ n c) (hnew : ∀ i, i < c → n.keyArray i ≠ key) :
    (∀ i, i < leafPos occ key n → n.keyArray i < key)
      ∧ ∀ i, leafPos occ key n ≤ i → i < c → key < n.keyArray i := by
  obtain ⟨hh, _, hs⟩ := h
  have hp := leafPos_le occ key n c hh
  constructor
  · intro i hi
    have h1 := findFrom_before
      (fun i => decide (key < n.keyArray i) || (n.ridArray i).page_number == 0)
      (occ + 1) 0 i (Nat.zero_le _) hi
    simp only [Bool.or_eq_false_iff, decide_eq_false_iff_not] at h1
    have h2 := hnew i (by omega)
    omega
  · intro i h1 h2
    have hlt : leafPos occ key n < 0 + (occ + 1) := by
      have := hh.1
      omega
    have h3 := findFrom_stop
      (fun i => decide (key < n.keyArray i) || (n.ridArray i).page_number == 0)
      (occ + 1) 0 hlt
    have h4 : (n.ridArray (leafPos occ key n)).page_number ≠ 0 := hh.2.1 _ (by omega)
    have h5 : key < n.keyArray (leafPos occ key n) := by
      unfold leafPos
      simp only [Bool.or_eq_true, decide_eq_true_eq, beq_iff_eq] at h3
      rcases h3 with h3 | h3
      · exact h3
      · exact absurd h3 h4
    by_cases hi : i = leafPos occ key n
    · rw [hi]
      exact h5
    · have := hs (leafPos occ key n) i (by omega) h2
      omega

/-- After lines 164-170 the keys of the slots `0 .. c` ascend. -/
theorem leafPut_sorted (occ : Nat) (n m : LeafNodeInt) (c : Nat) (entry : RIDKeyPair)
    (h : LeafSorted occ n c) (hm : leafPut occ n entry = some m)
    (hnew : ∀ i, i < c → n.keyArray i ≠ entry.key) :
    ∀ i j, i < j → j ≤ c → m.keyArray i < m.keyArray j := by
  obtain ⟨m', hm', _, _, h3⟩ := leafPut_spec occ n c entry h.1
  rw [hm] at hm'
  simp only [Option.some.injEq] at hm'
  subst hm'
  obtain ⟨p1, p2⟩ := leafPos_sorted occ n c entry.key h hnew
  have hp := leafPos_le occ entry.key n c h.1
  have hs := h.2.2
  intro i j hij hjc
  rw [h3 i, h3 j]
  by_cases a1 : j < leafPos occ entry.key n
  · have a2 : i < leafPos occ entry.key n := by omega
    simp only [a1, a2, if_true]
    exact hs i j hij (by omega)
  · by_cases a3 : j = leafPos occ entry.key n
    · have a2 : i < leafPos occ entry.key n := by omega
      simp only [a1, a2, a3, if_true, if_false, lt_irrefl]
      exact p1 i a2
    · simp only [a1, a3, hjc, if_true, if_false]
      by_cases b1 : i < leafPos occ entry.key n
      · simp only [b1, if_true]
        exact hs i (j - 1) (by omega) (by omega)
      · by_cases b2 : i = leafPos occ entry.key n
        · simp only [b1, b2, if_true, if_false, lt_irrefl]
          exact p2 (j - 1) (by omega) (by omega)
        · have b3 : i ≤ c := by omega
          simp only [b1, b2, b3, if_true, if_false]
          exact hs (i - 1) (j - 1) (by omega) (by omega)

theorem map_range_insert_eq {α : Type} (f g : Nat → α) (e : α) (pos c : Nat) (hpos : pos ≤ c)
    (hlt : ∀ i, i < pos → g i = f i) (he : g pos = e)
    (hgt : ∀ i, pos < i → i ≤ c → g i = f (i - 1)) :
    (List.range c).map f
        = (List.range pos).map f ++ (List.range (c - pos)).map (fun i => f (pos + i))
      ∧ (List.range (c + 1)).map g
        = (List.range pos).map f ++ e :: (List.range (c - pos)).map (fun i => f (pos + i)) := by
  constructor
  · have h1 : c = pos + (c - pos) := by omega
    conv_lhs => rw [h1, List.range_add, List.map_append, List.map_map]
    rfl
  · have h1 : c + 1 = pos + ((c - pos) + 1) := by omega
    have hA : (List.range pos).map g = (List.range pos).map f := by
      apply List.map_congr_left
      intro i hi
      rw [List.mem_range] at hi
      exact hlt i hi
    have hB : (List.range (c - pos)).map (fun i => g (pos + (i + 1)))
        = (List.range (c - pos)).map (fun i => f (pos + i)) := by
      apply List.map_congr_left
      intro i hi
      rw [List.mem_range] at hi
      have := hgt (pos + (i + 1)) (by omega) (by omega)
      simpa using this
    rw [h1, List.range_add, List.map_append, List.map_map, List.range_succ_eq_map,
      List.map_cons, List.map_map, hA, ← hB, ← he]
    rfl

/-- The slots `0 .. c` after lines 164-170: the old entries with the new one at its
sorted position. -/
theorem leafPut_entries_eq (occ : Nat) (n m : LeafNodeInt) (c : Nat) (entry : RIDKeyPair)
    (h : LeafSorted occ n c) (hm : leafPut occ n entry = some m)
    (hnew : ∀ i, i < c → n.keyArray i ≠ entry.key) :
    ∃ pre post, leafEntries occ n = pre ++ post
      ∧ (List.range (c + 1)).map (entryAt m) = pre ++ entry :: post
      ∧ (∀ x, x ∈ pre → x.key < entry.key) ∧ ∀ x, x ∈ post → entry.key < x.key := by
  obtain ⟨m', hm', _, h2, h3⟩ := leafPut_spec occ n c entry h.1
  rw [hm] at hm'
  simp only [Option.some.injEq] at hm'
  subst hm'
  obtain ⟨p1, p2⟩ := leafPos_sorted occ n c entry.key h hnew
  have hp := leafPos_le occ entry.key n c h.1
  obtain ⟨e1, e2⟩ := map_range_insert_eq (entryAt n) (entryAt m) entry
    (leafPos occ entry.key n) c hp
    (by
      intro i hi
      simp [entryAt, h2 i, h3 i, hi])
    (by simp [entryAt, h2, h3])
    (by
      intro i hi hic
      have a : ¬ i < leafPos occ entry.key n := by omega
      have b : i ≠ leafPos occ entry.key n := by omega
      simp [entryAt, h2 i, h3 i, a, b, hic])
  refine ⟨_, _, ?_, e2, ?_, ?_⟩
  · rw [leafEntries_eq occ n c h.1]
    exact e1
  · intro x hx
    rw [List.mem_map] at hx
    obtain ⟨i, hi, rfl⟩ := hx
    rw [List.mem_range] at hi
    exact p1 i hi
  · intro x hx
    rw [List.mem_map] at hx
    obtain ⟨i, hi, rfl⟩ := hx
    rw [List.mem_range] at hi
    exact p2 _ (by omega) (by omega)

theorem leaf_nosplit_sorted (occ : Nat) (n m : LeafNodeInt) (c : Nat) (entry : RIDKeyPair)
    (h : LeafSorted occ n c) (hm : leafPut occ n entry = some m)
    (hrid : entry.rid.page_number ≠ 0) (hc : c ≠ occ)
    (hnew : ∀ i, i < c → n.keyArray i ≠ entry.key) :
    ∃ b, leafBound occ m c = some b ∧ LeafSorted occ b (c + 1)
      ∧ b.rightSibPageNo = n.rightSibPageNo
      ∧ ∃ pre post, leafEntries occ n = pre ++ post
          ∧ leafEntries occ b = pre ++ entry :: post
          ∧ (∀ x, x ∈ pre → x.key < entry.key) ∧ ∀ x, x ∈ post → entry.key < x.key := by
  obtain ⟨b, hb, hholds, hsib, _⟩ := leaf_insert_nosplit occ n m c entry h.1 hm hrid hc
  have hsorted := leafPut_sorted occ n m c entry h hm hnew
  obtain ⟨pre, post, e1, e2, e3, e4⟩ := leafPut_entries_eq occ n m c entry h hm hnew
  have hco := h.1.1
  have hlt : c + 1 < occ + 1 := by omega
  have hb0 := hb
  unfold leafBound at hb
  simp only [hlt, if_true, Option.some.injEq] at hb
  subst hb
  refine ⟨_, hb0, ⟨hholds, by simp [setAt], ?_⟩, hsib, pre, post, e1, ?_, e3, e4⟩
  · intro i j hij hj
    have a : i ≠ c + 1 := by omega
    have b : j ≠ c + 1 := by omega
    simp only [setAt, a, b, if_false]
    exact hsorted i j hij (by omega)
  · rw [leafEntries_eq occ _ (c + 1) hholds, ← e2]
    apply List.map_congr_left
    intro i hi
    rw [List.mem_range] at hi
    have : i ≠ c + 1 := by omega
    simp [entryAt, clearRid, setAt, this]

/-- Lines 180-190 slot by slot: the old leaf keeps the slots `0 .. occ / 2`, the new
leaf receives the slots from `occ / 2 + 1` on, and each ends with the bound. -/
theorem leafSplit_spec (occ : Nat) (m fresh : LeafNodeInt) (newId : Nat) (hocc : 1 ≤ occ) :
    ∃ l r, leafSplit occ m fresh newId = some (l, r)
      ∧ l.rightSibPageNo = newId ∧ r.rightSibPageNo = m.rightSibPageNo
      ∧ (∀ i, i ≤ occ / 2 → entryAt l i = entryAt m i)
      ∧ l.keyArray (occ / 2 + 1) = INT_MAX ∧ (l.ridArray (occ / 2 + 1)).page_number = 0
      ∧ (∀ j, j < (occ + 1) / 2 → entryAt r j = entryAt m (occ / 2 + 1 + j))
      ∧ r.keyArray ((occ + 1) / 2) = INT_MAX
      ∧ (r.ridArray ((occ + 1) / 2)).page_number = 0 := by
  have hlt : occ / 2 + 1 < occ + 1 := by omega
  unfold leafSplit
  simp only [hlt, if_true]
  refine ⟨_, _, rfl, rfl, rfl, ?_, by simp [setAt], by simp [clearRid, setAt, INVALID_NUMBER],
    ?_, by simp [setAt], by simp [clearRid, setAt, INVALID_NUMBER]⟩
  · intro i hi
    have : i ≠ occ / 2 + 1 := by omega
    simp [entryAt, clearRid, setAt, this]
  · intro j hj
    have : j ≠ (occ + 1) / 2 := by omega
    simp [entryAt, clearRid, setAt, this, copyArray, hj]

theorem leaf_split_sorted (occ : Nat) (n m fresh : LeafNodeInt) (newId : Nat)
    (entry : RIDKeyPair) (h : LeafSorted occ n occ) (hm : leafPut occ n entry = some m)
    (hrid : entry.rid.page_number ≠ 0) (hocc : 1 ≤ occ)
    (hnew : ∀ i, i < occ → n.keyArray i ≠ entry.key) :
    ∃ l r, leafSplit occ m fresh newId = some (l, r)
      ∧ LeafSorted occ l (occ / 2 + 1) ∧ LeafSorted occ r ((occ + 1) / 2)
      ∧ l.rightSibPageNo = newId ∧ r.rightSibPageNo = n.rightSibPageNo
      ∧ (∃ pre post, leafEntries occ n = pre ++ post
          ∧ leafEntries occ l ++ leafEntries occ r = pre ++ entry :: post
          ∧ (∀ x, x ∈ pre → x.key < entry.key) ∧ ∀ x, x ∈ post → entry.key < x.key)
      ∧ (∀ x, x ∈ leafEntries occ l → x.key < r.keyArray 0)
      ∧ (leafEntries occ l).length = occ / 2 + 1
      ∧ (leafEntries occ r).length = (occ + 1) / 2 := by
  obtain ⟨hsib, hlive, _⟩ := leafPut_entries occ n m occ entry h.1 hm hrid
  have hsorted := leafPut_sorted occ n m occ entry h hm hnew
  obtain ⟨pre, post, e1, e2, e3, e4⟩ := leafPut_entries_eq occ n m occ entry h hm hnew
  obtain ⟨l, r, hsplit, hl1, hr1, hl2, hl3, hl4, hr2, hr3, hr4⟩ :=
    leafSplit_spec occ m fresh newId hocc
  have hlk : ∀ i, i ≤ occ / 2 → l.keyArray i = m.keyArray i := fun i hi =>
    congrArg RIDKeyPair.key (hl2 i hi)
  have hlr : ∀ i, i ≤ occ / 2 → l.ridArray i = m.ridArray i := fun i hi =>
    congrArg RIDKeyPair.rid (hl2 i hi)
  have hrk : ∀ j, j < (occ + 1) / 2 → r.keyArray j = m.keyArray (occ / 2 + 1 + j) :=
    fun j hj => congrArg RIDKeyPair.key (hr2 j hj)
  have hrr : ∀ j, j < (occ + 1) / 2 → r.ridArray j = m.ridArray (occ / 2 + 1 + j) :=
    fun j hj => congrArg RIDKeyPair.rid (hr2 j hj)
  have hlh : LeafHolds occ l (occ / 2 + 1) := by
    refine ⟨by omega, ?_, hl4⟩
    intro i hi
    rw [hlr i (by omega)]
    exact hlive i (by omega)
  have hrh : LeafHolds occ r ((occ + 1) / 2) := by
    refine ⟨by omega, ?_, hr4⟩
    intro j hj
    rw [hrr j hj]
    exact hlive _ (by omega)
  have el : leafEntries occ l = (List.range (occ / 2 + 1)).map (entryAt m) := by
    rw [leafEntries_eq occ l _ hlh]
    apply List.map_congr_left
    intro i hi
    rw [List.mem_range] at hi
    exact hl2 i (by omega)
  have er : leafEntries occ r
      = ((List.range ((occ + 1) / 2)).map (fun j => occ / 2 + 1 + j)).map (entryAt m) := by
    rw [leafEntries_eq occ r _ hrh, List.map_map]
    apply List.map_congr_left
    intro j hj
    rw [List.mem_range] at hj
    exact hr2 j hj
  have hsum : occ + 1 = (occ / 2 + 1) + (occ + 1) / 2 := by omega
  refine ⟨l, r, hsplit, ⟨hlh, hl3, ?_⟩, ⟨hrh, hr3, ?_⟩, hl1, hr1.trans hsib,
    ⟨pre, post, e1, ?_, e3, e4⟩, ?_, ?_, ?_⟩
  · intro i j hij hj
    rw [hlk i (by omega), hlk j (by omega)]
    exact hsorted i j hij (by omega)
  · intro i j hij hj
    rw [hrk i (by omega), hrk j hj]
    exact hsorted _ _ (by omega) (by omega)
  · rw [el, er, ← List.map_append, ← List.range_add, ← hsum]
    exact e2
  · intro x hx
    rw [el, List.mem_map] at hx
    obtain ⟨i, hi, rfl⟩ := hx
    rw [List.mem_range] at hi
    rw [hrk 0 (by omega)]
    exact hsorted i _ (by omega) (by omega)
  · rw [el]
    simp
  · rw [er]
    simp

/-- C13: a leaf page holds `c` live entries with strictly ascending keys and the bound
in slot `c`, with `c` below `leafOccupancy`, and the key of the new entry is not in the
leaf.  The leaf branch of `insertUnderNode` then returns "no split" (`pageNo` is
`INVALID_NUMBER`) and leaves in the page a leaf with `c + 1` live entries, the old
entries with the new one at its sorted position, keys strictly ascending, the bound
(`INT_MAX`, page `INVALID_NUMBER`) in slot `c + 1`, and the right sibling unchanged;
no other page changes. -/
theorem insertUnderNode_leaf_no_split (fuel : Nat) (s : BTreeIndex) (p : Nat)
    (n : LeafNodeInt) (c : Nat) (entry : RIDKeyPair)
    (hn : s.pages p = some (PageData.leaf n))
    (hs : LeafSorted s.leafOccupancy n c) (hc : c < s.leafOccupancy)
    (hnew : ∀ i, i < c → n.keyArray i ≠ entry.key) (hrid : entry.rid.page_number ≠ 0) :
    ∃ s' b, insertUnderNode (fuel + 1) s entry p true
          = some (s', { pageNo := INVALID_NUMBER, key := entry.key })
      ∧ s'.pages p = some (PageData.leaf b)
      ∧ (∀ q, q ≠ p → s'.pages q = s.pages q)
      ∧ LeafSorted s.leafOccupancy b (c + 1)
      ∧ b.rightSibPageNo = n.rightSibPageNo
      ∧ ∃ pre post, leafEntries s.leafOccupancy n = pre ++ post
          ∧ leafEntries s.leafOccupancy b = pre ++ entry :: post
          ∧ (∀ x, x ∈ pre → x.key < entry.key) ∧ ∀ x, x ∈ post → entry.key < x.key := by
  obtain ⟨s1, hread, hsf⟩ := readPage_sameFile s p _ hn
  obtain ⟨hpages, _, hocc, _⟩ := hsf
  obtain ⟨m, hm, _⟩ := leafPut_spec s.leafOccupancy n c entry hs.1
  obtain ⟨b, hb, hsorted, hsib, hentries⟩ :=
    leaf_nosplit_sorted s.leafOccupancy n m c entry hs hm hrid (by omega) hnew
  have hnum := leafEntryNum_eq s.leafOccupancy n c hs.1
  have hne : ¬ c = s.leafOccupancy := by omega
  have hn1 : asLeaf s1 p = some n := by
    rw [asLeaf_eq_some, hpages]
    exact hn
  rw [insertUnderNode_leaf fuel s s1 entry p hread]
  unfold insertLeaf
  simp only [hn1, hocc, hm, hnum, hne, if_false, hb]
  refine ⟨_, b, rfl, by simp [unPinPage, writePage], ?_, hsorted, hsib, hentries⟩
  intro q hq
  simp [unPinPage, writePage, hq, hpages]

theorem insertUnderNode_leaf_no_split_witness :
    ∃ s' b, insertUnderNode 1 (writePage emptyIndex 2 (PageData.leaf oneEntryLeaf))
          (rec1 1 5) 2 true = some (s', { pageNo := INVALID_NUMBER, key := 5 })
      ∧ s'.pages 2 = some (PageData.leaf b)
      ∧ (∀ q, q ≠ 2 → s'.pages q
          = (writePage emptyIndex 2 (PageData.leaf oneEntryLeaf)).pages q)
      ∧ LeafSorted 3 b 2
      ∧ b.rightSibPageNo = oneEntryLeaf.rightSibPageNo
      ∧ ∃ pre post, leafEntries 3 oneEntryLeaf = pre ++ post
          ∧ leafEntries 3 b = pre ++ rec1 1 5 :: post
          ∧ (∀ x, x ∈ pre → x.key < 5) ∧ ∀ x, x ∈ post → 5 < x.key :=
  insertUnderNode_leaf_no_split 0 (writePage emptyIndex 2 (PageData.leaf oneEntryLeaf)) 2
    oneEntryLeaf 1 (rec1 1 5) (by simp [writePage])
    ⟨⟨by decide, fun i hi => by
        have : i = 0 := by omega
        subst this
        decide, by decide⟩, by decide, fun i j hij hj => by omega⟩
    (by decide)
    (fun i hi => by
      have : i = 0 := by omega
      subst this
      decide)
    (by decide)

/-- C14: a leaf page holds exactly `leafOccupancy` live entries with strictly ascending
keys, and the key of the new entry is not in the leaf (the arrays have at least two
slots).  The leaf branch of `insertUnderNode` then splits: the live entries of the old
leaf followed by those of the new right leaf are the old entries with the new one at
its sorted position, both leaves are non-empty and end with the bound, every key of the
old leaf is below the first key of the new leaf, the new leaf takes over the former
right sibling, the old leaf points to the new page, and the value handed upward is the
new page number with the first key of the new leaf. -/
theorem insertUnderNode_leaf_split (fuel : Nat) (s : BTreeIndex) (p : Nat)
    (n : LeafNodeInt) (entry : RIDKeyPair)
    (hn : s.pages p = some (PageData.leaf n)) (hp : p ≤ s.numPages)
    (hs : LeafSorted s.leafOccupancy n s.leafOccupancy) (hocc : 1 ≤ s.leafOccupancy)
    (hnew : ∀ i, i < s.leafOccupancy → n.keyArray i ≠ entry.key)
    (hrid : entry.rid.page_number ≠ 0) :
    ∃ s' l r, insertUnderNode (fuel + 1) s entry p true
          = some (s', { pageNo := s.numPages + 1, key := r.keyArray 0 })
      ∧ s'.pages p = some (PageData.leaf l)
      ∧ s'.pages (s.numPages + 1) = some (PageData.leaf r)
      ∧ (∀ q, q ≠ p → q ≠ s.numPages + 1 → s'.pages q = s.pages q)
      ∧ (∃ pre post, leafEntries s.leafOccupancy n = pre ++ post
          ∧ leafEntries s.leafOccupancy l ++ leafEntries s.leafOccupancy r
              = pre ++ entry :: post
          ∧ (∀ x, x ∈ pre → x.key < entry.key) ∧ ∀ x, x ∈ post → entry.key < x.key)
      ∧ leafEntries s.leafOccupancy l ≠ [] ∧ leafEntries s.leafOccupancy r ≠ []
      ∧ LeafSorted s.leafOccupancy l (s.leafOccupancy / 2 + 1)
      ∧ LeafSorted s.leafOccupancy r ((s.leafOccupancy + 1) / 2)
      ∧ (∀ x, x ∈ leafEntries s.leafOccupancy l → x.key < r.keyArray 0)
      ∧ r.rightSibPageNo = n.rightSibPageNo ∧ l.rightSibPageNo = s.numPages + 1 := by
  obtain ⟨s1, hread, hsf⟩ := readPage_sameFile s p _ hn
  obtain ⟨hpages, hnp, hocc1, _, hfresh, _⟩ := hsf
  obtain ⟨m, hm, _⟩ := leafPut_spec s.leafOccupancy n s.leafOccupancy entry hs.1
  obtain ⟨l, r, hsplit, hl, hr, hlsib, hrsib, hentries, hsep, hlen1, hlen2⟩ :=
    leaf_split_sorted s.leafOccupancy n m (s.freshLeaf (s.numPages + 1)) (s.numPages + 1)
      entry hs hm hrid hocc hnew
  have hnum := leafEntryNum_eq s.leafOccupancy n s.leafOccupancy hs.1
  have hn1 : asLeaf s1 p = some n := by
    rw [asLeaf_eq_some, hpages]
    exact hn
  have hpne : p ≠ s.numPages + 1 := by omega
  rw [insertUnderNode_leaf fuel s s1 entry p hread]
  unfold insertLeaf
  simp only [hn1, hocc1, hnp, hfresh, hm, hnum, if_true, hsplit]
  refine ⟨_, l, r, rfl, by simp [unPinPage, writePage, hpne], by simp [unPinPage, writePage],
    ?_, hentries, ?_, ?_, hl, hr, hsep, hrsib, hlsib⟩
  · intro q hq1 hq2
    simp [unPinPage, writePage, allocPage, hq1, hq2, hpages]
  · intro h0
    rw [h0] at hlen1
    simp at hlen1
  · intro h0
    rw [h0] at hlen2
    simp at hlen2
    omega

theorem insertUnderNode_leaf_split_witness :
    (∃ s' l r, insertUnderNode 1 fullIndex (rec1 3 40) 2 true
          = some (s', { pageNo := 3, key := r.keyArray 0 })
      ∧ s'.pages 2 = some (PageData.leaf l)
      ∧ s'.pages 3 = some (PageData.leaf r)
      ∧ (∀ q, q ≠ 2 → q ≠ 3 → s'.pages q = fullIndex.pages q)
      ∧ (∃ pre post, leafEntries 3 fullLeaf = pre ++ post
          ∧ leafEntries 3 l ++ leafEntries 3 r = pre ++ rec1 3 40 :: post
          ∧ (∀ x, x ∈ pre → x.key < 40) ∧ ∀ x, x ∈ post → 40 < x.key)
      ∧ leafEntries 3 l ≠ [] ∧ leafEntries 3 r ≠ []
      ∧ LeafSorted 3 l 2 ∧ LeafSorted 3 r 2
      ∧ (∀ x, x ∈ leafEntries 3 l → x.key < r.keyArray 0)
      ∧ r.rightSibPageNo = fullLeaf.rightSibPageNo ∧ l.rightSibPageNo = 3)
    ∧ (insertUnderNode 1 fullIndex (rec1 3 40) 2 true).map (fun x =>
          (x.2, (asLeaf x.1 2).map (leafEntries 3), (asLeaf x.1 3).map (leafEntries 3)))
        = some ({ pageNo := 3, key := 30 }, some [rec1 0 10, rec1 1 20],
            some [rec1 2 30, rec1 3 40]) :=
  ⟨insertUnderNode_leaf_split 0 fullIndex 2 fullLeaf (rec1 3 40) (by simp [fullIndex, writePage])
      (by decide)
      ⟨⟨by decide, by decide, by decide⟩, by decide, fun i j hij hj => by
        have hj3 : j < 3 := hj
        have hi3 : i < 3 := by omega
        simp only [fullLeaf, hi3, hj3, if_true]
        omega⟩
      (by decide) (by decide) (by decide),
    by decide⟩

/-- C15 as stated fails: with `L = 4` slots the leaf `[10, 20, 30]` splits on the
insertion of 40 into a left leaf of 2 live entries and a right leaf of 2, while
`floor(L/2) + 1` is 3. -/
theorem leaf_split_sizes_four_slots :
    fullIndex.leafOccupancy + 1 = 4
      ∧ (insertUnderNode 1 fullIndex (rec1 3 40) 2 true).map (fun x =>
          ((asLeaf x.1 2).map (fun l => (leafEntries 3 l).length),
            (asLeaf x.1 3).map (fun r => (leafEntries 3 r).length)))
        = some (some 2, some 2)
      ∧ 2 ≠ 4 / 2 + 1 := by
  decide

/-- C15, amended: for every leaf array of `L >= 2` slots, when the insertion into a
leaf with `L - 1` live entries splits the `L` entries, the old (left) leaf keeps
`floor((L-1)/2) + 1`, which is `ceil(L/2)`, live entries and the new right sibling
receives `floor(L/2)`. -/
theorem leaf_split_sizes (fuel : Nat) (L : Nat) (s : BTreeIndex) (p : Nat) (n : LeafNodeInt)
    (entry : RIDKeyPair) (hL : 2 ≤ L) (hocc : s.leafOccupancy = L - 1)
    (hn : s.pages p = some (PageData.leaf n)) (hp : p ≤ s.numPages)
    (hfull : LeafHolds (L - 1) n (L - 1)) (hrid : entry.rid.page_number ≠ 0) :
    ∃ s' nc l r, insertUnderNode (fuel + 1) s entry p true = some (s', nc)
      ∧ nc.pageNo = s.numPages + 1
      ∧ s'.pages p = some (PageData.leaf l)
      ∧ s'.pages nc.pageNo = some (PageData.leaf r)
      ∧ (leafEntries (L - 1) l).length = (L - 1) / 2 + 1
      ∧ (leafEntries (L - 1) r).length = L / 2
      ∧ (L - 1) / 2 + 1 = (L + 1) / 2
      ∧ (leafEntries (L - 1) l).length + (leafEntries (L - 1) r).length = L := by
  obtain ⟨s1, hread, hsf⟩ := readPage_sameFile s p _ hn
  obtain ⟨hpages, hnp, hocc1, _, hfresh, _⟩ := hsf
  obtain ⟨m, hm, _⟩ := leafPut_spec (L - 1) n (L - 1) entry hfull
  obtain ⟨l, r, hsplit, hl, hr, _, _, _⟩ :=
    leaf_insert_split (L - 1) n m (s.freshLeaf (s.numPages + 1)) (s.numPages + 1)
      entry hfull hm hrid (by omega)
  have hnum := leafEntryNum_eq (L - 1) n (L - 1) hfull
  have hn1 : asLeaf s1 p = some n := by
    rw [asLeaf_eq_some, hpages]
    exact hn
  have hpne : p ≠ s.numPages + 1 := by omega
  have hlen1 : (leafEntries (L - 1) l).length = (L - 1) / 2 + 1 := by
    rw [leafEntries_eq (L - 1) l _ hl]
    simp
  have hlen2 : (leafEntries (L - 1) r).length = L / 2 := by
    rw [leafEntries_eq (L - 1) r _ hr]
    have : L - 1 + 1 = L := by omega
    simp [this]
  rw [insertUnderNode_leaf fuel s s1 entry p hread]
  unfold insertLeaf
  simp only [hn1, hocc1, hocc, hnp, hfresh, hm, hnum, if_true, hsplit]
  refine ⟨_, _, l, r, rfl, rfl, by simp [unPinPage, writePage, hpne],
    by simp [unPinPage, writePage], hlen1, hlen2, by omega, by omega⟩

theorem leaf_split_sizes_witness :
    ∃ s' nc l r, insertUnderNode 1 fullIndex (rec1 3 40) 2 true = some (s', nc)
      ∧ nc.pageNo = fullIndex.numPages + 1
      ∧ s'.pages 2 = some (PageData.leaf l)
      ∧ s'.pages nc.pageNo = some (PageData.leaf r)
      ∧ (leafEntries (4 - 1) l).length = (4 - 1) / 2 + 1
      ∧ (leafEntries (4 - 1) r).length = 4 / 2
      ∧ (4 - 1) / 2 + 1 = (4 + 1) / 2
      ∧ (leafEntries (4 - 1) l).length + (leafEntries (4 - 1) r).length = 4 :=
  leaf_split_sizes 0 4 fullIndex 2 fullLeaf (rec1 3 40) (by decide) (by decide)
    (by simp [fullIndex, writePage]) (by decide) ⟨by decide, by decide, by decide⟩
    (by decide)

/-! ## An internal node whose child splits (C16) -/

/-- C16 (the code departs from it): the root is an internal node with the two live
children 2 and 3, the separator 30 and its bounds in place, and key 60 goes to the full
leaf of page 3, which splits and hands back `(50, page 5)`.  The internal branch reports
"no split", and the separator 50 is installed at index 1, but line 266 then writes
`INVALID_NUMBER` over child slot 2, where page 5 had just been put: the node is left
with two live children instead of three, and page 5 (keys 50 and 60) is in none. -/
theorem internal_insert_erases_new_child :
    (buildBound [rec1 0 10, rec1 1 20, rec1 2 30, rec1 3 40, rec1 4 50]).bind (fun s =>
        (insertUnderNode 2 s (rec1 5 60) s.rootPageNum false).map (fun x =>
          (nonLeafView s s.rootPageNum, x.2, nonLeafView x.1 s.rootPageNum,
            (asLeaf x.1 5).map (leafEntries 3))))
      = some
          (some { level := 1, liveChildren := 2, pageNoArray := [2, 3, 0, 0, 0, 0],
                  keyArray := [30, INT_MAX, INT_MAX, INT_MAX, INT_MAX] },
            { pageNo := INVALID_NUMBER, key := 60 },
            some { level := 1, liveChildren := 2, pageNoArray := [2, 3, 0, 0, 0, 0],
                   keyArray := [30, 50, INT_MAX, INT_MAX, INT_MAX] },
            some [rec1 4 50, rec1 5 60]) := by
  decide

/-! ## The split of an internal node (C17) -/

theorem nonLeafEntryNum_eq (occ : Nat) (n : NonLeafNodeInt) (m : Nat)
    (h : NonLeafHolds occ n m) : nonLeafEntryNum occ n = m := by
  obtain ⟨h1, h2, h3⟩ := h
  unfold nonLeafEntryNum
  apply findFrom_eq
  · exact Nat.zero_le _
  · omega
  · intro j _ hj
    simpa using h2 j hj
  · simpa using h3

/-- The search of lines 210-216 stops at a live child: the slot it gives is below the
number of live children. -/
theorem nonLeafPos_lt (occ : Nat) (key : Int) (n : NonLeafNodeInt) (m : Nat)
    (h : NonLeafHolds occ n m) (hm : 1 ≤ m) : nonLeafPos occ key n < m := by
  obtain ⟨h1, _, h3⟩ := h
  have h4 : nonLeafPos occ key n ≤ m - 1 := by
    unfold nonLeafPos
    apply findFrom_le_of_stop
    · exact Nat.zero_le _
    · omega
    · have : m - 1 + 1 = m := by omega
      simp [this, h3, INVALID_NUMBER]
  omega

/-- Lines 234-240 slot by slot, for a node with `en` live children and a descent slot
`pos` below `en`: the separator goes in at index `pos`, the child at index `pos + 1`. -/
theorem nonLeafPut_spec (occ : Nat) (n : NonLeafNodeInt) (pos en : Nat) (nc : PageKeyPair)
    (hpos : pos < en) (hen : en ≤ occ + 1) :
    ∃ m, nonLeafPut occ n pos en nc = some m
      ∧ m.level = n.level
      ∧ (∀ i, i < en → m.keyArray i = insertAt n.keyArray pos nc.key i)
      ∧ (∀ i, i ≤ en → m.pageNoArray i = insertAt n.pageNoArray (pos + 1) nc.pageNo i) := by
  unfold nonLeafPut
  by_cases hlt : pos < occ
  · have hfit : pos + 1 ≤ en
        ∧ copyFits pos (occ + 1) (pos + 1) (occ + 1) (en - 1 - pos) = true
        ∧ copyFits (pos + 1) (occ + 2) (pos + 2) (occ + 2) (en - 1 - pos) = true := by
      refine ⟨by omega, ?_, ?_⟩
      · simp only [copyFits, Bool.or_eq_true, decide_eq_true_eq, Bool.and_eq_true]
        omega
      · simp only [copyFits, Bool.or_eq_true, decide_eq_true_eq, Bool.and_eq_true]
        omega
    have hlt' : pos < occ + 1 := by omega
    simp only [hlt, if_true, hfit, and_self, hlt']
    refine ⟨_, rfl, rfl, ?_, ?_⟩
    · intro i hi
      simp only [setAt, copyArray, insertAt]
      by_cases h1 : i < pos
      · have h2 : i ≠ pos := by omega
        have h3 : ¬ (pos + 1 ≤ i ∧ i < pos + 1 + (en - 1 - pos)) := by omega
        simp [h1, h2, h3]
      · by_cases h2 : i = pos
        · simp [h2]
        · have h4 : pos + 1 ≤ i ∧ i < pos + 1 + (en - 1 - pos) := by omega
          have h5 : pos + (i - (pos + 1)) = i - 1 := by omega
          simp [h1, h2, h4, h5]
    · intro i hi
      simp only [setAt, copyArray, insertAt]
      by_cases h1 : i < pos + 1
      · have h2 : i ≠ pos + 1 := by omega
        have h3 : ¬ (pos + 2 ≤ i ∧ i < pos + 2 + (en - 1 - pos)) := by omega
        simp [h1, h2, h3]
      · by_cases h2 : i = pos + 1
        · simp [h2]
        · have h4 : pos + 2 ≤ i ∧ i < pos + 2 + (en - 1 - pos) := by omega
          have h5 : pos + 1 + (i - (pos + 2)) = i - 1 := by omega
          simp [h1, h2, h4, h5]
  · have hpo : pos = occ := by omega
    have hlt' : pos < occ + 1 := by omega
    simp only [hlt, if_false, hlt', if_true]
    refine ⟨_, rfl, rfl, ?_, ?_⟩
    · intro i hi
      simp only [setAt, insertAt]
      by_cases h1 : i < pos
      · have h2 : i ≠ pos := by omega
        simp [h1, h2]
      · have h2 : i = pos := by omega
        simp [h2]
    · intro i hi
      simp only [setAt, insertAt]
      by_cases h1 : i < pos + 1
      · have h2 : i ≠ pos + 1 := by omega
        simp [h1, h2]
      · have h2 : i = pos + 1 := by omega
        simp [h2]

/-- Lines 249-259 slot by slot. -/
theorem nonLeafSplit_spec (occ : Nat) (m fresh : NonLeafNodeInt) :
    (nonLeafSplit occ m fresh).2.2 = m.keyArray ((occ + 1) / 2)
      ∧ (nonLeafSplit occ m fresh).1.level = m.level
      ∧ (nonLeafSplit occ m fresh).2.1.level = m.level
      ∧ (∀ i, i < (occ + 1) / 2 → (nonLeafSplit occ m fresh).1.keyArray i = m.keyArray i)
      ∧ (nonLeafSplit occ m fresh).1.keyArray ((occ + 1) / 2) = INT_MAX
      ∧ (∀ i, i ≤ (occ + 1) / 2 →
          (nonLeafSplit occ m fresh).1.pageNoArray i = m.pageNoArray i)
      ∧ (nonLeafSplit occ m fresh).1.pageNoArray ((occ + 1) / 2 + 1) = INVALID_NUMBER
      ∧ (∀ j, j < occ / 2 →
          (nonLeafSplit occ m fresh).2.1.keyArray j = m.keyArray ((occ + 1) / 2 + 1 + j))
      ∧ (nonLeafSplit occ m fresh).2.1.keyArray (occ / 2) = INT_MAX
      ∧ (∀ j, j ≤ occ / 2 →
          (nonLeafSplit occ m fresh).2.1.pageNoArray j
            = m.pageNoArray ((occ + 1) / 2 + 1 + j))
      ∧ (nonLeafSplit occ m fresh).2.1.pageNoArray (occ / 2 + 1) = INVALID_NUMBER := by
  refine ⟨rfl, rfl, rfl, ?_, by simp [nonLeafSplit, setAt], ?_,
    by simp [nonLeafSplit, setAt], ?_, by simp [nonLeafSplit, setAt], ?_,
    by simp [nonLeafSplit, setAt]⟩
  · intro i hi
    have : i ≠ (occ + 1) / 2 := by omega
    simp [nonLeafSplit, setAt, this]
  · intro i hi
    have : i ≠ (occ + 1) / 2 + 1 := by omega
    simp [nonLeafSplit, setAt, this]
  · intro j hj
    have : j ≠ occ / 2 := by omega
    simp [nonLeafSplit, setAt, copyArray, this, hj]
  · intro j hj
    have h1 : j ≠ occ / 2 + 1 := by omega
    have h2 : j < occ / 2 + 1 := by omega
    simp [nonLeafSplit, setAt, copyArray, h1, h2]

/-- C17: an internal node holds `nodeOccupancy + 1` live children, and the split child
at descent slot `pos` hands back `new_child`.  Write `S` for the separators and `C` for
the children after the installation (`new_child.key` inserted at index `pos`,
`new_child.pageNo` at index `pos + 1`), `K = nodeOccupancy` and
`median = (K + 1) / 2`.  The internal branch returns the new page number with
`S[median]`; the old node keeps the separators `S[0 .. median)` and the children
`C[0 .. median]`, the new node holds the separators `S(median .. K]` and the children
`C[median+1 .. K+1]` in order; both end with the bounds (`INT_MAX`, `INVALID_NUMBER`),
both have the level of the old node, and when the separators ascend strictly the
median is a live key of neither. -/
theorem installChild_split (s : BTreeIndex) (p : Nat) (n : NonLeafNodeInt) (pos : Nat)
    (entry : RIDKeyPair) (new_child : PageKeyPair)
    (hn : s.pages p = some (PageData.nonLeaf n)) (hp : p ≤ s.numPages)
    (hfull : NonLeafHolds s.nodeOccupancy n (s.nodeOccupancy + 1))
    (hpos : pos ≤ s.nodeOccupancy) (hnc : new_child.pageNo ≠ INVALID_NUMBER) :
    ∃ s' l r, installChild s entry p pos new_child
          = some (s', { pageNo := s.numPages + 1,
                        key := insertAt n.keyArray pos new_child.key
                          ((s.nodeOccupancy + 1) / 2) })
      ∧ s'.pages p = some (PageData.nonLeaf l)
      ∧ s'.pages (s.numPages + 1) = some (PageData.nonLeaf r)
      ∧ (∀ i, i < (s.nodeOccupancy + 1) / 2 →
          l.keyArray i = insertAt n.keyArray pos new_child.key i)
      ∧ l.keyArray ((s.nodeOccupancy + 1) / 2) = INT_MAX
      ∧ (∀ i, i ≤ (s.nodeOccupancy + 1) / 2 →
          l.pageNoArray i = insertAt n.pageNoArray (pos + 1) new_child.pageNo i)
      ∧ l.pageNoArray ((s.nodeOccupancy + 1) / 2 + 1) = INVALID_NUMBER
      ∧ (∀ j, j < s.nodeOccupancy / 2 →
          r.keyArray j
            = insertAt n.keyArray pos new_child.key ((s.nodeOccupancy + 1) / 2 + 1 + j))
      ∧ r.keyArray (s.nodeOccupancy / 2) = INT_MAX
      ∧ (∀ j, j ≤ s.nodeOccupancy / 2 →
          r.pageNoArray j
            = insertAt n.pageNoArray (pos + 1) new_child.pageNo
                ((s.nodeOccupancy + 1) / 2 + 1 + j))
      ∧ r.pageNoArray (s.nodeOccupancy / 2 + 1) = INVALID_NUMBER
      ∧ NonLeafHolds s.nodeOccupancy l ((s.nodeOccupancy + 1) / 2 + 1)
      ∧ NonLeafHolds s.nodeOccupancy r (s.nodeOccupancy / 2 + 1)
      ∧ l.level = n.level ∧ r.level = n.level
      ∧ (s.nodeOccupancy + 1) / 2 + 1 + s.nodeOccupancy / 2 = s.nodeOccupancy + 1
      ∧ ((∀ i j, i < j → j ≤ s.nodeOccupancy →
            insertAt n.keyArray pos new_child.key i
              < insertAt n.keyArray pos new_child.key j) →
          (∀ i, i < (s.nodeOccupancy + 1) / 2 →
              l.keyArray i
                ≠ insertAt n.keyArray pos new_child.key ((s.nodeOccupancy + 1) / 2))
            ∧ ∀ j, j < s.nodeOccupancy / 2 →
              r.keyArray j
                ≠ insertAt n.keyArray pos new_child.key ((s.nodeOccupancy + 1) / 2)) := by
  obtain ⟨m, hm, hlev, hkeys, hpages⟩ :=
    nonLeafPut_spec s.nodeOccupancy n pos (s.nodeOccupancy + 1) new_child (by omega)
      (le_refl _)
  obtain ⟨k0, k1, k2, k3, k4, k5, k6, k7, k8, k9, k10⟩ :=
    nonLeafSplit_spec s.nodeOccupancy m (s.freshNonLeaf (s.numPages + 1))
  have hnum := nonLeafEntryNum_eq s.nodeOccupancy n _ hfull
  have hn1 : asNonLeaf s p = some n := (asNonLeaf_eq_some s p n).mpr hn
  have hpne : p ≠ s.numPages + 1 := by omega
  have hlive : ∀ i, i ≤ s.nodeOccupancy + 1 →
      insertAt n.pageNoArray (pos + 1) new_child.pageNo i ≠ INVALID_NUMBER := by
    intro i hi
    unfold insertAt
    split_ifs with a b
    · exact hfull.2.1 i (by omega)
    · exact hnc
    · exact hfull.2.1 (i - 1) (by omega)
  unfold installChild
  simp only [hn1, hnum, hm, if_true]
  rw [k0, hkeys _ (by omega)]
  refine ⟨_, (nonLeafSplit s.nodeOccupancy m (s.freshNonLeaf (s.numPages + 1))).1,
    (nonLeafSplit s.nodeOccupancy m (s.freshNonLeaf (s.numPages + 1))).2.1, rfl,
    by simp [unPinPage, writePage, hpne], by simp [unPinPage, writePage], ?_, k4, ?_, k6, ?_, k8, ?_, k10,
    ⟨by omega, ?_, k6⟩, ⟨by omega, ?_, k10⟩, k1.trans hlev, k2.trans hlev, by omega, ?_⟩
  · intro i hi
    rw [k3 i hi, hkeys i (by omega)]
  · intro i hi
    rw [k5 i hi, hpages i (by omega)]
  · intro j hj
    rw [k7 j hj, hkeys _ (by omega)]
  · intro j hj
    rw [k9 j hj, hpages _ (by omega)]
  · intro i hi
    rw [k5 i (by omega), hpages i (by omega)]
    exact hlive i (by omega)
  · intro j hj
    rw [k9 j (by omega), hpages _ (by omega)]
    exact hlive _ (by omega)
  · intro hasc
    constructor
    · intro i hi
      rw [k3 i hi, hkeys i (by omega)]
      exact ne_of_lt (hasc i _ hi (by omega))
    · intro j hj
      rw [k7 j hj, hkeys _ (by omega)]
      exact ne_of_gt (hasc _ _ (by omega) (by omega))

theorem installChild_split_witness :
    (∃ s' l r, installChild fullNodeIndex (rec1 7 80) 5 2 { pageNo := 6, key := 70 }
          = some (s', { pageNo := 7,
                        key := insertAt fullNode.keyArray 2 70 1 })
      ∧ s'.pages 5 = some (PageData.nonLeaf l)
      ∧ s'.pages 7 = some (PageData.nonLeaf r)
      ∧ (∀ i, i < 1 → l.keyArray i = insertAt fullNode.keyArray 2 70 i)
      ∧ l.keyArray 1 = INT_MAX
      ∧ (∀ i, i ≤ 1 → l.pageNoArray i = insertAt fullNode.pageNoArray 3 6 i)
      ∧ l.pageNoArray 2 = INVALID_NUMBER
      ∧ (∀ j, j < 1 → r.keyArray j = insertAt fullNode.keyArray 2 70 (2 + j))
      ∧ r.keyArray 1 = INT_MAX
      ∧ (∀ j, j ≤ 1 → r.pageNoArray j = insertAt fullNode.pageNoArray 3 6 (2 + j))
      ∧ r.pageNoArray 2 = INVALID_NUMBER
      ∧ NonLeafHolds 2 l 2
      ∧ NonLeafHolds 2 r 2
      ∧ l.level = fullNode.level ∧ r.level = fullNode.level
      ∧ (2 + 1) / 2 + 1 + 2 / 2 = 2 + 1
      ∧ ((∀ i j, i < j → j ≤ 2 →
            insertAt fullNode.keyArray 2 70 i < insertAt fullNode.keyArray 2 70 j) →
          (∀ i, i < 1 → l.keyArray i ≠ insertAt fullNode.keyArray 2 70 1)
            ∧ ∀ j, j < 1 → r.keyArray j ≠ insertAt fullNode.keyArray 2 70 1))
    ∧ (installChild fullNodeIndex (rec1 7 80) 5 2 { pageNo := 6, key := 70 }).map
        (fun x => (x.2, nonLeafView x.1 5, nonLeafView x.1 7))
      = some ({ pageNo := 7, key := 50 },
          some { level := 1, liveChildren := 2, pageNoArray := [2, 3, 0, 6],
                 keyArray := [30, INT_MAX, 70] },
          some { level := 1, liveChildren := 2, pageNoArray := [4, 6, 0, 0],
                 keyArray := [70, INT_MAX, 0] }) :=
  ⟨installChild_split fullNodeIndex 5 fullNode 2 (rec1 7 80) { pageNo := 6, key := 70 }
      (by simp [fullNodeIndex, writePage]) (by decide)
      ⟨by decide, by decide, by decide⟩ (by decide) (by decide),
    by decide⟩

/-! ## A new root (C18) -/

/-- C18 (the code departs from it): fresh buffers are zero-filled and the root is the
full leaf `[10, 20, 30]` of page 2 (height 1).  Inserting 40 splits it, and `insertEntry`
builds the new root in page 4 with `pageNoArray[0] = 2`, `keyArray[0] = 30` and
`pageNoArray[1] = 3`, but never writes its `level`: it stays at the 0 of the buffer
instead of 1.  The next insertion then takes the leaves for internal nodes, and nothing
fixes what it does. -/
theorem new_root_level_not_written :
    (buildZero [rec1 0 10, rec1 1 20, rec1 2 30]).bind (fun s =>
        (insertEntry 3 s 40 { page_number := 1, slot_number := 3 }).map (fun t =>
          ((asMeta s s.headerPageNum).map IndexMetaInfo.height, s.rootPageNum, t.rootPageNum,
            nonLeafView t t.rootPageNum,
            (insertEntry 3 t 50 { page_number := 1, slot_number := 4 }).isSome)))
      = some (some 1, 2, 4,
          some { level := 0, liveChildren := 2, pageNoArray := [2, 3, 0, 0, 0, 0],
                 keyArray := [30, 0, 0, 0, 0] },
          false) := by
  decide

/-! ## A rejected `startScan` (C19) -/

/-- C19 (the code departs from it): a scan of `[0, 100]` is active on the leaf
`[10, 20, 30]` when `startScan` is called with the range `[50, 15)`.  The call throws
`BadScanRange`, but lines 320-323 have already stored its operators and bounds: the
active scan now has the bounds 50 and 15 with `LT`, and where it would have handed back
the three rids it hands back the first one only. -/
theorem rejected_startScan_overwrites_bounds :
    (build [rec1 0 10, rec1 1 20, rec1 2 30]).bind (fun s =>
        (startScan 3 s 0 Operator.GTE 100 Operator.LTE).bind (fun a =>
          (startScan 3 a.1 50 Operator.GTE 15 Operator.LT).map (fun b =>
            (b.2, scanView a.1, scanView b.1))))
      = some (some Exn.BadScanRange,
          { scanExecuting := true, currentPageNum := 2, nextEntry := 0, lowValInt := 0,
            highValInt := 100, lowOp := Operator.GTE, highOp := Operator.LTE },
          { scanExecuting := true, currentPageNum := 2, nextEntry := 0, lowValInt := 50,
            highValInt := 15, lowOp := Operator.GTE, highOp := Operator.LT })
    ∧ (build [rec1 0 10, rec1 1 20, rec1 2 30]).bind (fun s =>
        (startScan 3 s 0 Operator.GTE 100 Operator.LTE).bind (fun a =>
          (startScan 3 a.1 50 Operator.GTE 15 Operator.LT).map (fun b =>
            (remainingRids 8 a.1, remainingRids 8 b.1))))
      = some (some [(rec1 0 10).rid, (rec1 1 20).rid, (rec1 2 30).rid],
          some [(rec1 0 10).rid]) := by
  decide

/-! ## Array bounds in the internal branch (C20) -/

/-- Lines 266-267 on a node with exactly `nodeOccupancy` live children: the key slot
`entry_num + 1` they write is past the `nodeOccupancy + 1` slots of `keyArray`. -/
theorem nonLeafBound_at_occupancy (occ : Nat) (n : NonLeafNodeInt) :
    nonLeafBound occ n occ = none := by
  simp [nonLeafBound]

/-- Lines 266-267 stay inside the arrays exactly when the node has fewer than
`nodeOccupancy` live children. -/
theorem nonLeafBound_isSome_iff (occ : Nat) (n : NonLeafNodeInt) (entry_num : Nat) :
    (nonLeafBound occ n entry_num).isSome = true ↔ entry_num < occ := by
  unfold nonLeafBound
  split
  · rename_i h
    simp only [Option.isSome_some, true_iff]
    omega
  · rename_i h
    simp only [Option.isSome_none, Bool.false_eq_true, false_iff]
    omega

/-- C20 (the code departs from it): with key arrays of 3 slots (`nodeOccupancy = 2`)
the root is an internal node with its bounds in place and two live children, which the
layout allows, and key 60 goes to the full leaf of page 3.  The leaf splits and hands
back `(50, page 5)`; the search of the root gives slot 1 and `entry_num = 2`, the shift
and the installation stay inside the arrays, and no split of the root follows.  Line
267 then writes `keyArray[entry_num + 1]`, slot 3 of an array of 3 slots: the write is
out of bounds, and nothing fixes the result of the insertion. -/
theorem internal_bound_write_out_of_bounds :
    (buildSmall [rec1 0 10, rec1 1 20, rec1 2 30, rec1 3 40, rec1 4 50]).map (fun s =>
        (s.nodeOccupancy, nonLeafView s s.rootPageNum))
      = some (2, some { level := 1, liveChildren := 2, pageNoArray := [2, 3, 0, 0],
                        keyArray := [30, INT_MAX, INT_MAX] })
    ∧ (buildSmall [rec1 0 10, rec1 1 20, rec1 2 30, rec1 3 40, rec1 4 50]).bind (fun s =>
        (readPage s s.rootPageNum).bind (fun s1 =>
          (insertUnderNode 1 s1 (rec1 5 60) 3 true).bind (fun x =>
            (asNonLeaf x.1 s.rootPageNum).map (fun n =>
              (x.2, nonLeafPos 2 60 n, nonLeafEntryNum 2 n,
                (nonLeafPut 2 n 1 2 x.2).isSome,
                ((nonLeafPut 2 n 1 2 x.2).bind (fun m => nonLeafBound 2 m 2)).isSome)))))
      = some ({ pageNo := 5, key := 50 }, 1, 2, true, false)
    ∧ (buildSmall [rec1 0 10, rec1 1 20, rec1 2 30, rec1 3 40, rec1 4 50]).map (fun s =>
        (insertUnderNode 2 s (rec1 5 60) s.rootPageNum false).isSome)
      = some false := by
  decide

end BadgerDB
